import Mathlib

/-!
LeanStore concurrency control: commit log, visibility and watermarks.

A shallow embedding of `Src/leanstore/concurrency/ConcurrencyControl.cpp`.

* `TXID` is a 64-bit unsigned integer; it is embedded as `Nat`, and every addition
  the source performs on a `TXID` is taken modulo `2 ^ 64`.
* The embedding is sequential: latches, atomics and the global try-lock are not
  modelled, an optimistic read never has to restart, and the outcome of the
  random gate and of `try_lock` are inputs of the functions that consult them.
* `LS_DCHECK` is a debug-build assertion; it does not contribute to the value a
  function returns. Each asserted condition is given as a predicate of its own.
* `Log::Fatal` ends the process; it is the outcome `Result.fatal`.
* The transaction coordinator is not among the sources at hand. Where a property
  is one of the runs of the store, `StartTx`, `CommitTx` and `AbortTx` are taken from
  the spec and an execution is an interleaving of whole operations.
-/

namespace leanstore.cr

/-! ## Basic types -/

/-- The largest 64-bit value, `std::numeric_limits<TXID>::max()`. -/
def TXID_MAX : Nat := 2 ^ 64 - 1

/-- The smallest 64-bit value, `std::numeric_limits<TXID>::min()`. -/
def TXID_MIN : Nat := 0

/-- Addition of two 64-bit unsigned integers. -/
def add64 (a b : Nat) : Nat := (a + b) % 2 ^ 64

/-- Outcome of a call: a value; a fatal log (`Log::Fatal`); an access outside the
bounds of a vector, which the source leaves undefined; or `spin`, when the number of
loop iterations granted to a retry loop is used up before the loop returns. -/
inductive Result (α : Type) where
  | ok : α → Result α
  | fatal : Result α
  | undef : Result α
  | spin : Result α
  deriving DecidableEq, Repr

/-! ## Data model -/

/-- The commit log of a worker: `mCommitLog` holds `(commitTs, startTs)` pairs in the
order they were appended, `mCapacity` is the size at which compaction is due. -/
structure CommitTree where
  mCommitLog : List (Nat × Nat)
  mCapacity : Nat
  deriving DecidableEq, Repr

/-- Modelled from the spec: the enumeration `IsolationLevel` is declared outside the
sources at hand; the spec lists the levels SnapshotIsolation, Serializable and
ReadCommitted. -/
inductive IsolationLevel where
  | kSnapshotIsolation
  | kSerializable
  | kReadCommitted
  deriving DecidableEq, Repr

/-- The fields of the active transaction that the concurrency control reads. -/
structure Transaction where
  mStartTs : Nat
  mTxIsolationLevel : IsolationLevel
  deriving DecidableEq, Repr

/-- A call made on `mHistoryStorage`, with the arguments that are plain values (the
callbacks only forward to the tree registry). The history storage itself is an
external collaborator; the embedding records the calls in the order they are made. -/
inductive HistoryCall where
  | PutVersion (startTs commandId treeId : Nat) (isRemoveCommand : Bool) (versionSize : Nat)
  | PurgeVersions (fromTxId toTxId : Nat)
  | VisitRemovedVersions (fromTxId toTxId : Nat)
  deriving DecidableEq, Repr

/-- The per-worker state of `ConcurrencyControl`. `mLcbCacheKey` and `mLcbCacheVal`
are the two arrays indexed by worker id; `mHistoryStorage` is the list of calls made
on the history storage so far. -/
structure ConcurrencyControl where
  mCommitTree : CommitTree
  mHistoryStorage : List HistoryCall
  mLcbCacheKey : List Nat
  mLcbCacheVal : List Nat
  mGlobalWmkOfAllTx : Nat
  mLatestCommitTs : Nat
  mUpdatedLatestCommitTs : Nat
  mWmkVersion : Nat
  mWmkOfAllTx : Nat
  mWmkOfShortTx : Nat
  mLocalWmkOfAllTx : Nat
  mLocalWmkOfShortTx : Nat
  mCleanedWmkOfShortTx : Nat
  deriving DecidableEq, Repr

/-- The fields of `WorkerContext` that the concurrency control reads or writes. The
worker id of a worker is its index in `mAllWorkers`. -/
structure WorkerContext where
  mActiveTxId : Nat
  mActiveTx : Transaction
  mCommandId : Nat
  mCc : ConcurrencyControl
  deriving DecidableEq, Repr

/-- The store options the concurrency control consults. -/
structure StoreOption where
  mEnableGc : Bool
  mEnableEagerGc : Bool
  mEnableLongRunningTx : Bool
  deriving DecidableEq, Repr

/-- The fields of `mCRManager->mGlobalWmkInfo` (its mutex apart). -/
structure GlobalWmkInfo where
  mOldestActiveTx : Nat
  mOldestActiveShortTx : Nat
  mNewestActiveLongTx : Nat
  mWmkOfAllTx : Nat
  mWmkOfShortTx : Nat
  deriving DecidableEq, Repr

/-- The shared state: options, global watermark info and the vector of all workers. -/
structure LeanStore where
  mStoreOption : StoreOption
  mGlobalWmkInfo : GlobalWmkInfo
  mAllWorkers : List WorkerContext
  deriving DecidableEq, Repr

/-- Modelled from the spec: `WorkerContext::kLongRunningBit` is declared outside the
sources at hand; the spec puts the long-running flag in bit 63 of `mActiveTxId`. -/
def kLongRunningBit : Nat := 2 ^ 63

/-- Modelled from the spec: `WorkerContext::kRcBit` is declared outside the sources at
hand; the spec puts the read-committed flag in bit 62 of `mActiveTxId`. -/
def kRcBit : Nat := 2 ^ 62

/-- Modelled from the spec: `WorkerContext::kCleanBitsMask` is declared outside the
sources at hand; the spec keeps bits 0..61, the transaction id, and clears the two
flag bits. -/
def kCleanBitsMask : Nat := 2 ^ 62 - 1

/-- Modelled from the spec: `kRemoveCommandMark` and the type `COMMANDID` are declared
outside the sources at hand; the spec makes the remove mark the top bit of a command
id. `topBit` is the index of that bit, so a `COMMANDID` has `topBit + 1` bits. -/
def kRemoveCommandMark (topBit : Nat) : Nat := 2 ^ topBit

/-! ## CommitTree -/

namespace CommitTree

/-- The commit timestamps of a log are strictly increasing from front to back. -/
abbrev StrictIncCommit (log : List (Nat × Nat)) : Prop :=
  log.Pairwise (fun a b => a.1 < b.1)

/-- The loop of `std::lower_bound(first, first + len, startTs, comp)` with
`comp(pair, startTs) = startTs > pair.first`: halve `len`, look at the middle
element, continue to the right of it when `comp` holds and to the left of it
otherwise. `first` is an index into `log`. The first argument bounds the number
of iterations; `len` iterations always suffice since `len` decreases each time. -/
def lowerBoundLoop (log : List (Nat × Nat)) (startTs : Nat) : Nat → Nat → Nat → Nat
  | 0, first, _ => first
  | fuel + 1, first, len =>
    if len = 0 then first
    else
      let half := len / 2
      let middle := first + half
      match log[middle]? with
      | none => first
      | some pair =>
        if startTs > pair.1 then
          lowerBoundLoop log startTs fuel (middle + 1) (len - half - 1)
        else
          lowerBoundLoop log startTs fuel first half

/-- Index returned by `std::lower_bound(mCommitLog.begin(), mCommitLog.end(), startTs, comp)`. -/
def lowerBound (log : List (Nat × Nat)) (startTs : Nat) : Nat :=
  lowerBoundLoop log startTs log.length 0 log.length

/-- `CommitTree::lcbNoLatch`: no entry when the lower bound is `begin()`, otherwise
the entry just before the lower bound. -/
def lcbNoLatch (t : CommitTree) (startTs : Nat) : Option (Nat × Nat) :=
  let it := lowerBound t.mCommitLog startTs
  if it = 0 then none
  else t.mCommitLog[it - 1]?

/-- The condition of `LS_DCHECK(it->second < startTs)` in `lcbNoLatch`, at the entry
the function steps back to; it holds vacuously when the function returns early. -/
def lcbNoLatchDcheck (t : CommitTree) (startTs : Nat) : Bool :=
  match lcbNoLatch t startTs with
  | none => true
  | some pair => decide (pair.2 < startTs)

/-- `CommitTree::Lcb`: the `second` component of the entry `lcbNoLatch` finds, `0`
when it finds none. Without a concurrent writer the optimistic guard never jumps
and the first pass of the retry loop returns. -/
def Lcb (t : CommitTree) (startTs : Nat) : Nat :=
  match lcbNoLatch t startTs with
  | some result => result.2
  | none => 0

/-- The condition of `LS_DCHECK(mCommitLog.size() < mCapacity)` in `AppendCommitLog`. -/
def AppendCommitLogDcheck (t : CommitTree) : Bool :=
  decide (t.mCommitLog.length < t.mCapacity)

/-- `CommitTree::AppendCommitLog`: `mCommitLog.push_back({commitTs, startTs})`. -/
def AppendCommitLog (t : CommitTree) (startTs commitTs : Nat) : CommitTree :=
  { t with mCommitLog := t.mCommitLog ++ [(commitTs, startTs)] }

/-- The order of `std::pair<TXID, TXID>`: lexicographic. -/
def pairLess (a b : Nat × Nat) : Bool :=
  decide (a.1 < b.1) || (decide (a.1 = b.1) && decide (a.2 < b.2))

/-- `std::set<std::pair<TXID, TXID>>::insert`, the set being the list of its elements
in ascending order: an element already present is not inserted again. -/
def setInsert (p : Nat × Nat) : List (Nat × Nat) → List (Nat × Nat)
  | [] => [p]
  | x :: xs =>
    if pairLess p x then p :: x :: xs
    else if pairLess x p then x :: setInsert p xs
    else x :: xs

/-- The loop of `CompactCommitLog` over the workers from index `i` on: skip the own
worker and every worker with `mActiveTxId == 0`, clear the flag bits of the others'
ids and insert what `lcbNoLatch` finds for them. -/
def compactLoop (t : CommitTree) (myWorkerId : Nat) :
    List WorkerContext → Nat → List (Nat × Nat) → List (Nat × Nat)
  | [], _, set => set
  | w :: rest, i, set =>
    if i = myWorkerId then compactLoop t myWorkerId rest (i + 1) set
    else
      let activeTxId := w.mActiveTxId
      if activeTxId = 0 then compactLoop t myWorkerId rest (i + 1) set
      else
        let activeTxId := activeTxId &&& kCleanBitsMask
        match lcbNoLatch t activeTxId with
        | some result => compactLoop t myWorkerId rest (i + 1) (setInsert result set)
        | none => compactLoop t myWorkerId rest (i + 1) set

/-- `CommitTree::CompactCommitLog`, run by worker `myWorkerId` on its own tree with
`allWorkers` the vector of all workers. Below capacity nothing happens. Otherwise
the set starts from `mCommitLog[size - 1]` (undefined on an empty log), the loop adds
the entries the other workers need, and the log is refilled from the set. -/
def CompactCommitLog (t : CommitTree) (myWorkerId : Nat) (allWorkers : List WorkerContext) :
    Result CommitTree :=
  if t.mCommitLog.length < t.mCapacity then .ok t
  else
    match t.mCommitLog[t.mCommitLog.length - 1]? with
    | none => .undef
    | some latest =>
      .ok { t with mCommitLog := compactLoop t myWorkerId allWorkers 0 (setInsert latest []) }

/-- What `lcbNoLatch` returns on a log with strictly increasing commit timestamps,
as a relation between the log, the query and the result. -/
def IsLcb (log : List (Nat × Nat)) (q : Nat) : Option (Nat × Nat) → Prop
  | none => ∀ e ∈ log, q ≤ e.1
  | some r => r ∈ log ∧ r.1 < q ∧ ∀ e ∈ log, e.1 < q → e.1 ≤ r.1

/-- The invariants the spec states for a commit log: the commit timestamps are
strictly increasing, every entry has `startTs < commitTs`, and the `startTs` of an
entry is greater than the `commitTs` of every earlier entry. -/
abbrev LogInvariants (log : List (Nat × Nat)) : Prop :=
  StrictIncCommit log ∧ (∀ e ∈ log, e.2 < e.1) ∧ log.Pairwise (fun a b => a.1 < b.2)

/-- Follows the spec's words for `Lcb`: the largest commit timestamp of any entry
whose `startTs` is strictly less than the query, `0` when there is no such entry. -/
def LcbSpec (log : List (Nat × Nat)) (startTs : Nat) : Nat :=
  ((log.filter (fun e => decide (e.2 < startTs))).map (fun e => e.1)).foldr max 0

/-- The number of other workers whose `mActiveTxId` is nonzero, for the worker
`myWorkerId` and the vector `allWorkers`. -/
def liveSiblings (myWorkerId : Nat) (allWorkers : List WorkerContext) : Nat :=
  ((allWorkers.enumFrom 0).filter
    (fun p => decide (p.1 ≠ myWorkerId ∧ p.2.mActiveTxId ≠ 0))).length

end CommitTree

/-! ## GlobalWmkInfo -/

namespace GlobalWmkInfo

/-- Modelled from the spec: `GlobalWmkInfo::UpdateActiveTxInfo` is defined outside the
sources at hand; the spec has it publish `(oldestActiveTx, oldestActiveShortTx,
newestLongTx)`. -/
def UpdateActiveTxInfo (g : GlobalWmkInfo) (oldestTx oldestShortTx newestLongTx : Nat) :
    GlobalWmkInfo :=
  { g with mOldestActiveTx := oldestTx, mOldestActiveShortTx := oldestShortTx,
           mNewestActiveLongTx := newestLongTx }

/-- Modelled from the spec: `GlobalWmkInfo::UpdateWmks` is defined outside the sources
at hand; the spec has it publish the two global watermarks. -/
def UpdateWmks (g : GlobalWmkInfo) (wmkOfAll wmkOfShort : Nat) : GlobalWmkInfo :=
  { g with mWmkOfAllTx := wmkOfAll, mWmkOfShortTx := wmkOfShort }

end GlobalWmkInfo

/-! ## ConcurrencyControl -/

namespace ConcurrencyControl

/-- `ConcurrencyControl::PutVersion`, called by worker `me` on its own
`ConcurrencyControl`, with `topBit` the index of the top bit of a `COMMANDID`: take the
worker's `mCommandId` and increment it, set the remove mark for a remove command, and
put the version into the history storage under the start timestamp of the active
transaction and the command id. The callback only fills the payload. The result is
the returned command id and the state after the call. -/
def PutVersion (topBit : Nat) (s : LeanStore) (me treeId : Nat) (isRemoveCommand : Bool)
    (versionSize : Nat) : Result (Nat × LeanStore) :=
  match s.mAllWorkers[me]? with
  | none => .undef
  | some curWorker =>
    let commandId := curWorker.mCommandId
    let curWorker := { curWorker with mCommandId := (commandId + 1) % 2 ^ (topBit + 1) }
    let commandId :=
      if isRemoveCommand then commandId ||| kRemoveCommandMark topBit else commandId
    let cc := { curWorker.mCc with
      mHistoryStorage := curWorker.mCc.mHistoryStorage ++
        [HistoryCall.PutVersion curWorker.mActiveTx.mStartTs commandId treeId isRemoveCommand
          versionSize] }
    .ok (commandId, { s with mAllWorkers := s.mAllWorkers.set me { curWorker with mCc := cc } })

/-- `ConcurrencyControl::VisibleForMe`, called by worker `me` on its own
`ConcurrencyControl`; `Other(workerId)` is `mAllWorkers[workerId]->mCc`. The result is
the returned boolean and the state after the call. -/
def VisibleForMe (s : LeanStore) (me workerId txId : Nat) : Result (Bool × LeanStore) :=
  match s.mAllWorkers[me]? with
  | none => .undef
  | some my =>
    if me = workerId then .ok (true, s)
    else
      match my.mActiveTx.mTxIsolationLevel with
      | .kSnapshotIsolation | .kSerializable =>
        if txId < my.mCc.mGlobalWmkOfAllTx then .ok (true, s)
        else
          match my.mCc.mLcbCacheKey[workerId]?, my.mCc.mLcbCacheVal[workerId]? with
          | some key, some val =>
            if key = my.mActiveTx.mStartTs then .ok (decide (val ≥ txId), s)
            else if val ≥ txId then .ok (true, s)
            else
              match s.mAllWorkers[workerId]? with
              | none => .undef
              | some other =>
                let largestVisibleTxId := other.mCc.mCommitTree.Lcb my.mActiveTx.mStartTs
                if largestVisibleTxId ≠ 0 then
                  let cc := { my.mCc with
                    mLcbCacheKey := my.mCc.mLcbCacheKey.set workerId my.mActiveTx.mStartTs,
                    mLcbCacheVal := my.mCc.mLcbCacheVal.set workerId largestVisibleTxId }
                  .ok (decide (largestVisibleTxId ≥ txId),
                    { s with mAllWorkers := s.mAllWorkers.set me { my with mCc := cc } })
                else .ok (false, s)
          | _, _ => .undef
      | .kReadCommitted => .fatal

/-- The state `s` with the two LCB caches of worker `me`, whose context is `my`,
replaced. -/
def withLcbCaches (s : LeanStore) (me : Nat) (my : WorkerContext) (key val : List Nat) :
    LeanStore :=
  { s with
    mAllWorkers := s.mAllWorkers.set me
      { my with mCc := { my.mCc with mLcbCacheKey := key, mLcbCacheVal := val } } }

/-- Follows the claim's words for `VisibleForMe` under SnapshotIsolation and
Serializable, with `key` and `val` the observer's two caches, `globalWmk` its
`mGlobalWmkOfAllTx`, `startTs` the start timestamp of its active transaction and `lcb`
the value of `Lcb(startTs)` on the commit log of worker `workerId`: the result and the
two caches afterwards. -/
def VisibleForMeRef (myWorkerId startTs globalWmk : Nat) (key val : List Nat) (lcb : Nat)
    (workerId txId : Nat) : Bool × List Nat × List Nat :=
  if workerId = myWorkerId then (true, key, val)
  else if txId < globalWmk then (true, key, val)
  else if key.getD workerId 0 = startTs then (decide (val.getD workerId 0 ≥ txId), key, val)
  else if val.getD workerId 0 ≥ txId then (true, key, val)
  else if lcb ≠ 0 then (decide (lcb ≥ txId), key.set workerId startTs, val.set workerId lcb)
  else (false, key, val)

/-- `ConcurrencyControl::VisibleForAll`. -/
def VisibleForAll (s : LeanStore) (txId : Nat) : Bool :=
  decide (txId < s.mGlobalWmkInfo.mWmkOfAllTx)

/-- The three ids the first loop of `updateGlobalTxWatermarks` computes. -/
structure ActiveTxScan where
  oldestTxId : Nat
  newestLongTxId : Nat
  oldestShortTxId : Nat
  deriving DecidableEq, Repr

/-- The first loop of `updateGlobalTxWatermarks`, over the workers still to visit:
skip a worker that runs no transaction or runs one in read-committed mode, decode
the long-running flag, clear the flag bits and fold the id into the three ids. -/
def scanActiveTxIds : List WorkerContext → ActiveTxScan → ActiveTxScan
  | [], acc => acc
  | w :: rest, acc =>
    let activeTxId := w.mActiveTxId
    if activeTxId = 0 then scanActiveTxIds rest acc
    else if activeTxId &&& kRcBit ≠ 0 then scanActiveTxIds rest acc
    else
      let isLongRunningTx := decide (activeTxId &&& kLongRunningBit ≠ 0)
      let activeTxId := activeTxId &&& kCleanBitsMask
      let oldestTxId := min activeTxId acc.oldestTxId
      if isLongRunningTx then
        scanActiveTxIds rest
          { acc with oldestTxId := oldestTxId,
                     newestLongTxId := max activeTxId acc.newestLongTxId }
      else
        scanActiveTxIds rest
          { acc with oldestTxId := oldestTxId,
                     oldestShortTxId := min activeTxId acc.oldestShortTxId }

/-- What the second loop of `updateGlobalTxWatermarks` leaves behind: the workers
with their published watermarks and the two running minima. -/
structure WmkRound where
  workers : List WorkerContext
  globalWmkOfAllTx : Nat
  globalWmkOfShortTx : Nat
  deriving DecidableEq, Repr

/-- The second loop of `updateGlobalTxWatermarks`, over the workers still to visit,
with `g` the global info after `UpdateActiveTxInfo`. A worker that has committed
nothing since the last round keeps its watermarks; for any other worker the two
watermarks are computed by `Lcb` on its own commit tree and published between two
increments of `mWmkVersion`, and `mUpdatedLatestCommitTs` catches up. Either way the
watermarks enter the running minima unless both are zero. -/
def updateWmkLoop (g : GlobalWmkInfo) : List WorkerContext → Nat → Nat → WmkRound
  | [], globalWmkOfAllTx, globalWmkOfShortTx => ⟨[], globalWmkOfAllTx, globalWmkOfShortTx⟩
  | w :: rest, globalWmkOfAllTx, globalWmkOfShortTx =>
    let mCc := w.mCc
    if mCc.mUpdatedLatestCommitTs = mCc.mLatestCommitTs then
      let wmkOfAllTx := mCc.mWmkOfAllTx
      let wmkOfShortTx := mCc.mWmkOfShortTx
      let r :=
        if wmkOfAllTx > 0 ∨ wmkOfShortTx > 0 then
          updateWmkLoop g rest (min wmkOfAllTx globalWmkOfAllTx)
            (min wmkOfShortTx globalWmkOfShortTx)
        else updateWmkLoop g rest globalWmkOfAllTx globalWmkOfShortTx
      { r with workers := w :: r.workers }
    else
      let wmkOfAllTx := mCc.mCommitTree.Lcb g.mOldestActiveTx
      let wmkOfShortTx := mCc.mCommitTree.Lcb g.mOldestActiveShortTx
      let mCc := { mCc with mWmkVersion := add64 mCc.mWmkVersion 1 }
      let mCc := { mCc with mWmkOfAllTx := wmkOfAllTx }
      let mCc := { mCc with mWmkOfShortTx := wmkOfShortTx }
      let mCc := { mCc with mWmkVersion := add64 mCc.mWmkVersion 1 }
      let mCc := { mCc with mUpdatedLatestCommitTs := mCc.mLatestCommitTs }
      let r :=
        if wmkOfAllTx > 0 ∨ wmkOfShortTx > 0 then
          updateWmkLoop g rest (min wmkOfAllTx globalWmkOfAllTx)
            (min wmkOfShortTx globalWmkOfShortTx)
        else updateWmkLoop g rest globalWmkOfAllTx globalWmkOfShortTx
      { r with workers := { w with mCc := mCc } :: r.workers }

/-- `ConcurrencyControl::updateGlobalTxWatermarks`. `rand` is the value drawn by
`RandU64(0, mAllWorkers.size())` and `tryLock` the outcome of `try_lock` on the global
mutex, which is released again on exit. -/
def updateGlobalTxWatermarks (s : LeanStore) (rand : Nat) (tryLock : Bool) : Result LeanStore :=
  if !s.mStoreOption.mEnableGc then .ok s
  else
    let meetGcProbability := s.mStoreOption.mEnableEagerGc || decide (rand = 0)
    let performGc := meetGcProbability && tryLock
    if !performGc then .ok s
    else
      let scan := scanActiveTxIds s.mAllWorkers ⟨TXID_MAX, TXID_MIN, TXID_MAX⟩
      let g := s.mGlobalWmkInfo.UpdateActiveTxInfo scan.oldestTxId scan.oldestShortTxId
        scan.newestLongTxId
      if !s.mStoreOption.mEnableLongRunningTx ∧ g.mOldestActiveTx ≠ g.mOldestActiveShortTx then
        .fatal
      else
        let r := updateWmkLoop g s.mAllWorkers TXID_MAX TXID_MAX
        if g.mWmkOfAllTx = r.globalWmkOfAllTx ∧ g.mWmkOfShortTx = r.globalWmkOfShortTx then
          .ok { s with mGlobalWmkInfo := g, mAllWorkers := r.workers }
        else if r.globalWmkOfAllTx = TXID_MAX ∨ r.globalWmkOfShortTx = TXID_MAX then
          .ok { s with mGlobalWmkInfo := g, mAllWorkers := r.workers }
        else
          .ok { s with mGlobalWmkInfo := g.UpdateWmks r.globalWmkOfAllTx r.globalWmkOfShortTx,
                       mAllWorkers := r.workers }

/-- The words of the workers that the scan of `updateGlobalTxWatermarks` does not
skip: nonzero and without the read-committed bit. -/
def trackedWords (ws : List WorkerContext) : List Nat :=
  (ws.map (fun w => w.mActiveTxId)).filter (fun a => decide (a ≠ 0 ∧ a &&& kRcBit = 0))

/-- The ids of all tracked transactions, flag bits cleared. -/
def trackedIds (ws : List WorkerContext) : List Nat :=
  (trackedWords ws).map (fun a => a &&& kCleanBitsMask)

/-- The ids of the tracked transactions without the long-running bit. -/
def trackedShortIds (ws : List WorkerContext) : List Nat :=
  ((trackedWords ws).filter (fun a => decide (a &&& kLongRunningBit = 0))).map
    (fun a => a &&& kCleanBitsMask)

/-- The ids of the tracked transactions with the long-running bit. -/
def trackedLongIds (ws : List WorkerContext) : List Nat :=
  ((trackedWords ws).filter (fun a => decide (a &&& kLongRunningBit ≠ 0))).map
    (fun a => a &&& kCleanBitsMask)

/-- The worker a pass of the second loop of `updateGlobalTxWatermarks` leaves behind,
as the claims describe it: untouched when it has committed nothing since the last
round, otherwise with both watermarks recomputed by `Lcb` on its own commit tree, the
version advanced twice and `mUpdatedLatestCommitTs` caught up. -/
def republished (g : GlobalWmkInfo) (w : WorkerContext) : WorkerContext :=
  if w.mCc.mUpdatedLatestCommitTs = w.mCc.mLatestCommitTs then w
  else
    { w with mCc := { w.mCc with
        mWmkVersion := add64 (add64 w.mCc.mWmkVersion 1) 1,
        mWmkOfAllTx := w.mCc.mCommitTree.Lcb g.mOldestActiveTx,
        mWmkOfShortTx := w.mCc.mCommitTree.Lcb g.mOldestActiveShortTx,
        mUpdatedLatestCommitTs := w.mCc.mLatestCommitTs } }

/-- The gate of `updateGlobalTxWatermarks`: GC is enabled, the round meets the GC
probability (eager GC, or the drawn value is zero) and the global mutex is taken. -/
def passesGate (s : LeanStore) (rand : Nat) (tryLock : Bool) : Bool :=
  s.mStoreOption.mEnableGc && (s.mStoreOption.mEnableEagerGc || decide (rand = 0)) && tryLock

/-- The running minima the second loop of `updateGlobalTxWatermarks` ends with, read
off the watermarks the workers hold after the loop: a worker whose two watermarks are
both zero does not count. -/
def wmkMinima : List WorkerContext → Nat → Nat → Nat × Nat
  | [], globalWmkOfAllTx, globalWmkOfShortTx => (globalWmkOfAllTx, globalWmkOfShortTx)
  | w :: rest, globalWmkOfAllTx, globalWmkOfShortTx =>
    if w.mCc.mWmkOfAllTx > 0 ∨ w.mCc.mWmkOfShortTx > 0 then
      wmkMinima rest (min w.mCc.mWmkOfAllTx globalWmkOfAllTx)
        (min w.mCc.mWmkOfShortTx globalWmkOfShortTx)
    else wmkMinima rest globalWmkOfAllTx globalWmkOfShortTx

/-- The global info after `UpdateActiveTxInfo` in a round on `s`: the three ids the
scan of the workers of `s` computes, the global watermarks as they were. -/
def roundInfo (s : LeanStore) : GlobalWmkInfo :=
  s.mGlobalWmkInfo.UpdateActiveTxInfo
    (scanActiveTxIds s.mAllWorkers ⟨TXID_MAX, TXID_MIN, TXID_MAX⟩).oldestTxId
    (scanActiveTxIds s.mAllWorkers ⟨TXID_MAX, TXID_MIN, TXID_MAX⟩).oldestShortTxId
    (scanActiveTxIds s.mAllWorkers ⟨TXID_MAX, TXID_MIN, TXID_MAX⟩).newestLongTxId

/-- The workers a round on `s` leaves behind. -/
def roundWorkers (s : LeanStore) : List WorkerContext :=
  s.mAllWorkers.map (republished (roundInfo s))

/-- The two minima a round on `s` compares with the global watermarks. -/
def roundMinima (s : LeanStore) : Nat × Nat :=
  wmkMinima (roundWorkers s) TXID_MAX TXID_MAX

/-- `ConcurrencyControl::updateLocalWatermarks` on the worker's own state. Each unit
of the first argument pays for one pass of a loop: a pass of the inner loop that
finds the version odd reads it again, a pass of the outer loop copies the two
watermarks and returns when the version is still the one read before. The
`LS_DCHECK` behind the outer loop is never reached. -/
def updateLocalWatermarks : Nat → ConcurrencyControl → Result ConcurrencyControl
  | 0, _ => .spin
  | fuel + 1, cc =>
    let version := cc.mWmkVersion
    if version &&& 1 ≠ 0 then updateLocalWatermarks fuel cc
    else
      let cc := { cc with mLocalWmkOfAllTx := cc.mWmkOfAllTx }
      let cc := { cc with mLocalWmkOfShortTx := cc.mWmkOfShortTx }
      if version = cc.mWmkVersion then .ok cc
      else updateLocalWatermarks fuel cc

/-- The condition of the `LS_DCHECK` that stands behind the loop of
`updateLocalWatermarks`: with long-running transactions enabled the local watermark of
all transactions is at most the one of short transactions. -/
def updateLocalWatermarksDcheck (opt : StoreOption) (cc : ConcurrencyControl) : Bool :=
  !opt.mEnableLongRunningTx || decide (cc.mLocalWmkOfAllTx ≤ cc.mLocalWmkOfShortTx)

/-- The first `if` of `GarbageCollection` after the watermarks are refreshed: purge
the versions in `[0, mLocalWmkOfAllTx]` when the cleaned mark has not passed it. -/
def purgeStep (cc : ConcurrencyControl) : ConcurrencyControl :=
  if cc.mCleanedWmkOfShortTx ≤ cc.mLocalWmkOfAllTx then
    { cc with
      mHistoryStorage := cc.mHistoryStorage ++ [HistoryCall.PurgeVersions 0 cc.mLocalWmkOfAllTx],
      mCleanedWmkOfShortTx := add64 cc.mLocalWmkOfAllTx 1 }
  else cc

/-- The second `if` of `GarbageCollection`: move tombstones to the graveyard. -/
def graveyardStep (opt : StoreOption) (cc : ConcurrencyControl) : ConcurrencyControl :=
  if opt.mEnableLongRunningTx ∧ cc.mLocalWmkOfAllTx < cc.mLocalWmkOfShortTx ∧
      cc.mCleanedWmkOfShortTx ≤ cc.mLocalWmkOfShortTx then
    { cc with
      mHistoryStorage := cc.mHistoryStorage ++
        [HistoryCall.VisitRemovedVersions cc.mCleanedWmkOfShortTx cc.mLocalWmkOfShortTx],
      mCleanedWmkOfShortTx := add64 cc.mLocalWmkOfShortTx 1 }
  else cc

/-- `ConcurrencyControl::GarbageCollection`, called by worker `me` on its own
`ConcurrencyControl`. `fuel` is the number of loop passes granted to
`updateLocalWatermarks`; `rand` and `tryLock` are passed on to
`updateGlobalTxWatermarks`. -/
def GarbageCollection (fuel : Nat) (s : LeanStore) (me rand : Nat) (tryLock : Bool) :
    Result LeanStore :=
  if !s.mStoreOption.mEnableGc then .ok s
  else
    match updateGlobalTxWatermarks s rand tryLock with
    | .fatal => .fatal
    | .undef => .undef
    | .spin => .spin
    | .ok s1 =>
      match s1.mAllWorkers[me]? with
      | none => .undef
      | some my =>
        match updateLocalWatermarks fuel my.mCc with
        | .fatal => .fatal
        | .undef => .undef
        | .spin => .spin
        | .ok cc =>
          let cc := graveyardStep s1.mStoreOption (purgeStep cc)
          .ok { s1 with mAllWorkers := s1.mAllWorkers.set me { my with mCc := cc } }

end ConcurrencyControl

/-! ## Executions

The transaction coordinator (`StartTx`, `CommitTx`, `AbortTx`) is declared outside
the sources at hand. Its three operations are taken from the spec, as far as they
write the state the concurrency control reads. An execution interleaves them, as
whole steps, with the operations of `ConcurrencyControl.cpp`. -/

/-- Modelled from the spec: the flag bits of a published `mActiveTxId`, bit 63 for a
long-running transaction and bit 62 for a transaction under read committed. -/
def txFlags (isolation : IsolationLevel) (longRunning : Bool) : Nat :=
  (if longRunning then kLongRunningBit else 0) |||
    (match isolation with
      | .kReadCommitted => kRcBit
      | _ => 0)

/-- Modelled from the spec: `StartTx` ("Begin") on worker `me`, with `startTs` the
timestamp obtained from the global counter: publish `mActiveTxId = startTs | flags`,
snapshot the global watermark of all transactions, invalidate the LCB caches and reset
`mCommandId`. -/
def StartTx (s : LeanStore) (me startTs : Nat) (isolation : IsolationLevel)
    (longRunning : Bool) : Result LeanStore :=
  match s.mAllWorkers[me]? with
  | none => .undef
  | some my =>
    let cc := { my.mCc with
      mGlobalWmkOfAllTx := s.mGlobalWmkInfo.mWmkOfAllTx,
      mLcbCacheKey := my.mCc.mLcbCacheKey.map (fun _ => 0),
      mLcbCacheVal := my.mCc.mLcbCacheVal.map (fun _ => 0) }
    let my := { my with
      mActiveTxId := startTs ||| txFlags isolation longRunning,
      mActiveTx := ⟨startTs, isolation⟩,
      mCommandId := 0,
      mCc := cc }
    .ok { s with mAllWorkers := s.mAllWorkers.set me my }

/-- Modelled from the spec: `CommitTx` on worker `me` when its commit callback fires,
with `commitTs` the timestamp obtained from the global counter: append
`(startTs, commitTs)` of the active transaction to the own commit log with
`AppendCommitLog`, bump `mLatestCommitTs` and clear `mActiveTxId`. Compaction and
garbage collection are steps of their own. -/
def CommitTx (s : LeanStore) (me commitTs : Nat) : Result LeanStore :=
  match s.mAllWorkers[me]? with
  | none => .undef
  | some my =>
    let cc := { my.mCc with
      mCommitTree := my.mCc.mCommitTree.AppendCommitLog my.mActiveTx.mStartTs commitTs,
      mLatestCommitTs := commitTs }
    let my := { my with mActiveTxId := 0, mCc := cc }
    .ok { s with mAllWorkers := s.mAllWorkers.set me my }

/-- Modelled from the spec: `AbortTx` on worker `me`: clear `mActiveTxId`. The
versions it discards are in the history storage, which no watermark reads. -/
def AbortTx (s : LeanStore) (me : Nat) : Result LeanStore :=
  match s.mAllWorkers[me]? with
  | none => .undef
  | some my => .ok { s with mAllWorkers := s.mAllWorkers.set me { my with mActiveTxId := 0 } }

/-- Worker `me` runs `CommitTree::CompactCommitLog` on its own commit tree, with the
vector of all workers as it is in `s`. -/
def compactOwnLog (s : LeanStore) (me : Nat) : Result LeanStore :=
  match s.mAllWorkers[me]? with
  | none => .undef
  | some my =>
    match my.mCc.mCommitTree.CompactCommitLog me s.mAllWorkers with
    | .fatal => .fatal
    | .undef => .undef
    | .spin => .spin
    | .ok tree =>
      .ok { s with
        mAllWorkers := s.mAllWorkers.set me { my with mCc := { my.mCc with mCommitTree := tree } } }

/-- Modelled from the spec: the states of the store that an execution reaches,
together with the next timestamp of the global counter. The spec has one global
counter issue the start and the commit timestamps, keeps the transaction id in bits
0..61 of `mActiveTxId`, and lets a worker begin when it is idle and commit when it is
active. An execution starts with a positive counter and with workers that run no
transaction, have empty commit logs and have published the watermarks 0. Each step is
one whole operation of one worker:

* `StartTx` by an idle worker and `CommitTx` by an active one take the next timestamp
  of the counter, which has to fit the 62 bits of a transaction id;
* `AbortTx`, a compaction of the own commit log, a round of
  `updateGlobalTxWatermarks`, `GarbageCollection`, `VisibleForMe` and `PutVersion` leave
  the counter as it is;
* the counter may advance on its own, for timestamps drawn without a trace in the
  state of the concurrency control. -/
inductive Reachable : Nat → LeanStore → Prop where
  | init (ts : Nat) (s : LeanStore) (hts : 0 < ts)
      (hidle : ∀ w ∈ s.mAllWorkers, w.mActiveTxId = 0 ∧ w.mCc.mCommitTree.mCommitLog = [] ∧
        w.mCc.mWmkOfAllTx = 0 ∧ w.mCc.mWmkOfShortTx = 0) :
      Reachable ts s
  | advance (ts ts' : Nat) (s : LeanStore) (h : Reachable ts s) (hle : ts ≤ ts') :
      Reachable ts' s
  | startTx (ts : Nat) (s s' : LeanStore) (me : Nat) (my : WorkerContext)
      (isolation : IsolationLevel) (longRunning : Bool)
      (h : Reachable ts s) (hts : ts < 2 ^ 62)
      (hmy : s.mAllWorkers[me]? = some my) (hidle : my.mActiveTxId = 0)
      (hok : StartTx s me ts isolation longRunning = .ok s') :
      Reachable (ts + 1) s'
  | commitTx (ts : Nat) (s s' : LeanStore) (me : Nat) (my : WorkerContext)
      (h : Reachable ts s) (hts : ts < 2 ^ 62)
      (hmy : s.mAllWorkers[me]? = some my) (hactive : my.mActiveTxId ≠ 0)
      (hok : CommitTx s me ts = .ok s') :
      Reachable (ts + 1) s'
  | abortTx (ts : Nat) (s s' : LeanStore) (me : Nat)
      (h : Reachable ts s) (hok : AbortTx s me = .ok s') :
      Reachable ts s'
  | compact (ts : Nat) (s s' : LeanStore) (me : Nat)
      (h : Reachable ts s) (hok : compactOwnLog s me = .ok s') :
      Reachable ts s'
  | round (ts : Nat) (s s' : LeanStore) (rand : Nat) (tryLock : Bool)
      (h : Reachable ts s)
      (hok : ConcurrencyControl.updateGlobalTxWatermarks s rand tryLock = .ok s') :
      Reachable ts s'
  | gc (ts : Nat) (s s' : LeanStore) (fuel me rand : Nat) (tryLock : Bool)
      (h : Reachable ts s)
      (hok : ConcurrencyControl.GarbageCollection fuel s me rand tryLock = .ok s') :
      Reachable ts s'
  | visible (ts : Nat) (s s' : LeanStore) (me workerId txId : Nat) (b : Bool)
      (h : Reachable ts s)
      (hok : ConcurrencyControl.VisibleForMe s me workerId txId = .ok (b, s')) :
      Reachable ts s'
  | putVersion (ts : Nat) (s s' : LeanStore) (topBit me treeId : Nat)
      (isRemoveCommand : Bool) (versionSize commandId : Nat)
      (h : Reachable ts s)
      (hok : ConcurrencyControl.PutVersion topBit s me treeId isRemoveCommand versionSize =
        .ok (commandId, s')) :
      Reachable ts s'

/-- What an execution keeps true of a worker, with `ts` the next timestamp of the
global counter: its commit log satisfies the log invariants, every commit in it was
made before `ts` at a timestamp of 62 bits, and while the worker runs a transaction
the id it publishes is the start timestamp of that transaction, which is below `ts`
and above every commit in the own log. -/
def WorkerInv (ts : Nat) (w : WorkerContext) : Prop :=
  CommitTree.LogInvariants w.mCc.mCommitTree.mCommitLog ∧
  (∀ e ∈ w.mCc.mCommitTree.mCommitLog, e.1 < ts ∧ e.1 < 2 ^ 62) ∧
  (w.mActiveTxId ≠ 0 →
    w.mActiveTxId &&& kCleanBitsMask = w.mActiveTx.mStartTs ∧
    w.mActiveTx.mStartTs < ts ∧
    ∀ e ∈ w.mCc.mCommitTree.mCommitLog, e.1 < w.mActiveTx.mStartTs)

/-- A worker's published watermarks are not ahead of its commit log: whichever id a
round started now could find as the oldest active one (the sentinel `TXID_MAX` or the
id of a tracked transaction of `ws`; for the watermark of short transactions, of a
tracked short transaction), `Lcb` of that id on the worker's log is not below the
published watermark. -/
def WmkBelowLcb (ws : List WorkerContext) (w : WorkerContext) : Prop :=
  (∀ q, q = TXID_MAX ∨ q ∈ ConcurrencyControl.trackedIds ws →
    w.mCc.mWmkOfAllTx ≤ w.mCc.mCommitTree.Lcb q) ∧
  (∀ q, q = TXID_MAX ∨ q ∈ ConcurrencyControl.trackedShortIds ws →
    w.mCc.mWmkOfShortTx ≤ w.mCc.mCommitTree.Lcb q)

/-- The invariant of an execution, on the next timestamp and the vector of workers. -/
def ExecInv (ts : Nat) (ws : List WorkerContext) : Prop :=
  ∀ w ∈ ws, WorkerInv ts w ∧ WmkBelowLcb ws w

/-! ## Concrete states from the spec's scenarios -/

/-- A worker of a two-worker store that runs no transaction and has committed
nothing. -/
def idleWorker : WorkerContext :=
  { mActiveTxId := 0
    mActiveTx := ⟨0, .kSnapshotIsolation⟩
    mCommandId := 0
    mCc :=
      { mCommitTree := ⟨[], 4⟩
        mHistoryStorage := []
        mLcbCacheKey := [0, 0]
        mLcbCacheVal := [0, 0]
        mGlobalWmkOfAllTx := 0
        mLatestCommitTs := 0
        mUpdatedLatestCommitTs := 0
        mWmkVersion := 0
        mWmkOfAllTx := 0
        mWmkOfShortTx := 0
        mLocalWmkOfAllTx := 0
        mLocalWmkOfShortTx := 0
        mCleanedWmkOfShortTx := 0 } }

/-- Worker 0 of the first scenario: it began at 10 and committed at 11. -/
def writerS1 : WorkerContext :=
  { idleWorker with
    mCc := { idleWorker.mCc with mCommitTree := ⟨[(11, 10)], 4⟩, mLatestCommitTs := 11 } }

/-- Worker 1 of the first scenario: a snapshot-isolation transaction begun at 12. -/
def readerS1 : WorkerContext :=
  { idleWorker with mActiveTxId := 12, mActiveTx := ⟨12, .kSnapshotIsolation⟩ }

/-- The first scenario: two workers, the writer has committed, the reader has begun. -/
def scenarioS1 : LeanStore :=
  { mStoreOption := ⟨true, true, true⟩
    mGlobalWmkInfo := ⟨0, 0, 0, 0, 0⟩
    mAllWorkers := [writerS1, readerS1] }

/-- Worker 0 of the fourth scenario, with a short log: commits at 49 and 60 of
transactions begun at 48 and 59, none of them seen by a watermark round yet. -/
def writerS4 : WorkerContext :=
  { idleWorker with
    mCc := { idleWorker.mCc with
      mCommitTree := ⟨[(49, 48), (60, 59)], 4⟩, mLatestCommitTs := 60 } }

/-- Worker 1 of the fourth scenario: a long-running transaction begun at 50. -/
def readerS4 : WorkerContext :=
  { idleWorker with
    mActiveTxId := kLongRunningBit + 50, mActiveTx := ⟨50, .kSnapshotIsolation⟩ }

/-- The fourth scenario: GC, eager GC and long-running transactions are enabled. -/
def scenarioS4 : LeanStore :=
  { mStoreOption := ⟨true, true, true⟩
    mGlobalWmkInfo := ⟨0, 0, 0, 0, 0⟩
    mAllWorkers := [writerS4, readerS4] }

/-- The fourth scenario after a round of `updateGlobalTxWatermarks`. -/
def scenarioS4Round : LeanStore :=
  { mStoreOption := ⟨true, true, true⟩
    mGlobalWmkInfo := ⟨50, 2 ^ 64 - 1, 50, 48, 59⟩
    mAllWorkers :=
      [{ writerS4 with
          mCc := { writerS4.mCc with
            mWmkVersion := 2, mWmkOfAllTx := 48, mWmkOfShortTx := 59,
            mUpdatedLatestCommitTs := 60 } },
       readerS4] }

/-- A worker whose published watermarks are 49 and 60, as in the example of the
garbage-collection claim, and that has cleaned nothing yet. -/
def publishedWorker : WorkerContext :=
  { idleWorker with mCc := { idleWorker.mCc with mWmkOfAllTx := 49, mWmkOfShortTx := 60 } }

/-- A store with that worker alone; GC and long-running transactions are enabled. -/
def scenarioGc : LeanStore :=
  { mStoreOption := ⟨true, false, true⟩
    mGlobalWmkInfo := ⟨0, 0, 0, 0, 0⟩
    mAllWorkers := [publishedWorker] }

/-- The worker of `scenarioGc` after `GarbageCollection`. -/
def collectedWorker : WorkerContext :=
  { publishedWorker with
    mCc := { publishedWorker.mCc with
      mLocalWmkOfAllTx := 49, mLocalWmkOfShortTx := 60,
      mHistoryStorage := [.PurgeVersions 0 49, .VisitRemovedVersions 50 60],
      mCleanedWmkOfShortTx := 61 } }

/-- The workers of the fifth scenario: worker 0 owns the log, worker 1 is active at
5, worker 2 is idle. -/
def workersS5 : List WorkerContext :=
  [idleWorker,
   { idleWorker with mActiveTxId := 5, mActiveTx := ⟨5, .kSnapshotIsolation⟩ },
   idleWorker]

/-- The commit tree of worker 0 in the fifth scenario: commits at 2, 4, 6, 8 and
capacity 4. -/
def treeS5 : CommitTree := ⟨[(2, 1), (4, 3), (6, 5), (8, 7)], 4⟩

/-- A commit tree of capacity 2 that is full, and whose two entries are both needed:
the first by a sibling active at 3, the second as the latest. Its owner began at 1
and committed at 2, then began at 4 and committed at 5. The capacity is a value of
the option `commitLogCapacity`, which the spec lists as a `u32`. -/
def treeFull : CommitTree := ⟨[(2, 1), (5, 4)], 2⟩

/-- Two workers with commit logs of capacity 2: the first owns `treeFull` and runs no
transaction; the second has been active since 3, so it began between the two
transactions of the first. -/
def workersFull : List WorkerContext :=
  [{ idleWorker with
      mActiveTx := ⟨4, .kSnapshotIsolation⟩
      mCc := { idleWorker.mCc with mCommitTree := treeFull, mLatestCommitTs := 5 } },
   { idleWorker with
      mActiveTxId := 3
      mActiveTx := ⟨3, .kSnapshotIsolation⟩
      mCc := { idleWorker.mCc with mCommitTree := ⟨[], 2⟩ } }]

/-- The start of an execution with two idle workers whose commit logs have capacity
2. -/
def fullStart : LeanStore :=
  { mStoreOption := ⟨true, true, true⟩
    mGlobalWmkInfo := ⟨0, 0, 0, 0, 0⟩
    mAllWorkers :=
      [{ idleWorker with mCc := { idleWorker.mCc with mCommitTree := ⟨[], 2⟩ } },
       { idleWorker with mCc := { idleWorker.mCc with mCommitTree := ⟨[], 2⟩ } }] }

/-- The store with the workers `workersFull`. -/
def fullStore : LeanStore :=
  { fullStart with mAllWorkers := workersFull }

/-- A writer whose log holds the commits at 49 and 60, whose published watermarks are
both 59, the start timestamp of its latest commit, and whose latest commit the last
round has not seen. -/
def writerAhead : WorkerContext :=
  { writerS4 with
    mCc := { writerS4.mCc with
      mWmkOfAllTx := 59, mWmkOfShortTx := 59, mUpdatedLatestCommitTs := 49 } }

/-- A short transaction begun at 50, under snapshot isolation. -/
def readerAt50 : WorkerContext :=
  { idleWorker with mActiveTxId := 50, mActiveTx := ⟨50, .kSnapshotIsolation⟩ }

/-- A store in which the published watermarks of worker 0 are ahead of the active
transaction of worker 1. No execution reaches this state: a round publishes only what
`Lcb` returns, and on the log as of the commit at 49 that is 0 or 48. -/
def scenarioAhead : LeanStore :=
  { mStoreOption := ⟨true, true, true⟩
    mGlobalWmkInfo := ⟨0, 0, 0, 0, 0⟩
    mAllWorkers := [writerAhead, readerAt50] }

/-- The state `scenarioAhead` after a round of `updateGlobalTxWatermarks`: the oldest
active id is 50 and both watermarks of worker 0 are `Lcb(50) = 48`. -/
def scenarioAheadRound : LeanStore :=
  { mStoreOption := ⟨true, true, true⟩
    mGlobalWmkInfo := ⟨50, 50, 0, 48, 48⟩
    mAllWorkers :=
      [{ writerAhead with
          mCc := { writerAhead.mCc with
            mWmkVersion := 2, mWmkOfAllTx := 48, mWmkOfShortTx := 48,
            mUpdatedLatestCommitTs := 60 } },
       readerAt50] }

/-- Worker 0 of the fourth scenario after the first round and one more commit, at
71, of a transaction begun at 70: its watermarks are still 48 and 59. -/
def writerS4Later : WorkerContext :=
  { writerS4 with
    mCc := { writerS4.mCc with
      mCommitTree := ⟨[(49, 48), (60, 59), (71, 70)], 4⟩, mLatestCommitTs := 71,
      mWmkVersion := 2, mWmkOfAllTx := 48, mWmkOfShortTx := 59,
      mUpdatedLatestCommitTs := 60 } }

/-- The fourth scenario after the first round and that commit; the long-running
transaction begun at 50 is still active. -/
def scenarioS4Later : LeanStore :=
  { mStoreOption := ⟨true, true, true⟩
    mGlobalWmkInfo := ⟨50, 2 ^ 64 - 1, 50, 48, 59⟩
    mAllWorkers := [writerS4Later, readerS4] }

/-- Worker 0 after the second round: `Lcb(50) = 48` and `Lcb(2^64-1) = 70`. -/
def writerS4LaterRound : WorkerContext :=
  { writerS4Later with
    mCc := { writerS4Later.mCc with
      mWmkVersion := 4, mWmkOfAllTx := 48, mWmkOfShortTx := 70,
      mUpdatedLatestCommitTs := 71 } }

/-- The state `scenarioS4Later` after a round of `updateGlobalTxWatermarks`. -/
def scenarioS4LaterRound : LeanStore :=
  { mStoreOption := ⟨true, true, true⟩
    mGlobalWmkInfo := ⟨50, 2 ^ 64 - 1, 50, 48, 70⟩
    mAllWorkers := [writerS4LaterRound, readerS4] }

/-- The first scenario with the reader under read committed. -/
def scenarioRc : LeanStore :=
  { scenarioS1 with
    mAllWorkers := [writerS1, { readerS1 with mActiveTx := ⟨12, .kReadCommitted⟩ }] }

/-- The store `scenarioGc` with GC switched off. -/
def scenarioGcOff : LeanStore :=
  { scenarioGc with mStoreOption := ⟨false, false, true⟩ }

/-- A `ConcurrencyControl` state whose published watermark of all transactions, 60,
is above the one of short transactions, 49, with an even version. -/
def crossedCc : ConcurrencyControl :=
  { idleWorker.mCc with mWmkOfAllTx := 60, mWmkOfShortTx := 49, mWmkVersion := 2 }

/-- The start of an execution with two workers: both idle, with empty commit logs of
capacity 4; GC, eager GC and long-running transactions are enabled. -/
def execS0 : LeanStore :=
  { mStoreOption := ⟨true, true, true⟩
    mGlobalWmkInfo := ⟨0, 0, 0, 0, 0⟩
    mAllWorkers := [idleWorker, idleWorker] }

/-- After `StartTx` of worker 0 at timestamp 1, under snapshot isolation. -/
def execS1 : LeanStore :=
  { execS0 with
    mAllWorkers :=
      [{ idleWorker with mActiveTxId := 1, mActiveTx := ⟨1, .kSnapshotIsolation⟩ }, idleWorker] }

/-- Worker 0 after its commit at timestamp 2. -/
def execWriter2 : WorkerContext :=
  { idleWorker with
    mActiveTx := ⟨1, .kSnapshotIsolation⟩
    mCc := { idleWorker.mCc with mCommitTree := ⟨[(2, 1)], 4⟩, mLatestCommitTs := 2 } }

/-- After `CommitTx` of worker 0 at timestamp 2. -/
def execS2 : LeanStore :=
  { execS0 with mAllWorkers := [execWriter2, idleWorker] }

/-- Worker 0 after the first round: no transaction is active, both watermarks are
`Lcb(2^64 - 1) = 1`. -/
def execWriter3 : WorkerContext :=
  { execWriter2 with
    mCc := { execWriter2.mCc with
      mUpdatedLatestCommitTs := 2, mWmkVersion := 2, mWmkOfAllTx := 1, mWmkOfShortTx := 1 } }

/-- After the first round of `updateGlobalTxWatermarks`. -/
def execS3 : LeanStore :=
  { mStoreOption := ⟨true, true, true⟩
    mGlobalWmkInfo := ⟨2 ^ 64 - 1, 2 ^ 64 - 1, 0, 1, 1⟩
    mAllWorkers := [execWriter3, idleWorker] }

/-- Worker 1 after `StartTx` at timestamp 3 of a long-running transaction. -/
def execReader : WorkerContext :=
  { idleWorker with
    mActiveTxId := kLongRunningBit + 3
    mActiveTx := ⟨3, .kSnapshotIsolation⟩
    mCc := { idleWorker.mCc with mGlobalWmkOfAllTx := 1 } }

/-- After `StartTx` of worker 1 at timestamp 3. -/
def execS4 : LeanStore :=
  { execS3 with mAllWorkers := [execWriter3, execReader] }

/-- Worker 0 after `StartTx` at timestamp 4. -/
def execWriter5 : WorkerContext :=
  { execWriter3 with
    mActiveTxId := 4
    mActiveTx := ⟨4, .kSnapshotIsolation⟩
    mCc := { execWriter3.mCc with mGlobalWmkOfAllTx := 1 } }

/-- After `StartTx` of worker 0 at timestamp 4. -/
def execS5 : LeanStore :=
  { execS3 with mAllWorkers := [execWriter5, execReader] }

/-- Worker 0 after its commit at timestamp 5: the watermarks are still 1 and 1. -/
def execWriter6 : WorkerContext :=
  { execWriter5 with
    mActiveTxId := 0
    mCc := { execWriter5.mCc with
      mCommitTree := ⟨[(2, 1), (5, 4)], 4⟩, mLatestCommitTs := 5 } }

/-- After `CommitTx` of worker 0 at timestamp 5; the next timestamp is 6. -/
def execS6 : LeanStore :=
  { execS3 with mAllWorkers := [execWriter6, execReader] }

/-- Worker 0 after the second round: `Lcb(3) = 1` and `Lcb(2^64 - 1) = 4`. -/
def execWriter7 : WorkerContext :=
  { execWriter6 with
    mCc := { execWriter6.mCc with
      mUpdatedLatestCommitTs := 5, mWmkVersion := 4, mWmkOfAllTx := 1, mWmkOfShortTx := 4 } }

/-- After the second round of `updateGlobalTxWatermarks`. -/
def execS7 : LeanStore :=
  { mStoreOption := ⟨true, true, true⟩
    mGlobalWmkInfo := ⟨3, 2 ^ 64 - 1, 3, 1, 4⟩
    mAllWorkers := [execWriter7, execReader] }

namespace CommitTree

theorem strictInc_getElem? {log : List (Nat × Nat)} (h : StrictIncCommit log)
    {i j : Nat} {a b : Nat × Nat} (hi : log[i]? = some a) (hj : log[j]? = some b)
    (hij : i < j) : a.1 < b.1 := by
  rw [List.getElem?_eq_some_iff] at hi hj
  obtain ⟨hi', rfl⟩ := hi
  obtain ⟨hj', rfl⟩ := hj
  exact (List.pairwise_iff_getElem.mp h) i j hi' hj' hij

theorem strictInc_getElem?_le {log : List (Nat × Nat)} (h : StrictIncCommit log)
    {i j : Nat} {a b : Nat × Nat} (hi : log[i]? = some a) (hj : log[j]? = some b)
    (hij : i ≤ j) : a.1 ≤ b.1 := by
  rcases Nat.eq_or_lt_of_le hij with rfl | hlt
  · rw [hi] at hj
    cases hj
    exact le_rfl
  · exact le_of_lt (strictInc_getElem? h hi hj hlt)

/-- The binary search keeps its window: everything before the returned index is
below the query, everything from it on is not. -/
theorem lowerBoundLoop_spec {log : List (Nat × Nat)} (h : StrictIncCommit log) (q : Nat) :
    ∀ (fuel first len : Nat), len ≤ fuel → first + len ≤ log.length →
      (∀ i e, log[i]? = some e → i < first → e.1 < q) →
      (∀ i e, log[i]? = some e → first + len ≤ i → q ≤ e.1) →
      lowerBoundLoop log q fuel first len ≤ log.length ∧
      (∀ i e, log[i]? = some e → i < lowerBoundLoop log q fuel first len → e.1 < q) ∧
      (∀ i e, log[i]? = some e → lowerBoundLoop log q fuel first len ≤ i → q ≤ e.1) := by
  intro fuel
  induction fuel with
  | zero =>
    intro first len hlen hbound hlo hhi
    have : len = 0 := by omega
    subst this
    simp only [lowerBoundLoop]
    exact ⟨by omega, hlo, fun i e hi hle => hhi i e hi (by omega)⟩
  | succ fuel ih =>
    intro first len hlen hbound hlo hhi
    unfold lowerBoundLoop
    by_cases hz : len = 0
    · subst hz
      simp only [if_true]
      exact ⟨by omega, hlo, fun i e hi hle => hhi i e hi (by omega)⟩
    · simp only [hz, if_false]
      have hhalf : len / 2 < len := Nat.div_lt_self (Nat.pos_of_ne_zero hz) (by decide)
      have hmid : first + len / 2 < log.length := by omega
      have hget : log[first + len / 2]? = some (log[first + len / 2]) :=
        List.getElem?_eq_getElem hmid
      rw [hget]
      simp only []
      by_cases hc : q > (log[first + len / 2]).1
      · simp only [hc, if_true]
        apply ih
        · omega
        · omega
        · intro i e hi hlt
          have : e.1 ≤ (log[first + len / 2]).1 :=
            strictInc_getElem?_le h hi hget (by omega)
          omega
        · intro i e hi hle
          exact hhi i e hi (by omega)
      · simp only [hc, if_false]
        apply ih
        · omega
        · omega
        · exact hlo
        · intro i e hi hle
          have : (log[first + len / 2]).1 ≤ e.1 :=
            strictInc_getElem?_le h hget hi hle
          omega

theorem lowerBound_spec {log : List (Nat × Nat)} (h : StrictIncCommit log) (q : Nat) :
    lowerBound log q ≤ log.length ∧
    (∀ i e, log[i]? = some e → i < lowerBound log q → e.1 < q) ∧
    (∀ i e, log[i]? = some e → lowerBound log q ≤ i → q ≤ e.1) := by
  unfold lowerBound
  apply lowerBoundLoop_spec h q log.length 0 log.length le_rfl (by omega)
  · intro i e _ hlt
    omega
  · intro i e hi hle
    have := (List.getElem?_eq_some_iff.mp hi).1
    omega

theorem lcbNoLatch_isLcb (t : CommitTree) (q : Nat) (h : StrictIncCommit t.mCommitLog) :
    IsLcb t.mCommitLog q (lcbNoLatch t q) := by
  obtain ⟨hlen, hlo, hhi⟩ := lowerBound_spec h q
  unfold lcbNoLatch
  by_cases hz : lowerBound t.mCommitLog q = 0
  · simp only [hz, if_true]
    intro e he
    obtain ⟨i, hi⟩ := List.getElem?_of_mem he
    exact hhi i e hi (by omega)
  · simp only [hz, if_false]
    have hidx : lowerBound t.mCommitLog q - 1 < t.mCommitLog.length := by omega
    have hget := List.getElem?_eq_getElem hidx
    rw [hget]
    refine ⟨List.getElem_mem _, hlo _ _ hget (by omega), ?_⟩
    intro e he hlt
    obtain ⟨i, hi⟩ := List.getElem?_of_mem he
    have hi' : i < lowerBound t.mCommitLog q := by
      by_contra hcon
      have := hhi i e hi (by omega)
      omega
    exact strictInc_getElem?_le h hi hget (by omega)

/-- On a log with strictly increasing commit timestamps the relation `IsLcb` has one
solution only. -/
theorem isLcb_unique {log : List (Nat × Nat)} (h : StrictIncCommit log) {q : Nat}
    {r₁ r₂ : Option (Nat × Nat)} (h₁ : IsLcb log q r₁) (h₂ : IsLcb log q r₂) : r₁ = r₂ := by
  have inj : ∀ a ∈ log, ∀ b ∈ log, a.1 = b.1 → a = b := by
    intro a ha b hb hab
    obtain ⟨i, hi⟩ := List.getElem?_of_mem ha
    obtain ⟨j, hj⟩ := List.getElem?_of_mem hb
    rcases Nat.lt_trichotomy i j with hij | hij | hij
    · have := strictInc_getElem? h hi hj hij
      omega
    · subst hij
      rw [hi] at hj
      exact Option.some.inj hj
    · have := strictInc_getElem? h hj hi hij
      omega
  cases r₁ with
  | none =>
    cases r₂ with
    | none => rfl
    | some b =>
      have := h₁ b h₂.1
      have := h₂.2.1
      omega
  | some a =>
    cases r₂ with
    | none =>
      have := h₂ a h₁.1
      have := h₁.2.1
      omega
    | some b =>
      have hab := h₂.2.2 a h₁.1 h₁.2.1
      have hba := h₁.2.2 b h₂.1 h₂.2.1
      rw [inj a h₁.1 b h₂.1 (by omega)]

/-- C1: on a commit log whose commitTs values are strictly increasing, `lcbNoLatch q`
returns no entry exactly when no entry has `commitTs < q`; otherwise it returns an
entry of the log with `commitTs < q`, and no entry of the log with `commitTs < q`
has a larger `commitTs`. -/
theorem lcbNoLatch_largest_commit_below (t : CommitTree) (q : Nat)
    (h : StrictIncCommit t.mCommitLog) :
    (lcbNoLatch t q = none ↔ ∀ e ∈ t.mCommitLog, ¬ e.1 < q) ∧
    (∀ r, lcbNoLatch t q = some r →
      r ∈ t.mCommitLog ∧ r.1 < q ∧ ∀ e ∈ t.mCommitLog, e.1 < q → e.1 ≤ r.1) := by
  have hspec := lcbNoLatch_isLcb t q h
  constructor
  · constructor
    · intro hn e he
      rw [hn] at hspec
      have := hspec e he
      omega
    · intro hall
      cases hr : lcbNoLatch t q with
      | none => rfl
      | some r =>
        rw [hr] at hspec
        exact absurd hspec.2.1 (hall r hspec.1)
  · intro r hr
    rw [hr] at hspec
    exact hspec

/-- C1, at a concrete log: the log with commits 2, 4, 6, 8 and the query 5. -/
theorem lcbNoLatch_largest_commit_below_witness :
    (lcbNoLatch ⟨[(2, 1), (4, 3), (6, 5), (8, 7)], 4⟩ 5 = none ↔
      ∀ e ∈ [(2, 1), (4, 3), (6, 5), (8, 7)], ¬ e.1 < 5) ∧
    (∀ r, lcbNoLatch ⟨[(2, 1), (4, 3), (6, 5), (8, 7)], 4⟩ 5 = some r →
      r ∈ [(2, 1), (4, 3), (6, 5), (8, 7)] ∧ r.1 < 5 ∧
        ∀ e ∈ [(2, 1), (4, 3), (6, 5), (8, 7)], e.1 < 5 → e.1 ≤ r.1) :=
  lcbNoLatch_largest_commit_below ⟨[(2, 1), (4, 3), (6, 5), (8, 7)], 4⟩ 5 (by decide)

theorem strictInc_le_getLast {log : List (Nat × Nat)} (h : StrictIncCommit log)
    {latest : Nat × Nat} (hl : log.getLast? = some latest) :
    ∀ e ∈ log, e.1 ≤ latest.1 := by
  intro e he
  obtain ⟨i, hi⟩ := List.getElem?_of_mem he
  have hlen := (List.getElem?_eq_some_iff.mp hi).1
  rw [List.getLast?_eq_getElem?] at hl
  exact strictInc_getElem?_le h hi hl (by omega)

theorem lcbNoLatch_eq_of_isLcb (t : CommitTree) (q : Nat) (h : StrictIncCommit t.mCommitLog)
    {r : Option (Nat × Nat)} (hr : IsLcb t.mCommitLog q r) : lcbNoLatch t q = r :=
  isLcb_unique h (lcbNoLatch_isLcb t q h) hr

/-- C2, as the claim states it, fails on its own example: on the log
`[(commitTs 11, startTs 10)]`, which satisfies the log invariants, `Lcb(12)` is `10`,
the start timestamp of the entry, while the largest commit timestamp of an entry with
`startTs < 12` is `11`. -/
theorem Lcb_returns_startTs_counterexample :
    LogInvariants [(11, 10)] ∧ Lcb ⟨[(11, 10)], 4⟩ 12 = 10 ∧ LcbSpec [(11, 10)] 12 = 11 ∧
      Lcb ⟨[(11, 10)], 4⟩ 12 ≠ LcbSpec [(11, 10)] 12 := by
  decide

/-- C2, amended: on a commit log satisfying the log invariants, `Lcb q` is `0` when
no entry has `commitTs < q`; otherwise it is the `startTs` of the entry with the
largest `commitTs` strictly below `q`, an entry whose `startTs` is also the largest
among the entries with `commitTs < q`. -/
theorem Lcb_startTs_of_largest_commit_below (t : CommitTree) (q : Nat)
    (h : LogInvariants t.mCommitLog) :
    ((∀ e ∈ t.mCommitLog, q ≤ e.1) ∧ Lcb t q = 0) ∨
    (∃ r ∈ t.mCommitLog, r.1 < q ∧ Lcb t q = r.2 ∧
      ∀ e ∈ t.mCommitLog, e.1 < q → e.1 ≤ r.1 ∧ e.2 ≤ r.2) := by
  obtain ⟨hinc, hstart, hcross⟩ := h
  have hspec := lcbNoLatch_isLcb t q hinc
  unfold Lcb
  cases hr : lcbNoLatch t q with
  | none =>
    rw [hr] at hspec
    exact Or.inl ⟨hspec, rfl⟩
  | some r =>
    rw [hr] at hspec
    refine Or.inr ⟨r, hspec.1, hspec.2.1, rfl, ?_⟩
    intro e he hlt
    have hle := hspec.2.2 e he hlt
    refine ⟨hle, ?_⟩
    obtain ⟨i, hi⟩ := List.getElem?_of_mem he
    obtain ⟨j, hj⟩ := List.getElem?_of_mem hspec.1
    rcases Nat.lt_trichotomy i j with hij | hij | hij
    · rw [List.getElem?_eq_some_iff] at hi hj
      obtain ⟨hi', rfl⟩ := hi
      obtain ⟨hj', rfl⟩ := hj
      have h1 := (List.pairwise_iff_getElem.mp hcross) i j hi' hj' hij
      have h2 := (List.pairwise_iff_getElem.mp hinc) i j hi' hj' hij
      have h3 : (t.mCommitLog[i]).2 < (t.mCommitLog[i]).1 :=
        hstart _ (List.getElem_mem _)
      omega
    · subst hij
      rw [hi] at hj
      cases hj
      exact le_rfl
    · have := strictInc_getElem? hinc hj hi hij
      omega

/-- C2, amended, at the log of the spec's first scenario: `Lcb(12)` on
`[(commitTs 11, startTs 10)]`. -/
theorem Lcb_startTs_of_largest_commit_below_witness :
    ((∀ e ∈ [((11 : Nat), (10 : Nat))], 12 ≤ e.1) ∧ Lcb ⟨[(11, 10)], 4⟩ 12 = 0) ∨
    (∃ r ∈ [((11 : Nat), (10 : Nat))], r.1 < 12 ∧ Lcb ⟨[(11, 10)], 4⟩ 12 = r.2 ∧
      ∀ e ∈ [((11 : Nat), (10 : Nat))], e.1 < 12 → e.1 ≤ r.1 ∧ e.2 ≤ r.2) :=
  Lcb_startTs_of_largest_commit_below ⟨[(11, 10)], 4⟩ 12 (by decide)

theorem strictInc_append {log : List (Nat × Nat)} (h : StrictIncCommit log)
    (startTs commitTs : Nat)
    (hlast : ∀ e, log.getLast? = some e → e.1 < commitTs) :
    StrictIncCommit (log ++ [(commitTs, startTs)]) := by
  unfold StrictIncCommit
  rw [List.pairwise_append]
  refine ⟨h, List.pairwise_singleton _ _, ?_⟩
  intro a ha b hb
  rw [List.mem_singleton] at hb
  subst hb
  cases hl : log.getLast? with
  | none =>
    rw [List.getLast?_eq_none_iff] at hl
    subst hl
    cases ha
  | some latest =>
    have := strictInc_le_getLast h hl a ha
    have := hlast latest hl
    show a.1 < commitTs
    omega

/-- C4: snapshot stability. On a commit log with strictly increasing commitTs,
appending `(startTs, commitTs)` with `commitTs ≥ q` and `commitTs` greater than the
last entry's commitTs leaves `Lcb q` as it was. -/
theorem Lcb_stable_under_append (t : CommitTree) (q startTs commitTs : Nat)
    (h : StrictIncCommit t.mCommitLog) (hq : q ≤ commitTs)
    (hlast : ∀ e, t.mCommitLog.getLast? = some e → e.1 < commitTs) :
    Lcb (AppendCommitLog t startTs commitTs) q = Lcb t q := by
  have hinc : StrictIncCommit (AppendCommitLog t startTs commitTs).mCommitLog :=
    strictInc_append h startTs commitTs hlast
  have hold := lcbNoLatch_isLcb t q h
  have hnew : IsLcb (AppendCommitLog t startTs commitTs).mCommitLog q (lcbNoLatch t q) := by
    show IsLcb (t.mCommitLog ++ [(commitTs, startTs)]) q (lcbNoLatch t q)
    cases hr : lcbNoLatch t q with
    | none =>
      rw [hr] at hold
      intro e he
      rw [List.mem_append, List.mem_singleton] at he
      rcases he with he | rfl
      · exact hold e he
      · exact hq
    | some r =>
      rw [hr] at hold
      refine ⟨List.mem_append_left _ hold.1, hold.2.1, ?_⟩
      intro e he hlt
      rw [List.mem_append, List.mem_singleton] at he
      rcases he with he | rfl
      · exact hold.2.2 e he hlt
      · simp only at hlt
        omega
  have heq := lcbNoLatch_eq_of_isLcb (AppendCommitLog t startTs commitTs) q hinc hnew
  unfold Lcb
  rw [heq]

/-- C4, along the spec's second scenario: the writer has committed at 5, a reader began
at 6, the writer commits again at 8 a transaction begun at 7. -/
theorem Lcb_stable_under_append_witness :
    Lcb (AppendCommitLog ⟨[(5, 4)], 4⟩ 7 8) 6 = Lcb ⟨[(5, 4)], 4⟩ 6 :=
  Lcb_stable_under_append ⟨[(5, 4)], 4⟩ 6 7 8 (by decide) (by decide) (by decide)

theorem pairLess_iff (a b : Nat × Nat) :
    pairLess a b = true ↔ a.1 < b.1 ∨ (a.1 = b.1 ∧ a.2 < b.2) := by
  simp [pairLess]

theorem pairLess_trans {a b c : Nat × Nat} (hab : pairLess a b = true)
    (hbc : pairLess b c = true) : pairLess a c = true := by
  rw [pairLess_iff] at *
  omega

theorem eq_of_not_pairLess {a b : Nat × Nat} (hab : ¬ pairLess a b = true)
    (hba : ¬ pairLess b a = true) : a = b := by
  rw [pairLess_iff] at hab hba
  apply Prod.ext <;> omega

theorem mem_setInsert (p x : Nat × Nat) (l : List (Nat × Nat)) :
    x ∈ setInsert p l ↔ x = p ∨ x ∈ l := by
  induction l with
  | nil => simp [setInsert]
  | cons y ys ih =>
    unfold setInsert
    by_cases h1 : pairLess p y = true
    · simp [h1]
    · by_cases h2 : pairLess y p = true
      · rw [if_neg h1, if_pos h2]
        simp only [List.mem_cons, ih]
        tauto
      · have hpy : p = y := eq_of_not_pairLess h1 h2
        subst hpy
        rw [if_neg h1, if_neg h2]
        simp

theorem sorted_setInsert (p : Nat × Nat) (l : List (Nat × Nat))
    (h : l.Pairwise (fun a b => pairLess a b = true)) :
    (setInsert p l).Pairwise (fun a b => pairLess a b = true) := by
  induction l with
  | nil => simp [setInsert]
  | cons y ys ih =>
    rw [List.pairwise_cons] at h
    unfold setInsert
    by_cases h1 : pairLess p y = true
    · rw [if_pos h1]
      rw [List.pairwise_cons]
      refine ⟨?_, List.pairwise_cons.mpr h⟩
      intro z hz
      rw [List.mem_cons] at hz
      rcases hz with rfl | hz
      · exact h1
      · exact pairLess_trans h1 (h.1 z hz)
    · by_cases h2 : pairLess y p = true
      · rw [if_neg h1, if_pos h2]
        rw [List.pairwise_cons]
        refine ⟨?_, ih h.2⟩
        intro z hz
        rw [mem_setInsert] at hz
        rcases hz with rfl | hz
        · exact h2
        · exact h.1 z hz
      · rw [if_neg h1, if_neg h2]
        exact List.pairwise_cons.mpr h

theorem mem_compactLoop (t : CommitTree) (myWorkerId : Nat) (x : Nat × Nat) :
    ∀ (ws : List WorkerContext) (i : Nat) (set : List (Nat × Nat)),
      x ∈ compactLoop t myWorkerId ws i set ↔
        x ∈ set ∨ ∃ j w, ws[j]? = some w ∧ i + j ≠ myWorkerId ∧ w.mActiveTxId ≠ 0 ∧
          lcbNoLatch t (w.mActiveTxId &&& kCleanBitsMask) = some x := by
  intro ws
  induction ws with
  | nil =>
    intro i set
    simp [compactLoop]
  | cons w rest ih =>
    intro i set
    have shift : (∃ j w', (w :: rest)[j]? = some w' ∧ i + j ≠ myWorkerId ∧
          w'.mActiveTxId ≠ 0 ∧ lcbNoLatch t (w'.mActiveTxId &&& kCleanBitsMask) = some x) ↔
        ((i ≠ myWorkerId ∧ w.mActiveTxId ≠ 0 ∧
          lcbNoLatch t (w.mActiveTxId &&& kCleanBitsMask) = some x) ∨
        ∃ j w', rest[j]? = some w' ∧ i + 1 + j ≠ myWorkerId ∧ w'.mActiveTxId ≠ 0 ∧
          lcbNoLatch t (w'.mActiveTxId &&& kCleanBitsMask) = some x) := by
      constructor
      · rintro ⟨j, w', hj, hne, hact, hl⟩
        cases j with
        | zero =>
          simp only [List.getElem?_cons_zero, Option.some.injEq] at hj
          subst hj
          exact Or.inl ⟨by simpa using hne, hact, hl⟩
        | succ j =>
          simp only [List.getElem?_cons_succ] at hj
          exact Or.inr ⟨j, w', hj, by omega, hact, hl⟩
      · rintro (⟨hne, hact, hl⟩ | ⟨j, w', hj, hne, hact, hl⟩)
        · exact ⟨0, w, by simp, by simpa using hne, hact, hl⟩
        · exact ⟨j + 1, w', by simpa using hj, by omega, hact, hl⟩
    rw [shift]
    unfold compactLoop
    by_cases h1 : i = myWorkerId
    · simp only [h1, if_true, ih]
      simp
    · by_cases h2 : w.mActiveTxId = 0
      · simp only [h1, h2, if_true, if_false, ih]
        simp
      · simp only [h1, h2, if_false]
        cases hl : lcbNoLatch t (w.mActiveTxId &&& kCleanBitsMask) with
        | none =>
          simp only [ih]
          simp
        | some r =>
          simp only [ih, mem_setInsert, Option.some.injEq]
          constructor
          · rintro ((rfl | hx) | hx)
            · exact Or.inr (Or.inl ⟨h1, h2, rfl⟩)
            · exact Or.inl hx
            · exact Or.inr (Or.inr hx)
          · rintro (hx | ⟨_, _, rfl⟩ | hx)
            · exact Or.inl (Or.inr hx)
            · exact Or.inl (Or.inl rfl)
            · exact Or.inr hx

theorem sorted_compactLoop (t : CommitTree) (myWorkerId : Nat) :
    ∀ (ws : List WorkerContext) (i : Nat) (set : List (Nat × Nat)),
      set.Pairwise (fun a b => pairLess a b = true) →
      (compactLoop t myWorkerId ws i set).Pairwise (fun a b => pairLess a b = true) := by
  intro ws
  induction ws with
  | nil =>
    intro i set h
    simpa [compactLoop] using h
  | cons w rest ih =>
    intro i set h
    unfold compactLoop
    by_cases h1 : i = myWorkerId
    · simp only [h1, if_true]
      exact ih _ _ h
    · by_cases h2 : w.mActiveTxId = 0
      · simp only [h1, h2, if_true, if_false]
        exact ih _ _ h
      · simp only [h1, h2, if_false]
        cases hl : lcbNoLatch t (w.mActiveTxId &&& kCleanBitsMask) with
        | none => exact ih _ _ h
        | some r => exact ih _ _ (sorted_setInsert r set h)

theorem lcbNoLatch_mem (t : CommitTree) (q : Nat) (r : Nat × Nat)
    (h : lcbNoLatch t q = some r) : r ∈ t.mCommitLog := by
  unfold lcbNoLatch at h
  by_cases hz : lowerBound t.mCommitLog q = 0
  · simp [hz] at h
  · simp only [hz, if_false] at h
    exact List.getElem?_mem h

theorem compactLoop_subset (t : CommitTree) (myWorkerId : Nat) (ws : List WorkerContext)
    (latest : Nat × Nat) (hl : latest ∈ t.mCommitLog) :
    ∀ x ∈ compactLoop t myWorkerId ws 0 (setInsert latest []), x ∈ t.mCommitLog := by
  intro x hx
  rw [mem_compactLoop, mem_setInsert] at hx
  rcases hx with (rfl | hx) | ⟨j, w, _, _, _, hlcb⟩
  · exact hl
  · cases hx
  · exact lcbNoLatch_mem t _ x hlcb

theorem strictInc_of_sorted_subset {log sub : List (Nat × Nat)} (h : StrictIncCommit log)
    (hsub : ∀ x ∈ sub, x ∈ log) (hsorted : sub.Pairwise (fun a b => pairLess a b = true)) :
    StrictIncCommit sub := by
  refine List.Pairwise.imp_of_mem ?_ hsorted
  intro a b ha hb hab
  rw [pairLess_iff] at hab
  rcases hab with hlt | ⟨heq, hlt⟩
  · exact hlt
  · exfalso
    obtain ⟨i, hi⟩ := List.getElem?_of_mem (hsub a ha)
    obtain ⟨j, hj⟩ := List.getElem?_of_mem (hsub b hb)
    rcases Nat.lt_trichotomy i j with hij | hij | hij
    · have := strictInc_getElem? h hi hj hij
      omega
    · subst hij
      rw [hi] at hj
      cases hj
      omega
    · have := strictInc_getElem? h hj hi hij
      omega

/-- C5: compaction preserves every needed lookup. On a commit log with strictly
increasing commitTs, `CompactCommitLog` returns on every nonempty log, and on the log
it leaves behind `lcbNoLatch` returns the same entry as before, for the transaction
id (flag bits cleared) of every other worker whose `mActiveTxId` is nonzero and for
every query greater than the latest commitTs. Below capacity the log is not touched,
so the statement covers that case as well. -/
theorem CompactCommitLog_preserves_needed_lookups (t : CommitTree) (myWorkerId : Nat)
    (allWorkers : List WorkerContext) (h : StrictIncCommit t.mCommitLog) :
    (t.mCommitLog ≠ [] → ∃ t', CompactCommitLog t myWorkerId allWorkers = .ok t') ∧
    ∀ t', CompactCommitLog t myWorkerId allWorkers = .ok t' →
      (∀ i w, allWorkers[i]? = some w → i ≠ myWorkerId → w.mActiveTxId ≠ 0 →
        lcbNoLatch t' (w.mActiveTxId &&& kCleanBitsMask) =
          lcbNoLatch t (w.mActiveTxId &&& kCleanBitsMask)) ∧
      (∀ latest q, t.mCommitLog.getLast? = some latest → latest.1 < q →
        lcbNoLatch t' q = lcbNoLatch t q) := by
  constructor
  · intro hne
    unfold CompactCommitLog
    by_cases hcap : t.mCommitLog.length < t.mCapacity
    · exact ⟨t, by simp [hcap]⟩
    · have hpos : 0 < t.mCommitLog.length := List.length_pos.mpr hne
      have hidx : t.mCommitLog.length - 1 < t.mCommitLog.length := by omega
      rw [if_neg hcap, List.getElem?_eq_getElem hidx]
      exact ⟨_, rfl⟩
  · intro t' ht'
    unfold CompactCommitLog at ht'
    by_cases hcap : t.mCommitLog.length < t.mCapacity
    · rw [if_pos hcap] at ht'
      cases ht'
      exact ⟨fun _ _ _ _ _ => rfl, fun _ _ _ _ => rfl⟩
    · rw [if_neg hcap] at ht'
      cases hlast : t.mCommitLog[t.mCommitLog.length - 1]? with
      | none =>
        rw [hlast] at ht'
        cases ht'
      | some latest =>
        rw [hlast] at ht'
        simp only [Result.ok.injEq] at ht'
        subst ht'
        have hlast' : t.mCommitLog.getLast? = some latest := by
          rw [List.getLast?_eq_getElem?]
          exact hlast
        have hmemLatest : latest ∈ t.mCommitLog := List.getElem?_mem hlast
        have hsub := compactLoop_subset t myWorkerId allWorkers latest hmemLatest
        have hsorted := sorted_compactLoop t myWorkerId allWorkers 0 (setInsert latest [])
          (sorted_setInsert latest [] List.Pairwise.nil)
        have hinc' := strictInc_of_sorted_subset h hsub hsorted
        constructor
        · intro i w hw hi hact
          apply lcbNoLatch_eq_of_isLcb _ _ hinc'
          have hold := lcbNoLatch_isLcb t (w.mActiveTxId &&& kCleanBitsMask) h
          cases hr : lcbNoLatch t (w.mActiveTxId &&& kCleanBitsMask) with
          | none =>
            rw [hr] at hold
            intro e he
            exact hold e (hsub e he)
          | some r =>
            rw [hr] at hold
            refine ⟨?_, hold.2.1, fun e he hlt => hold.2.2 e (hsub e he) hlt⟩
            show r ∈ compactLoop t myWorkerId allWorkers 0 (setInsert latest [])
            rw [mem_compactLoop]
            exact Or.inr ⟨i, w, hw, by omega, hact, hr⟩
        · intro latest₂ q hl₂ hq
          rw [hlast'] at hl₂
          cases hl₂
          have hle := strictInc_le_getLast h hlast'
          have hold : IsLcb t.mCommitLog q (some latest) :=
            ⟨hmemLatest, hq, fun e he _ => hle e he⟩
          rw [lcbNoLatch_eq_of_isLcb t q h hold]
          apply lcbNoLatch_eq_of_isLcb _ _ hinc'
          refine ⟨?_, hq, fun e he _ => hle e (hsub e he)⟩
          show latest ∈ compactLoop t myWorkerId allWorkers 0 (setInsert latest [])
          rw [mem_compactLoop, mem_setInsert]
          exact Or.inl (Or.inl rfl)

/-- C5, at the spec's fifth scenario: worker 0 has committed at 2, 4, 6, 8 with
capacity 4, worker 1 is active at 5, worker 2 is idle. -/
theorem CompactCommitLog_preserves_needed_lookups_witness :
    ∃ t', CompactCommitLog ⟨[(2, 1), (4, 3), (6, 5), (8, 7)], 4⟩ 0
        [⟨0, ⟨0, .kSnapshotIsolation⟩, 0, ⟨⟨[], 4⟩, [], [], [], 0, 0, 0, 0, 0, 0, 0, 0, 0⟩⟩,
         ⟨5, ⟨5, .kSnapshotIsolation⟩, 0, ⟨⟨[], 4⟩, [], [], [], 0, 0, 0, 0, 0, 0, 0, 0, 0⟩⟩,
         ⟨0, ⟨0, .kSnapshotIsolation⟩, 0, ⟨⟨[], 4⟩, [], [], [], 0, 0, 0, 0, 0, 0, 0, 0, 0⟩⟩]
      = .ok t' :=
  (CompactCommitLog_preserves_needed_lookups ⟨[(2, 1), (4, 3), (6, 5), (8, 7)], 4⟩ 0 _
    (by decide)).1 (by decide)

/-- C6: below capacity `CompactCommitLog` returns the tree as it is. At or above
capacity, with `latest` the most recent entry, it returns a tree with the same
capacity whose log is strictly ascending in the order of pairs (hence without
duplicates) and holds exactly: `latest`, and every entry that `lcbNoLatch` selects for
the id, flag bits cleared, of another worker whose `mActiveTxId` is nonzero. -/
theorem CompactCommitLog_result (t : CommitTree) (myWorkerId : Nat)
    (allWorkers : List WorkerContext) :
    (t.mCommitLog.length < t.mCapacity → CompactCommitLog t myWorkerId allWorkers = .ok t) ∧
    (t.mCapacity ≤ t.mCommitLog.length →
      ∀ latest, t.mCommitLog.getLast? = some latest →
        ∃ t', CompactCommitLog t myWorkerId allWorkers = .ok t' ∧
          t'.mCapacity = t.mCapacity ∧
          t'.mCommitLog.Pairwise (fun a b => pairLess a b = true) ∧
          t'.mCommitLog.Nodup ∧
          ∀ x, x ∈ t'.mCommitLog ↔
            (x = latest ∨ ∃ i w, allWorkers[i]? = some w ∧ i ≠ myWorkerId ∧
              w.mActiveTxId ≠ 0 ∧
              lcbNoLatch t (w.mActiveTxId &&& kCleanBitsMask) = some x)) := by
  constructor
  · intro hcap
    unfold CompactCommitLog
    rw [if_pos hcap]
  · intro hcap latest hlast
    unfold CompactCommitLog
    rw [if_neg (by omega)]
    rw [List.getLast?_eq_getElem?] at hlast
    rw [hlast]
    have hsorted := sorted_compactLoop t myWorkerId allWorkers 0 (setInsert latest [])
      (sorted_setInsert latest [] List.Pairwise.nil)
    refine ⟨_, rfl, rfl, hsorted, ?_, ?_⟩
    · refine List.Pairwise.imp ?_ hsorted
      intro a b hab heq
      subst heq
      rw [pairLess_iff] at hab
      omega
    · intro x
      show x ∈ compactLoop t myWorkerId allWorkers 0 (setInsert latest []) ↔ _
      rw [mem_compactLoop, mem_setInsert]
      simp only [List.not_mem_nil, or_false, Nat.zero_add]

/-- C6, at the spec's fifth scenario: commits 2, 4, 6, 8 with capacity 4, worker 1
active at 5 and worker 2 idle; the entries with commitTs 4 and 8 are kept. -/
theorem CompactCommitLog_result_scenario :
    CompactCommitLog ⟨[(2, 1), (4, 3), (6, 5), (8, 7)], 4⟩ 0
        [⟨0, ⟨0, .kSnapshotIsolation⟩, 0, ⟨⟨[], 4⟩, [], [], [], 0, 0, 0, 0, 0, 0, 0, 0, 0⟩⟩,
         ⟨5, ⟨5, .kSnapshotIsolation⟩, 0, ⟨⟨[], 4⟩, [], [], [], 0, 0, 0, 0, 0, 0, 0, 0, 0⟩⟩,
         ⟨0, ⟨0, .kSnapshotIsolation⟩, 0, ⟨⟨[], 4⟩, [], [], [], 0, 0, 0, 0, 0, 0, 0, 0, 0⟩⟩]
      = .ok ⟨[(4, 3), (8, 7)], 4⟩ := by
  decide

end CommitTree

/-! ## Theorems: visibility -/

namespace ConcurrencyControl

theorem set_eq_self_of_getElem? {α : Type} (l : List α) (i : Nat) (a : α)
    (h : l[i]? = some a) : l.set i a = l := by
  apply List.ext_getElem?
  intro j
  by_cases hij : i = j
  · subst hij
    rw [List.getElem?_set_self (List.getElem?_eq_some_iff.mp h).1, h]
  · rw [List.getElem?_set_ne hij]

theorem withLcbCaches_self (s : LeanStore) (me : Nat) (my : WorkerContext)
    (hmy : s.mAllWorkers[me]? = some my) :
    withLcbCaches s me my my.mCc.mLcbCacheKey my.mCc.mLcbCacheVal = s := by
  unfold withLcbCaches
  rw [set_eq_self_of_getElem? s.mAllWorkers me _ hmy]

/-- C3: for an observer `me` whose active transaction is SnapshotIsolation or
Serializable and every `(workerId, txId)` naming a worker, `VisibleForMe` returns what
the reference procedure returns and leaves the state with the caches the reference
procedure leaves, everything else untouched. The caches differ from the ones before
only in the last case with a nonzero `Lcb`, and only at index `workerId`. -/
theorem VisibleForMe_eq_reference (s : LeanStore) (me workerId txId : Nat)
    (my other : WorkerContext)
    (hmy : s.mAllWorkers[me]? = some my) (hother : s.mAllWorkers[workerId]? = some other)
    (hiso : my.mActiveTx.mTxIsolationLevel = .kSnapshotIsolation ∨
      my.mActiveTx.mTxIsolationLevel = .kSerializable)
    (hk : workerId < my.mCc.mLcbCacheKey.length)
    (hv : workerId < my.mCc.mLcbCacheVal.length) :
    ∃ (b : Bool) (key val : List Nat),
      VisibleForMe s me workerId txId = .ok (b, withLcbCaches s me my key val) ∧
      (b, key, val) = VisibleForMeRef me my.mActiveTx.mStartTs my.mCc.mGlobalWmkOfAllTx
        my.mCc.mLcbCacheKey my.mCc.mLcbCacheVal
        (other.mCc.mCommitTree.Lcb my.mActiveTx.mStartTs) workerId txId ∧
      (∀ i, i ≠ workerId →
        key[i]? = my.mCc.mLcbCacheKey[i]? ∧ val[i]? = my.mCc.mLcbCacheVal[i]?) ∧
      ((key ≠ my.mCc.mLcbCacheKey ∨ val ≠ my.mCc.mLcbCacheVal) →
        workerId ≠ me ∧ ¬ txId < my.mCc.mGlobalWmkOfAllTx ∧
        my.mCc.mLcbCacheKey[workerId]? ≠ some my.mActiveTx.mStartTs ∧
        (∀ v, my.mCc.mLcbCacheVal[workerId]? = some v → v < txId) ∧
        other.mCc.mCommitTree.Lcb my.mActiveTx.mStartTs ≠ 0 ∧
        key = my.mCc.mLcbCacheKey.set workerId my.mActiveTx.mStartTs ∧
        val = my.mCc.mLcbCacheVal.set workerId
          (other.mCc.mCommitTree.Lcb my.mActiveTx.mStartTs)) := by
  have hself := withLcbCaches_self s me my hmy
  have hkey : my.mCc.mLcbCacheKey[workerId]? = some (my.mCc.mLcbCacheKey[workerId]) :=
    List.getElem?_eq_getElem hk
  have hval : my.mCc.mLcbCacheVal[workerId]? = some (my.mCc.mLcbCacheVal[workerId]) :=
    List.getElem?_eq_getElem hv
  have hkeyD : my.mCc.mLcbCacheKey.getD workerId 0 = my.mCc.mLcbCacheKey[workerId] := by
    rw [List.getD_eq_getElem?_getD, hkey]
    rfl
  have hvalD : my.mCc.mLcbCacheVal.getD workerId 0 = my.mCc.mLcbCacheVal[workerId] := by
    rw [List.getD_eq_getElem?_getD, hval]
    rfl
  have unchanged : ∀ b : Bool,
      VisibleForMe s me workerId txId = .ok (b, s) →
      (b, my.mCc.mLcbCacheKey, my.mCc.mLcbCacheVal) =
        VisibleForMeRef me my.mActiveTx.mStartTs my.mCc.mGlobalWmkOfAllTx
          my.mCc.mLcbCacheKey my.mCc.mLcbCacheVal
          (other.mCc.mCommitTree.Lcb my.mActiveTx.mStartTs) workerId txId →
      ∃ (b : Bool) (key val : List Nat),
        VisibleForMe s me workerId txId = .ok (b, withLcbCaches s me my key val) ∧
        (b, key, val) = VisibleForMeRef me my.mActiveTx.mStartTs my.mCc.mGlobalWmkOfAllTx
          my.mCc.mLcbCacheKey my.mCc.mLcbCacheVal
          (other.mCc.mCommitTree.Lcb my.mActiveTx.mStartTs) workerId txId ∧
        (∀ i, i ≠ workerId →
          key[i]? = my.mCc.mLcbCacheKey[i]? ∧ val[i]? = my.mCc.mLcbCacheVal[i]?) ∧
        ((key ≠ my.mCc.mLcbCacheKey ∨ val ≠ my.mCc.mLcbCacheVal) →
          workerId ≠ me ∧ ¬ txId < my.mCc.mGlobalWmkOfAllTx ∧
          my.mCc.mLcbCacheKey[workerId]? ≠ some my.mActiveTx.mStartTs ∧
          (∀ v, my.mCc.mLcbCacheVal[workerId]? = some v → v < txId) ∧
          other.mCc.mCommitTree.Lcb my.mActiveTx.mStartTs ≠ 0 ∧
          key = my.mCc.mLcbCacheKey.set workerId my.mActiveTx.mStartTs ∧
          val = my.mCc.mLcbCacheVal.set workerId
            (other.mCc.mCommitTree.Lcb my.mActiveTx.mStartTs)) := by
    intro b hb href
    refine ⟨b, my.mCc.mLcbCacheKey, my.mCc.mLcbCacheVal, ?_, href, fun _ _ => ⟨rfl, rfl⟩, ?_⟩
    · rw [hself]
      exact hb
    · rintro (h | h) <;> exact absurd rfl h
  by_cases h1 : me = workerId
  · apply unchanged true
    · unfold VisibleForMe
      rw [hmy]
      simp only [h1, if_true]
    · unfold VisibleForMeRef
      rw [if_pos h1.symm]
  · have h1' : ¬ workerId = me := fun h => h1 h.symm
    have hbranch : VisibleForMe s me workerId txId =
        (if txId < my.mCc.mGlobalWmkOfAllTx then Result.ok (true, s)
        else if my.mCc.mLcbCacheKey[workerId] = my.mActiveTx.mStartTs then
          Result.ok (decide (my.mCc.mLcbCacheVal[workerId] ≥ txId), s)
        else if my.mCc.mLcbCacheVal[workerId] ≥ txId then Result.ok (true, s)
        else if other.mCc.mCommitTree.Lcb my.mActiveTx.mStartTs ≠ 0 then
          Result.ok (decide (other.mCc.mCommitTree.Lcb my.mActiveTx.mStartTs ≥ txId),
            withLcbCaches s me my
              (my.mCc.mLcbCacheKey.set workerId my.mActiveTx.mStartTs)
              (my.mCc.mLcbCacheVal.set workerId
                (other.mCc.mCommitTree.Lcb my.mActiveTx.mStartTs)))
        else Result.ok (false, s)) := by
      unfold VisibleForMe withLcbCaches
      rw [hmy]
      simp only [h1, if_false]
      rcases hiso with hiso | hiso <;>
        simp only [hiso, hkey, hval, hother]
    by_cases h2 : txId < my.mCc.mGlobalWmkOfAllTx
    · apply unchanged true
      · rw [hbranch, if_pos h2]
      · unfold VisibleForMeRef
        rw [if_neg h1', if_pos h2]
    · by_cases h3 : my.mCc.mLcbCacheKey[workerId] = my.mActiveTx.mStartTs
      · apply unchanged
        · rw [hbranch, if_neg h2, if_pos h3]
        · unfold VisibleForMeRef
          rw [if_neg h1', if_neg h2, hkeyD, hvalD, if_pos h3]
      · by_cases h4 : my.mCc.mLcbCacheVal[workerId] ≥ txId
        · apply unchanged true
          · rw [hbranch, if_neg h2, if_neg h3, if_pos h4]
          · unfold VisibleForMeRef
            rw [if_neg h1', if_neg h2, hkeyD, hvalD, if_neg h3, if_pos h4]
        · by_cases h5 : other.mCc.mCommitTree.Lcb my.mActiveTx.mStartTs ≠ 0
          · refine ⟨decide (other.mCc.mCommitTree.Lcb my.mActiveTx.mStartTs ≥ txId),
              my.mCc.mLcbCacheKey.set workerId my.mActiveTx.mStartTs,
              my.mCc.mLcbCacheVal.set workerId
                (other.mCc.mCommitTree.Lcb my.mActiveTx.mStartTs), ?_, ?_, ?_, ?_⟩
            · rw [hbranch, if_neg h2, if_neg h3, if_neg h4, if_pos h5]
            · unfold VisibleForMeRef
              rw [if_neg h1', if_neg h2, hkeyD, hvalD, if_neg h3, if_neg h4, if_pos h5]
            · intro i hi
              exact ⟨List.getElem?_set_ne (Ne.symm hi), List.getElem?_set_ne (Ne.symm hi)⟩
            · intro _
              refine ⟨h1', h2, ?_, ?_, h5, rfl, rfl⟩
              · rw [hkey]
                intro hc
                exact h3 (Option.some.inj hc)
              · intro v hv'
                rw [hval] at hv'
                cases hv'
                omega
          · apply unchanged false
            · rw [hbranch, if_neg h2, if_neg h3, if_neg h4, if_neg h5]
            · unfold VisibleForMeRef
              rw [if_neg h1', if_neg h2, hkeyD, hvalD, if_neg h3, if_neg h4, if_neg h5]

/-- C3, at the spec's first scenario: the reader, begun at 12, asks about the version
written by worker 0 in the transaction begun at 10. The caches miss, `Lcb(12)` on the
writer's log is nonzero, the version is visible and the cache entry of worker 0 is
filled. -/
theorem VisibleForMe_eq_reference_witness :
    VisibleForMe scenarioS1 1 0 10 =
      .ok (true, withLcbCaches scenarioS1 1 readerS1 [12, 0] [10, 0]) ∧
    (true, [12, 0], [10, 0]) = VisibleForMeRef 1 12 0 [0, 0] [0, 0] 10 0 10 := by
  obtain ⟨b, key, val, h₁, h₂, _⟩ :=
    VisibleForMe_eq_reference scenarioS1 1 0 10 readerS1 writerS1 (by decide) (by decide)
      (by decide) (by decide) (by decide)
  have h₃ : (b, key, val) = (true, [12, 0], [10, 0]) := by
    rw [h₂]
    decide
  simp only [Prod.mk.injEq] at h₃
  obtain ⟨rfl, rfl, rfl⟩ := h₃
  exact ⟨h₁, h₂⟩

end ConcurrencyControl

/-! ## Theorems: watermarks -/

namespace ConcurrencyControl

theorem updateWmkLoop_workers (g : GlobalWmkInfo) :
    ∀ (ws : List WorkerContext) (a b : Nat),
      (updateWmkLoop g ws a b).workers = ws.map (republished g) := by
  intro ws
  induction ws with
  | nil =>
    intro a b
    rfl
  | cons w rest ih =>
    intro a b
    unfold updateWmkLoop
    by_cases h : w.mCc.mUpdatedLatestCommitTs = w.mCc.mLatestCommitTs
    · simp only [h, if_true, List.map_cons, republished]
      split <;> simp [ih]
    · simp only [h, if_false, List.map_cons, republished]
      split <;> simp [ih]

/-- The shape of a round of `updateGlobalTxWatermarks` that passes the gate: it ends
fatally exactly when long-running transactions are disabled and the two oldest ids
differ; otherwise it returns a state with the options untouched, the three scanned
ids published and every worker republished. -/
theorem updateGlobalTxWatermarks_round (s : LeanStore) (rand : Nat) (tryLock : Bool)
    (hgate : passesGate s rand tryLock = true) :
    let scan := scanActiveTxIds s.mAllWorkers ⟨TXID_MAX, TXID_MIN, TXID_MAX⟩
    (s.mStoreOption.mEnableLongRunningTx = false ∧ scan.oldestTxId ≠ scan.oldestShortTxId →
      updateGlobalTxWatermarks s rand tryLock = .fatal) ∧
    (¬ (s.mStoreOption.mEnableLongRunningTx = false ∧
        scan.oldestTxId ≠ scan.oldestShortTxId) →
      ∃ s', updateGlobalTxWatermarks s rand tryLock = .ok s' ∧
        s'.mStoreOption = s.mStoreOption ∧
        s'.mGlobalWmkInfo.mOldestActiveTx = scan.oldestTxId ∧
        s'.mGlobalWmkInfo.mOldestActiveShortTx = scan.oldestShortTxId ∧
        s'.mGlobalWmkInfo.mNewestActiveLongTx = scan.newestLongTxId ∧
        s'.mAllWorkers = s.mAllWorkers.map (republished s'.mGlobalWmkInfo)) := by
  intro scan
  simp only [passesGate, Bool.and_eq_true] at hgate
  obtain ⟨⟨hgc, hmeet⟩, hlock⟩ := hgate
  have hrep : ∀ (g g' : GlobalWmkInfo), g'.mOldestActiveTx = g.mOldestActiveTx →
      g'.mOldestActiveShortTx = g.mOldestActiveShortTx →
      s.mAllWorkers.map (republished g) = s.mAllWorkers.map (republished g') := by
    intro g g' h1 h2
    apply List.map_congr_left
    intro w _
    unfold republished
    rw [h1, h2]
  constructor
  · intro hf
    unfold updateGlobalTxWatermarks
    simp only [hgc, hmeet, hlock, Bool.not_true, Bool.and_self, Bool.false_eq_true, if_false,
      GlobalWmkInfo.UpdateActiveTxInfo, Bool.not_eq_true']
    rw [if_pos hf]
  · intro hf
    unfold updateGlobalTxWatermarks
    simp only [hgc, hmeet, hlock, Bool.not_true, Bool.and_self, Bool.false_eq_true, if_false,
      GlobalWmkInfo.UpdateActiveTxInfo, Bool.not_eq_true']
    rw [if_neg hf]
    simp only [updateWmkLoop_workers]
    split
    · exact ⟨_, rfl, rfl, rfl, rfl, rfl, rfl⟩
    · split
      · exact ⟨_, rfl, rfl, rfl, rfl, rfl, rfl⟩
      · refine ⟨_, rfl, rfl, rfl, rfl, rfl, ?_⟩
        exact hrep _ _ rfl rfl

/-- C7: in a round of `updateGlobalTxWatermarks` that passes the gate and returns,
every worker whose `mLatestCommitTs` differs from its `mUpdatedLatestCommitTs` ends with
`mWmkOfAllTx = Lcb(oldestActiveTx)` and `mWmkOfShortTx = Lcb(oldestActiveShortTx)`, both
evaluated on its own commit tree with the ids published in this round, and with
`mUpdatedLatestCommitTs` equal to its `mLatestCommitTs`; every worker for which the two
are equal is left exactly as it was. -/
theorem updateGlobalTxWatermarks_recomputes_stale_workers (s s' : LeanStore) (rand : Nat)
    (tryLock : Bool) (hgate : passesGate s rand tryLock = true)
    (hok : updateGlobalTxWatermarks s rand tryLock = .ok s') :
    s'.mGlobalWmkInfo.mOldestActiveTx =
      (scanActiveTxIds s.mAllWorkers ⟨TXID_MAX, TXID_MIN, TXID_MAX⟩).oldestTxId ∧
    s'.mGlobalWmkInfo.mOldestActiveShortTx =
      (scanActiveTxIds s.mAllWorkers ⟨TXID_MAX, TXID_MIN, TXID_MAX⟩).oldestShortTxId ∧
    s'.mAllWorkers.length = s.mAllWorkers.length ∧
    ∀ (i : Nat) (w : WorkerContext), s.mAllWorkers[i]? = some w →
      ∃ w' : WorkerContext, s'.mAllWorkers[i]? = some w' ∧
        (w.mCc.mLatestCommitTs ≠ w.mCc.mUpdatedLatestCommitTs →
          w'.mCc.mWmkOfAllTx = w.mCc.mCommitTree.Lcb s'.mGlobalWmkInfo.mOldestActiveTx ∧
          w'.mCc.mWmkOfShortTx =
            w.mCc.mCommitTree.Lcb s'.mGlobalWmkInfo.mOldestActiveShortTx ∧
          w'.mCc.mUpdatedLatestCommitTs = w.mCc.mLatestCommitTs ∧
          w'.mCc.mLatestCommitTs = w.mCc.mLatestCommitTs ∧
          w'.mCc.mCommitTree = w.mCc.mCommitTree) ∧
        (w.mCc.mLatestCommitTs = w.mCc.mUpdatedLatestCommitTs → w' = w) := by
  obtain ⟨hfatal, hround⟩ := updateGlobalTxWatermarks_round s rand tryLock hgate
  by_cases hf : s.mStoreOption.mEnableLongRunningTx = false ∧
      (scanActiveTxIds s.mAllWorkers ⟨TXID_MAX, TXID_MIN, TXID_MAX⟩).oldestTxId ≠
        (scanActiveTxIds s.mAllWorkers ⟨TXID_MAX, TXID_MIN, TXID_MAX⟩).oldestShortTxId
  · rw [hfatal hf] at hok
    cases hok
  · obtain ⟨s₂, hs₂, _, hall, hshort, _, hworkers⟩ := hround hf
    rw [hs₂] at hok
    cases hok
    refine ⟨hall, hshort, ?_, ?_⟩
    · rw [hworkers, List.length_map]
    · intro i w hw
      refine ⟨republished s'.mGlobalWmkInfo w, ?_, ?_, ?_⟩
      · rw [hworkers, List.getElem?_map, hw]
        rfl
      · intro hne
        unfold republished
        rw [if_neg (fun h => hne h.symm)]
        exact ⟨rfl, rfl, rfl, rfl, rfl⟩
      · intro heq
        unfold republished
        rw [if_pos heq.symm]

/-- C7, at the spec's fourth scenario: worker 0 has commits the last round has not
seen, worker 1 runs a long-running transaction begun at 50 and has committed nothing.
Worker 0 gets `Lcb(50) = 48` and `Lcb(2^64-1) = 59`; worker 1 is left as it was. -/
theorem updateGlobalTxWatermarks_recomputes_stale_workers_witness :
    scenarioS4Round.mGlobalWmkInfo.mOldestActiveTx =
      (scanActiveTxIds scenarioS4.mAllWorkers ⟨TXID_MAX, TXID_MIN, TXID_MAX⟩).oldestTxId ∧
    scenarioS4Round.mGlobalWmkInfo.mOldestActiveShortTx =
      (scanActiveTxIds scenarioS4.mAllWorkers ⟨TXID_MAX, TXID_MIN, TXID_MAX⟩).oldestShortTxId ∧
    scenarioS4Round.mAllWorkers.length = scenarioS4.mAllWorkers.length ∧
    ∀ (i : Nat) (w : WorkerContext), scenarioS4.mAllWorkers[i]? = some w →
      ∃ w' : WorkerContext, scenarioS4Round.mAllWorkers[i]? = some w' ∧
        (w.mCc.mLatestCommitTs ≠ w.mCc.mUpdatedLatestCommitTs →
          w'.mCc.mWmkOfAllTx =
            w.mCc.mCommitTree.Lcb scenarioS4Round.mGlobalWmkInfo.mOldestActiveTx ∧
          w'.mCc.mWmkOfShortTx =
            w.mCc.mCommitTree.Lcb scenarioS4Round.mGlobalWmkInfo.mOldestActiveShortTx ∧
          w'.mCc.mUpdatedLatestCommitTs = w.mCc.mLatestCommitTs ∧
          w'.mCc.mLatestCommitTs = w.mCc.mLatestCommitTs ∧
          w'.mCc.mCommitTree = w.mCc.mCommitTree) ∧
        (w.mCc.mLatestCommitTs = w.mCc.mUpdatedLatestCommitTs → w' = w) :=
  updateGlobalTxWatermarks_recomputes_stale_workers scenarioS4 scenarioS4Round 0 true
    (by decide) (by decide)

theorem trackedIds_lt (ws : List WorkerContext) : ∀ x ∈ trackedIds ws, x < 2 ^ 62 := by
  intro x hx
  unfold trackedIds at hx
  rw [List.mem_map] at hx
  obtain ⟨a, _, rfl⟩ := hx
  exact Nat.and_lt_two_pow a (by unfold kCleanBitsMask; omega)

theorem trackedShortIds_subset (ws : List WorkerContext) :
    ∀ x ∈ trackedShortIds ws, x ∈ trackedIds ws := by
  intro x hx
  unfold trackedShortIds at hx
  unfold trackedIds
  rw [List.mem_map] at hx ⊢
  obtain ⟨a, ha, rfl⟩ := hx
  exact ⟨a, (List.mem_filter.mp ha).1, rfl⟩

/-- The scan as a fold: each of the three ids is the running value it started from or
one of the ids it folded in, and it bounds all of them. -/
theorem scanActiveTxIds_spec :
    ∀ (ws : List WorkerContext) (acc : ActiveTxScan),
      ((scanActiveTxIds ws acc).oldestTxId ≤ acc.oldestTxId ∧
        (∀ x ∈ trackedIds ws, (scanActiveTxIds ws acc).oldestTxId ≤ x) ∧
        ((scanActiveTxIds ws acc).oldestTxId = acc.oldestTxId ∨
          (scanActiveTxIds ws acc).oldestTxId ∈ trackedIds ws)) ∧
      ((scanActiveTxIds ws acc).oldestShortTxId ≤ acc.oldestShortTxId ∧
        (∀ x ∈ trackedShortIds ws, (scanActiveTxIds ws acc).oldestShortTxId ≤ x) ∧
        ((scanActiveTxIds ws acc).oldestShortTxId = acc.oldestShortTxId ∨
          (scanActiveTxIds ws acc).oldestShortTxId ∈ trackedShortIds ws)) ∧
      (acc.newestLongTxId ≤ (scanActiveTxIds ws acc).newestLongTxId ∧
        (∀ x ∈ trackedLongIds ws, x ≤ (scanActiveTxIds ws acc).newestLongTxId) ∧
        ((scanActiveTxIds ws acc).newestLongTxId = acc.newestLongTxId ∨
          (scanActiveTxIds ws acc).newestLongTxId ∈ trackedLongIds ws)) := by
  intro ws
  induction ws with
  | nil =>
    intro acc
    simp [scanActiveTxIds, trackedIds, trackedShortIds, trackedLongIds, trackedWords]
  | cons w rest ih =>
    intro acc
    unfold scanActiveTxIds
    dsimp only
    by_cases h0 : w.mActiveTxId = 0
    · have e1 : trackedIds (w :: rest) = trackedIds rest := by
        simp [trackedIds, trackedWords, List.filter_cons, h0]
      have e2 : trackedShortIds (w :: rest) = trackedShortIds rest := by
        simp [trackedShortIds, trackedWords, List.filter_cons, h0]
      have e3 : trackedLongIds (w :: rest) = trackedLongIds rest := by
        simp [trackedLongIds, trackedWords, List.filter_cons, h0]
      rw [if_pos h0, e1, e2, e3]
      exact ih acc
    · by_cases hrc : w.mActiveTxId &&& kRcBit ≠ 0
      · have e1 : trackedIds (w :: rest) = trackedIds rest := by
          simp [trackedIds, trackedWords, List.filter_cons, h0, hrc]
        have e2 : trackedShortIds (w :: rest) = trackedShortIds rest := by
          simp [trackedShortIds, trackedWords, List.filter_cons, h0, hrc]
        have e3 : trackedLongIds (w :: rest) = trackedLongIds rest := by
          simp [trackedLongIds, trackedWords, List.filter_cons, h0, hrc]
        rw [if_neg h0, if_pos hrc, e1, e2, e3]
        exact ih acc
      · have hrc' : w.mActiveTxId &&& kRcBit = 0 := by
          by_contra hcon
          exact hrc hcon
        have e1 : trackedIds (w :: rest) =
            (w.mActiveTxId &&& kCleanBitsMask) :: trackedIds rest := by
          simp [trackedIds, trackedWords, List.filter_cons, h0, hrc']
        by_cases hlong : w.mActiveTxId &&& kLongRunningBit ≠ 0
        · have e2 : trackedShortIds (w :: rest) = trackedShortIds rest := by
            simp [trackedShortIds, trackedWords, List.filter_cons, h0, hrc', hlong]
          have e3 : trackedLongIds (w :: rest) =
              (w.mActiveTxId &&& kCleanBitsMask) :: trackedLongIds rest := by
            simp [trackedLongIds, trackedWords, List.filter_cons, h0, hrc', hlong]
          rw [if_neg h0, if_neg hrc, if_pos (decide_eq_true hlong), e1, e2, e3]
          obtain ⟨⟨a1, a2, a3⟩, ⟨b1, b2, b3⟩, ⟨c1, c2, c3⟩⟩ := ih
            { acc with
              oldestTxId := min (w.mActiveTxId &&& kCleanBitsMask) acc.oldestTxId,
              newestLongTxId := max (w.mActiveTxId &&& kCleanBitsMask) acc.newestLongTxId }
          simp only at a1 a3 b1 b3 c1 c3
          refine ⟨⟨by omega, ?_, ?_⟩, ⟨b1, b2, b3⟩, ⟨by omega, ?_, ?_⟩⟩
          · intro x hx
            rcases List.mem_cons.mp hx with rfl | hx
            · omega
            · exact a2 x hx
          · rcases a3 with a3 | a3
            · rcases Nat.le_total (w.mActiveTxId &&& kCleanBitsMask) acc.oldestTxId with hle | hle
              · right
                rw [a3, Nat.min_eq_left hle]
                exact List.mem_cons_self _ _
              · left
                rw [a3, Nat.min_eq_right hle]
            · exact Or.inr (List.mem_cons_of_mem _ a3)
          · intro x hx
            rcases List.mem_cons.mp hx with rfl | hx
            · omega
            · exact c2 x hx
          · rcases c3 with c3 | c3
            · rcases Nat.le_total (w.mActiveTxId &&& kCleanBitsMask) acc.newestLongTxId
                with hle | hle
              · left
                rw [c3, Nat.max_eq_right hle]
              · right
                rw [c3, Nat.max_eq_left hle]
                exact List.mem_cons_self _ _
            · exact Or.inr (List.mem_cons_of_mem _ c3)
        · have hlong' : w.mActiveTxId &&& kLongRunningBit = 0 := by
            by_contra hcon
            exact hlong hcon
          have e2 : trackedShortIds (w :: rest) =
              (w.mActiveTxId &&& kCleanBitsMask) :: trackedShortIds rest := by
            simp [trackedShortIds, trackedWords, List.filter_cons, h0, hrc', hlong']
          have e3 : trackedLongIds (w :: rest) = trackedLongIds rest := by
            simp [trackedLongIds, trackedWords, List.filter_cons, h0, hrc', hlong']
          rw [if_neg h0, if_neg hrc, if_neg (by simpa using hlong'), e1, e2, e3]
          obtain ⟨⟨a1, a2, a3⟩, ⟨b1, b2, b3⟩, ⟨c1, c2, c3⟩⟩ := ih
            { acc with
              oldestTxId := min (w.mActiveTxId &&& kCleanBitsMask) acc.oldestTxId,
              oldestShortTxId :=
                min (w.mActiveTxId &&& kCleanBitsMask) acc.oldestShortTxId }
          simp only at a1 a3 b1 b3 c1 c3
          refine ⟨⟨by omega, ?_, ?_⟩, ⟨by omega, ?_, ?_⟩, ⟨c1, c2, c3⟩⟩
          · intro x hx
            rcases List.mem_cons.mp hx with rfl | hx
            · omega
            · exact a2 x hx
          · rcases a3 with a3 | a3
            · rcases Nat.le_total (w.mActiveTxId &&& kCleanBitsMask) acc.oldestTxId with hle | hle
              · right
                rw [a3, Nat.min_eq_left hle]
                exact List.mem_cons_self _ _
              · left
                rw [a3, Nat.min_eq_right hle]
            · exact Or.inr (List.mem_cons_of_mem _ a3)
          · intro x hx
            rcases List.mem_cons.mp hx with rfl | hx
            · omega
            · exact b2 x hx
          · rcases b3 with b3 | b3
            · rcases Nat.le_total (w.mActiveTxId &&& kCleanBitsMask) acc.oldestShortTxId
                with hle | hle
              · right
                rw [b3, Nat.min_eq_left hle]
                exact List.mem_cons_self _ _
              · left
                rw [b3, Nat.min_eq_right hle]
            · exact Or.inr (List.mem_cons_of_mem _ b3)

/-- C8: the scan of `updateGlobalTxWatermarks`, started from the sentinels, skips the
words that are zero or carry the read-committed bit and computes: `oldestTxId`, the
minimum of the remaining ids with the flag bits cleared (`2^64-1` if none);
`oldestShortTxId`, the minimum over those without the long-running bit (`2^64-1` if
none); `newestLongTxId`, the maximum over those with the long-running bit (`0` if none).
Hence `oldestTxId ≤ oldestShortTxId`. A round that passes the gate and returns
publishes exactly these three values. -/
theorem scanActiveTxIds_min_max (ws : List WorkerContext) :
    ((trackedIds ws = [] →
        (scanActiveTxIds ws ⟨TXID_MAX, TXID_MIN, TXID_MAX⟩).oldestTxId = 2 ^ 64 - 1) ∧
      (trackedIds ws ≠ [] →
        (scanActiveTxIds ws ⟨TXID_MAX, TXID_MIN, TXID_MAX⟩).oldestTxId ∈ trackedIds ws) ∧
      (∀ x ∈ trackedIds ws,
        (scanActiveTxIds ws ⟨TXID_MAX, TXID_MIN, TXID_MAX⟩).oldestTxId ≤ x)) ∧
    ((trackedShortIds ws = [] →
        (scanActiveTxIds ws ⟨TXID_MAX, TXID_MIN, TXID_MAX⟩).oldestShortTxId = 2 ^ 64 - 1) ∧
      (trackedShortIds ws ≠ [] →
        (scanActiveTxIds ws ⟨TXID_MAX, TXID_MIN, TXID_MAX⟩).oldestShortTxId ∈
          trackedShortIds ws) ∧
      (∀ x ∈ trackedShortIds ws,
        (scanActiveTxIds ws ⟨TXID_MAX, TXID_MIN, TXID_MAX⟩).oldestShortTxId ≤ x)) ∧
    ((trackedLongIds ws = [] →
        (scanActiveTxIds ws ⟨TXID_MAX, TXID_MIN, TXID_MAX⟩).newestLongTxId = 0) ∧
      (trackedLongIds ws ≠ [] →
        (scanActiveTxIds ws ⟨TXID_MAX, TXID_MIN, TXID_MAX⟩).newestLongTxId ∈
          trackedLongIds ws) ∧
      (∀ x ∈ trackedLongIds ws,
        x ≤ (scanActiveTxIds ws ⟨TXID_MAX, TXID_MIN, TXID_MAX⟩).newestLongTxId)) ∧
    (scanActiveTxIds ws ⟨TXID_MAX, TXID_MIN, TXID_MAX⟩).oldestTxId ≤
      (scanActiveTxIds ws ⟨TXID_MAX, TXID_MIN, TXID_MAX⟩).oldestShortTxId ∧
    (∀ (s s' : LeanStore) (rand : Nat) (tryLock : Bool), s.mAllWorkers = ws →
      passesGate s rand tryLock = true →
      updateGlobalTxWatermarks s rand tryLock = .ok s' →
      s'.mGlobalWmkInfo.mOldestActiveTx =
        (scanActiveTxIds ws ⟨TXID_MAX, TXID_MIN, TXID_MAX⟩).oldestTxId ∧
      s'.mGlobalWmkInfo.mOldestActiveShortTx =
        (scanActiveTxIds ws ⟨TXID_MAX, TXID_MIN, TXID_MAX⟩).oldestShortTxId ∧
      s'.mGlobalWmkInfo.mNewestActiveLongTx =
        (scanActiveTxIds ws ⟨TXID_MAX, TXID_MIN, TXID_MAX⟩).newestLongTxId) := by
  obtain ⟨⟨a1, a2, a3⟩, ⟨b1, b2, b3⟩, ⟨c1, c2, c3⟩⟩ :=
    scanActiveTxIds_spec ws ⟨TXID_MAX, TXID_MIN, TXID_MAX⟩
  set r := scanActiveTxIds ws ⟨TXID_MAX, TXID_MIN, TXID_MAX⟩ with hr
  have hM : TXID_MAX = 2 ^ 64 - 1 := rfl
  have hm : TXID_MIN = 0 := rfl
  dsimp only at a1 a3 b1 b3 c1 c3
  rw [hM] at a1 a3 b1 b3
  rw [hm] at c1 c3
  have hlt := trackedIds_lt ws
  have hsub := trackedShortIds_subset ws
  have hall : trackedIds ws ≠ [] → r.oldestTxId ∈ trackedIds ws := by
    intro hne
    rcases a3 with a3 | a3
    · exfalso
      obtain ⟨x, hx⟩ := List.exists_mem_of_ne_nil _ hne
      have h1 := a2 x hx
      have h2 := hlt x hx
      rw [a3] at h1
      omega
    · exact a3
  have hshort : trackedShortIds ws ≠ [] → r.oldestShortTxId ∈ trackedShortIds ws := by
    intro hne
    rcases b3 with b3 | b3
    · exfalso
      obtain ⟨x, hx⟩ := List.exists_mem_of_ne_nil _ hne
      have h1 := b2 x hx
      have h2 := hlt x (hsub x hx)
      rw [b3] at h1
      omega
    · exact b3
  refine ⟨⟨?_, hall, a2⟩, ⟨?_, hshort, b2⟩, ⟨?_, ?_, c2⟩, ?_, ?_⟩
  · intro hnil
    rcases a3 with a3 | a3
    · exact a3
    · rw [hnil] at a3
      cases a3
  · intro hnil
    rcases b3 with b3 | b3
    · exact b3
    · rw [hnil] at b3
      cases b3
  · intro hnil
    rcases c3 with c3 | c3
    · exact c3
    · rw [hnil] at c3
      cases c3
  · intro hne
    rcases c3 with c3 | c3
    · obtain ⟨x, hx⟩ := List.exists_mem_of_ne_nil _ hne
      have h1 := c2 x hx
      rw [c3] at h1
      have hx0 : x = 0 := by omega
      rw [c3, ← hx0]
      exact hx
    · exact c3
  · by_cases hne : trackedShortIds ws = []
    · rcases b3 with b3 | b3
      · rw [b3]
        exact a1
      · rw [hne] at b3
        cases b3
    · exact a2 _ (hsub _ (hshort hne))
  · intro s s' rand tryLock hws hgate hok
    obtain ⟨hfatal, hround⟩ := updateGlobalTxWatermarks_round s rand tryLock hgate
    rw [hws, ← hr] at hfatal hround
    by_cases hf : s.mStoreOption.mEnableLongRunningTx = false ∧
        r.oldestTxId ≠ r.oldestShortTxId
    · rw [hfatal hf] at hok
      cases hok
    · obtain ⟨s₂, hs₂, _, h1, h2, h3, _⟩ := hround hf
      rw [hs₂] at hok
      cases hok
      exact ⟨h1, h2, h3⟩

/-- C8, at the example of the claim: a single long-running transaction at 50 gives
`oldestTxId = 50`, `newestLongTxId = 50` and `oldestShortTxId = 2^64 - 1`. -/
theorem scanActiveTxIds_single_long_running :
    scanActiveTxIds [readerS4] ⟨TXID_MAX, TXID_MIN, TXID_MAX⟩ = ⟨50, 50, 2 ^ 64 - 1⟩ := by
  decide

end ConcurrencyControl

/-! ## Theorems: garbage collection -/

namespace ConcurrencyControl

/-- A round of `updateGlobalTxWatermarks` that returns leaves the options and, in
every worker, everything but the published watermarks, their version and
`mUpdatedLatestCommitTs` as they were. -/
theorem updateGlobalTxWatermarks_frame (s s₁ : LeanStore) (rand : Nat) (tryLock : Bool)
    (h : updateGlobalTxWatermarks s rand tryLock = .ok s₁) :
    s₁.mStoreOption = s.mStoreOption ∧
    ∀ (i : Nat) (w : WorkerContext), s.mAllWorkers[i]? = some w →
      ∃ w₁ : WorkerContext, s₁.mAllWorkers[i]? = some w₁ ∧
        w₁.mCc.mCleanedWmkOfShortTx = w.mCc.mCleanedWmkOfShortTx ∧
        w₁.mCc.mHistoryStorage = w.mCc.mHistoryStorage ∧
        w₁.mCc.mLocalWmkOfAllTx = w.mCc.mLocalWmkOfAllTx ∧
        w₁.mCc.mLocalWmkOfShortTx = w.mCc.mLocalWmkOfShortTx := by
  by_cases hgate : passesGate s rand tryLock = true
  · obtain ⟨hfatal, hround⟩ := updateGlobalTxWatermarks_round s rand tryLock hgate
    by_cases hf : s.mStoreOption.mEnableLongRunningTx = false ∧
        (scanActiveTxIds s.mAllWorkers ⟨TXID_MAX, TXID_MIN, TXID_MAX⟩).oldestTxId ≠
          (scanActiveTxIds s.mAllWorkers ⟨TXID_MAX, TXID_MIN, TXID_MAX⟩).oldestShortTxId
    · rw [hfatal hf] at h
      cases h
    · obtain ⟨s₂, hs₂, hopt, _, _, _, hworkers⟩ := hround hf
      rw [hs₂] at h
      cases h
      refine ⟨hopt, ?_⟩
      intro i w hw
      refine ⟨republished s₁.mGlobalWmkInfo w, ?_, ?_⟩
      · rw [hworkers, List.getElem?_map, hw]
        rfl
      · unfold republished
        split <;> exact ⟨rfl, rfl, rfl, rfl⟩
  · have hs : updateGlobalTxWatermarks s rand tryLock = .ok s := by
      unfold updateGlobalTxWatermarks
      unfold passesGate at hgate
      by_cases hgc : s.mStoreOption.mEnableGc = true
      · rw [hgc] at hgate
        have hperf : ((s.mStoreOption.mEnableEagerGc || decide (rand = 0)) && tryLock) =
            false := by
          cases hp : ((s.mStoreOption.mEnableEagerGc || decide (rand = 0)) && tryLock)
          · rfl
          · exfalso
            apply hgate
            rw [Bool.and_assoc, hp]
            rfl
        simp only [hgc, Bool.not_true, Bool.false_eq_true, if_false]
        rw [if_pos (by rw [hperf]; rfl)]
      · simp [hgc]
    rw [hs] at h
    cases h
    exact ⟨rfl, fun i w hw => ⟨w, hw, rfl, rfl, rfl, rfl⟩⟩

/-- What `updateLocalWatermarks` returns when it returns: the state it was called on
with the two local watermarks set to the published ones. -/
theorem updateLocalWatermarks_ok :
    ∀ (fuel : Nat) (cc cc' : ConcurrencyControl), updateLocalWatermarks fuel cc = .ok cc' →
      cc' = { cc with mLocalWmkOfAllTx := cc.mWmkOfAllTx,
                      mLocalWmkOfShortTx := cc.mWmkOfShortTx } := by
  intro fuel
  induction fuel with
  | zero =>
    intro cc cc' h
    simp [updateLocalWatermarks] at h
  | succ fuel ih =>
    intro cc cc' h
    unfold updateLocalWatermarks at h
    dsimp only at h
    by_cases hodd : cc.mWmkVersion &&& 1 ≠ 0
    · rw [if_pos hodd] at h
      exact ih cc cc' h
    · rw [if_neg hodd] at h
      simp only [if_true, Result.ok.injEq] at h
      exact h.symm

/-- C9: with GC and long-running transactions enabled, when the round of
`updateGlobalTxWatermarks` returns `s₁` and the refresh of the local watermarks of worker
`me` returns `cc` with `mCleanedWmkOfShortTx ≤ mLocalWmkOfAllTx < mLocalWmkOfShortTx`,
`GarbageCollection` returns, and what it adds to the calls on the history storage is
exactly `PurgeVersions(0, mLocalWmkOfAllTx)` followed by
`VisitRemovedVersions(mLocalWmkOfAllTx + 1, mLocalWmkOfShortTx)`; it ends with
`mCleanedWmkOfShortTx = mLocalWmkOfShortTx + 1`, the sum being the 64-bit sum of the
source, which is the sum of naturals for every watermark below `2^64 - 1`. Nothing else
changes after the refresh. -/
theorem GarbageCollection_purges_then_migrates (fuel : Nat) (s s₁ : LeanStore)
    (me rand : Nat) (tryLock : Bool) (my : WorkerContext) (cc : ConcurrencyControl)
    (hgc : s.mStoreOption.mEnableGc = true)
    (hlong : s.mStoreOption.mEnableLongRunningTx = true)
    (hglobal : updateGlobalTxWatermarks s rand tryLock = .ok s₁)
    (hmy : s₁.mAllWorkers[me]? = some my)
    (hlocal : updateLocalWatermarks fuel my.mCc = .ok cc)
    (hclean : cc.mCleanedWmkOfShortTx ≤ cc.mLocalWmkOfAllTx)
    (hlt : cc.mLocalWmkOfAllTx < cc.mLocalWmkOfShortTx)
    (hbound : cc.mLocalWmkOfShortTx ≤ TXID_MAX) :
    GarbageCollection fuel s me rand tryLock =
      .ok { s₁ with
        mAllWorkers := s₁.mAllWorkers.set me
          { my with
            mCc := { cc with
              mHistoryStorage := cc.mHistoryStorage ++
                [HistoryCall.PurgeVersions 0 cc.mLocalWmkOfAllTx,
                 HistoryCall.VisitRemovedVersions (cc.mLocalWmkOfAllTx + 1)
                   cc.mLocalWmkOfShortTx],
              mCleanedWmkOfShortTx := add64 cc.mLocalWmkOfShortTx 1 } } } ∧
    (cc.mLocalWmkOfShortTx < TXID_MAX →
      add64 cc.mLocalWmkOfShortTx 1 = cc.mLocalWmkOfShortTx + 1) := by
  have hopt := (updateGlobalTxWatermarks_frame s s₁ rand tryLock hglobal).1
  have hadd : add64 cc.mLocalWmkOfAllTx 1 = cc.mLocalWmkOfAllTx + 1 := by
    unfold add64
    unfold TXID_MAX at hbound
    exact Nat.mod_eq_of_lt (by omega)
  constructor
  · unfold GarbageCollection
    simp only [hgc, Bool.not_true, Bool.false_eq_true, if_false, hglobal, hmy, hlocal]
    have hpurge : purgeStep cc =
        { cc with
          mHistoryStorage := cc.mHistoryStorage ++
            [HistoryCall.PurgeVersions 0 cc.mLocalWmkOfAllTx],
          mCleanedWmkOfShortTx := cc.mLocalWmkOfAllTx + 1 } := by
      unfold purgeStep
      rw [if_pos hclean, hadd]
    rw [hpurge, hopt]
    unfold graveyardStep
    rw [if_pos ⟨hlong, hlt, by show cc.mLocalWmkOfAllTx + 1 ≤ cc.mLocalWmkOfShortTx; omega⟩]
    simp
  · intro hlt'
    unfold add64
    unfold TXID_MAX at hlt'
    exact Nat.mod_eq_of_lt (by omega)

/-- C9, at the example of the claim: published watermarks 49 and 60, nothing cleaned
yet. Versions up to 49 are purged, tombstones in 50..60 are visited, and the cleaned
mark ends at 61. -/
theorem GarbageCollection_purges_then_migrates_witness :
    GarbageCollection 1 scenarioGc 0 1 false =
      .ok { scenarioGc with mAllWorkers := [collectedWorker] } ∧
    (60 < TXID_MAX → add64 60 1 = 60 + 1) :=
  GarbageCollection_purges_then_migrates 1 scenarioGc scenarioGc 0 1 false publishedWorker
    { publishedWorker.mCc with mLocalWmkOfAllTx := 49, mLocalWmkOfShortTx := 60 }
    (by decide) (by decide) (by decide) (by decide) (by decide) (by decide) (by decide)
    (by decide)

theorem purgeStep_cleaned_le (cc : ConcurrencyControl)
    (h : cc.mLocalWmkOfAllTx < TXID_MAX) :
    cc.mCleanedWmkOfShortTx ≤ (purgeStep cc).mCleanedWmkOfShortTx ∧
    (purgeStep cc).mLocalWmkOfAllTx = cc.mLocalWmkOfAllTx ∧
    (purgeStep cc).mLocalWmkOfShortTx = cc.mLocalWmkOfShortTx := by
  unfold purgeStep
  by_cases hc : cc.mCleanedWmkOfShortTx ≤ cc.mLocalWmkOfAllTx
  · rw [if_pos hc]
    refine ⟨?_, rfl, rfl⟩
    show cc.mCleanedWmkOfShortTx ≤ add64 cc.mLocalWmkOfAllTx 1
    unfold add64
    unfold TXID_MAX at h
    rw [Nat.mod_eq_of_lt (by omega)]
    omega
  · rw [if_neg hc]
    exact ⟨le_rfl, rfl, rfl⟩

theorem graveyardStep_cleaned_le (opt : StoreOption) (cc : ConcurrencyControl)
    (h : cc.mLocalWmkOfShortTx < TXID_MAX) :
    cc.mCleanedWmkOfShortTx ≤ (graveyardStep opt cc).mCleanedWmkOfShortTx ∧
    (graveyardStep opt cc).mLocalWmkOfAllTx = cc.mLocalWmkOfAllTx ∧
    (graveyardStep opt cc).mLocalWmkOfShortTx = cc.mLocalWmkOfShortTx := by
  unfold graveyardStep
  split
  · rename_i hc
    refine ⟨?_, rfl, rfl⟩
    show cc.mCleanedWmkOfShortTx ≤ add64 cc.mLocalWmkOfShortTx 1
    unfold add64
    unfold TXID_MAX at h
    rw [Nat.mod_eq_of_lt (by omega)]
    omega
  · exact ⟨le_rfl, rfl, rfl⟩

end ConcurrencyControl

/-! ## Theorems: invariants of the commit log -/

namespace CommitTree

/-- What `CompactCommitLog` returns: the tree itself below capacity, otherwise the
tree refilled from the set built around the latest entry. -/
theorem CompactCommitLog_ok (t t' : CommitTree) (myWorkerId : Nat)
    (allWorkers : List WorkerContext)
    (h : CompactCommitLog t myWorkerId allWorkers = .ok t') :
    (t.mCommitLog.length < t.mCapacity ∧ t' = t) ∨
    (t.mCapacity ≤ t.mCommitLog.length ∧
      ∃ latest, t.mCommitLog.getLast? = some latest ∧
        t' = ⟨compactLoop t myWorkerId allWorkers 0 (setInsert latest []), t.mCapacity⟩) := by
  unfold CompactCommitLog at h
  by_cases hcap : t.mCommitLog.length < t.mCapacity
  · rw [if_pos hcap] at h
    cases h
    exact Or.inl ⟨hcap, rfl⟩
  · rw [if_neg hcap] at h
    cases hlast : t.mCommitLog[t.mCommitLog.length - 1]? with
    | none =>
      rw [hlast] at h
      cases h
    | some latest =>
      rw [hlast] at h
      simp only [Result.ok.injEq] at h
      refine Or.inr ⟨by omega, latest, ?_, h.symm⟩
      rw [List.getLast?_eq_getElem?]
      exact hlast

/-- C11: strictly increasing commitTs is an invariant of a commit log. It holds for
the empty log; `AppendCommitLog(startTs, commitTs)` preserves it whenever `commitTs` is
greater than the last entry's commitTs; and `CompactCommitLog` preserves it whatever
the sibling workers are. -/
theorem strictIncCommit_invariant :
    StrictIncCommit [] ∧
    (∀ (t : CommitTree) (startTs commitTs : Nat), StrictIncCommit t.mCommitLog →
      (∀ e, t.mCommitLog.getLast? = some e → e.1 < commitTs) →
      StrictIncCommit (AppendCommitLog t startTs commitTs).mCommitLog) ∧
    (∀ (t t' : CommitTree) (myWorkerId : Nat) (allWorkers : List WorkerContext),
      StrictIncCommit t.mCommitLog →
      CompactCommitLog t myWorkerId allWorkers = .ok t' →
      StrictIncCommit t'.mCommitLog) := by
  refine ⟨List.Pairwise.nil, ?_, ?_⟩
  · intro t startTs commitTs h hlast
    exact strictInc_append h startTs commitTs hlast
  · intro t t' myWorkerId allWorkers h hok
    rcases CompactCommitLog_ok t t' myWorkerId allWorkers hok with ⟨_, rfl⟩ | ⟨_, latest, hl, rfl⟩
    · exact h
    · have hmem : latest ∈ t.mCommitLog := List.mem_of_getLast?_eq_some hl
      exact strictInc_of_sorted_subset h
        (compactLoop_subset t myWorkerId allWorkers latest hmem)
        (sorted_compactLoop t myWorkerId allWorkers 0 (setInsert latest [])
          (sorted_setInsert latest [] List.Pairwise.nil))

/-- C11, at the fifth scenario: appending a commit at 10 to the log 2, 4, 6, 8 and
compacting that log both leave the commit timestamps strictly increasing. -/
theorem strictIncCommit_invariant_scenario :
    StrictIncCommit (AppendCommitLog treeS5 9 10).mCommitLog ∧
    CompactCommitLog treeS5 0 workersS5 = .ok ⟨[(4, 3), (8, 7)], 4⟩ ∧
    StrictIncCommit [((4 : Nat), (3 : Nat)), (8, 7)] := by
  decide

theorem length_setInsert_le (p : Nat × Nat) (l : List (Nat × Nat)) :
    (setInsert p l).length ≤ l.length + 1 := by
  induction l with
  | nil => simp [setInsert]
  | cons x xs ih =>
    unfold setInsert
    split
    · simp
    · split
      · simp only [List.length_cons]
        omega
      · simp

theorem length_compactLoop_le (t : CommitTree) (myWorkerId : Nat) :
    ∀ (ws : List WorkerContext) (i : Nat) (set : List (Nat × Nat)),
      (compactLoop t myWorkerId ws i set).length ≤
        set.length + ((ws.enumFrom i).filter
          (fun p => decide (p.1 ≠ myWorkerId ∧ p.2.mActiveTxId ≠ 0))).length := by
  intro ws
  induction ws with
  | nil =>
    intro i set
    simp [compactLoop]
  | cons w rest ih =>
    intro i set
    unfold compactLoop
    rw [List.enumFrom_cons, List.filter_cons]
    by_cases h1 : i = myWorkerId
    · rw [if_pos h1]
      have hf : decide ((i, w).1 ≠ myWorkerId ∧ (i, w).2.mActiveTxId ≠ 0) = false := by
        simp [h1]
      rw [hf]
      exact ih (i + 1) set
    · rw [if_neg h1]
      dsimp only
      by_cases h2 : w.mActiveTxId = 0
      · rw [if_pos h2]
        have hf : decide ((i, w).1 ≠ myWorkerId ∧ (i, w).2.mActiveTxId ≠ 0) = false := by
          simp [h2]
        rw [hf]
        exact ih (i + 1) set
      · rw [if_neg h2]
        have hf : decide ((i, w).1 ≠ myWorkerId ∧ (i, w).2.mActiveTxId ≠ 0) = true := by
          simp [h1, h2]
        rw [hf]
        simp only [if_true, List.length_cons]
        cases hl : lcbNoLatch t (w.mActiveTxId &&& kCleanBitsMask) with
        | none =>
          have := ih (i + 1) set
          simp only at this ⊢
          omega
        | some r =>
          have h3 := ih (i + 1) (setInsert r set)
          have h4 := length_setInsert_le r set
          simp only at h3 ⊢
          omega

theorem liveSiblings_lt_length (myWorkerId : Nat) :
    ∀ (ws : List WorkerContext) (i : Nat), i ≤ myWorkerId → myWorkerId < i + ws.length →
      ((ws.enumFrom i).filter
        (fun p => decide (p.1 ≠ myWorkerId ∧ p.2.mActiveTxId ≠ 0))).length + 1 ≤ ws.length := by
  intro ws
  induction ws with
  | nil =>
    intro i h1 h2
    simp only [List.length_nil] at h2
    omega
  | cons w rest ih =>
    intro i h1 h2
    rw [List.enumFrom_cons, List.filter_cons]
    by_cases hi : i = myWorkerId
    · have hf : decide ((i, w).1 ≠ myWorkerId ∧ (i, w).2.mActiveTxId ≠ 0) = false := by
        simp [hi]
      rw [hf]
      have hle := List.length_filter_le
        (fun p : Nat × WorkerContext => decide (p.1 ≠ myWorkerId ∧ p.2.mActiveTxId ≠ 0))
        (rest.enumFrom (i + 1))
      rw [List.enumFrom_length] at hle
      simp only [Bool.false_eq_true, if_false, List.length_cons]
      omega
    · have hrec := ih (i + 1) (by omega) (by simp only [List.length_cons] at h2; omega)
      split
      · simp only [List.length_cons]
        omega
      · simp only [List.length_cons]
        omega

/-- The size of the log `CompactCommitLog` leaves behind when it refills it. -/
theorem CompactCommitLog_length_le (t t' : CommitTree) (myWorkerId : Nat)
    (allWorkers : List WorkerContext)
    (h : CompactCommitLog t myWorkerId allWorkers = .ok t') :
    t'.mCapacity = t.mCapacity ∧
    ((t.mCommitLog.length < t.mCapacity ∧ t'.mCommitLog = t.mCommitLog) ∨
      (t.mCapacity ≤ t.mCommitLog.length ∧
        t'.mCommitLog.length ≤ liveSiblings myWorkerId allWorkers + 1)) := by
  rcases CompactCommitLog_ok t t' myWorkerId allWorkers h with ⟨hlt, rfl⟩ | ⟨hge, latest, _, rfl⟩
  · exact ⟨rfl, Or.inl ⟨hlt, rfl⟩⟩
  · refine ⟨rfl, Or.inr ⟨hge, ?_⟩⟩
    have h1 := length_compactLoop_le t myWorkerId allWorkers 0 (setInsert latest [])
    have h2 := length_setInsert_le latest []
    simp only [List.length_nil] at h2
    unfold liveSiblings
    show (compactLoop t myWorkerId allWorkers 0 (setInsert latest [])).length ≤ _
    omega

/-- Where compaction does make room: when `CompactCommitLog` returns, the size of the
log is strictly below the capacity, and the condition `AppendCommitLog` asserts holds,
provided the capacity is greater than the number of live siblings plus one; this is
so in particular when the capacity is greater than the number of workers, the own
worker being one of them. -/
theorem CompactCommitLog_makes_room (t t' : CommitTree) (myWorkerId : Nat)
    (allWorkers : List WorkerContext)
    (hok : CompactCommitLog t myWorkerId allWorkers = .ok t') :
    (liveSiblings myWorkerId allWorkers + 1 < t.mCapacity →
      t'.mCommitLog.length < t'.mCapacity ∧ AppendCommitLogDcheck t' = true) ∧
    (myWorkerId < allWorkers.length → allWorkers.length < t.mCapacity →
      t'.mCommitLog.length < t'.mCapacity ∧ AppendCommitLogDcheck t' = true) := by
  obtain ⟨hc, hsize⟩ := CompactCommitLog_length_le t t' myWorkerId allWorkers hok
  have key : liveSiblings myWorkerId allWorkers + 1 < t.mCapacity →
      t'.mCommitLog.length < t'.mCapacity ∧ AppendCommitLogDcheck t' = true := by
    intro hroom
    have hlt : t'.mCommitLog.length < t'.mCapacity := by
      rcases hsize with ⟨hlt, heq⟩ | ⟨_, hle⟩
      · rw [heq, hc]
        exact hlt
      · rw [hc]
        omega
    exact ⟨hlt, by unfold AppendCommitLogDcheck; exact decide_eq_true hlt⟩
  refine ⟨key, ?_⟩
  intro hmy hlen
  apply key
  have := liveSiblings_lt_length myWorkerId allWorkers 0 (Nat.zero_le _) (by omega)
  unfold liveSiblings
  omega

/-- The fifth scenario, three workers and capacity 4, is such a case. -/
theorem CompactCommitLog_makes_room_witness :
    (liveSiblings 0 workersS5 + 1 < treeS5.mCapacity →
      [((4 : Nat), (3 : Nat)), (8, 7)].length < 4 ∧
        AppendCommitLogDcheck ⟨[(4, 3), (8, 7)], 4⟩ = true) ∧
    (0 < workersS5.length → workersS5.length < treeS5.mCapacity →
      [((4 : Nat), (3 : Nat)), (8, 7)].length < 4 ∧
        AppendCommitLogDcheck ⟨[(4, 3), (8, 7)], 4⟩ = true) :=
  CompactCommitLog_makes_room treeS5 ⟨[(4, 3), (8, 7)], 4⟩ 0 workersS5 (by decide)

/-- C14, as the claim states it, fails on the fifth scenario: the entry
`(commitTs 2, startTs 1)` has a startTs below the active startTs 5 of the live sibling,
and `CompactCommitLog` removes it; so it does the entry `(6, 5)`. -/
theorem CompactCommitLog_removes_older_entries_counterexample :
    CompactCommitLog treeS5 0 workersS5 = .ok ⟨[(4, 3), (8, 7)], 4⟩ ∧
    workersS5[1]?.map (fun w => w.mActiveTxId) = some 5 ∧
    ((2, 1) ∈ treeS5.mCommitLog ∧ (1 : Nat) ≤ 5 ∧ ((2 : Nat), (1 : Nat)) ∉ [(4, 3), (8, 7)]) ∧
    ((6, 5) ∈ treeS5.mCommitLog ∧ (5 : Nat) ≤ 5 ∧ ((6 : Nat), (5 : Nat)) ∉ [(4, 3), (8, 7)]) := by
  decide

/-- C14, amended: whatever the log and the sibling workers are, the log
`CompactCommitLog` returns holds the most recent entry and, for every other worker
whose `mActiveTxId` is nonzero, the entry `lcbNoLatch` selects for its id with the flag
bits cleared; on a log with strictly increasing commitTs that is, whenever some entry
has a commitTs below the id, the entry with the largest such commitTs. Once the log
has reached its capacity these are the only entries kept: every other entry is
removed. Below the capacity the log is returned as it is. -/
theorem CompactCommitLog_keeps_selected_entries (t t' : CommitTree) (myWorkerId : Nat)
    (allWorkers : List WorkerContext)
    (hok : CompactCommitLog t myWorkerId allWorkers = .ok t') :
    (∀ latest, t.mCommitLog.getLast? = some latest → latest ∈ t'.mCommitLog) ∧
    (∀ (i : Nat) (w : WorkerContext) (e : Nat × Nat), allWorkers[i]? = some w →
      i ≠ myWorkerId → w.mActiveTxId ≠ 0 →
      lcbNoLatch t (w.mActiveTxId &&& kCleanBitsMask) = some e → e ∈ t'.mCommitLog) ∧
    (StrictIncCommit t.mCommitLog →
      ∀ (i : Nat) (w : WorkerContext) (e : Nat × Nat), allWorkers[i]? = some w →
        i ≠ myWorkerId → w.mActiveTxId ≠ 0 →
        e ∈ t.mCommitLog → e.1 < w.mActiveTxId &&& kCleanBitsMask →
        ∃ k ∈ t'.mCommitLog, k ∈ t.mCommitLog ∧ k.1 < w.mActiveTxId &&& kCleanBitsMask ∧
          ∀ e' ∈ t.mCommitLog, e'.1 < w.mActiveTxId &&& kCleanBitsMask → e'.1 ≤ k.1) ∧
    (t.mCapacity ≤ t.mCommitLog.length →
      ∀ x : Nat × Nat, x ∈ t'.mCommitLog →
        t.mCommitLog.getLast? = some x ∨
        ∃ (i : Nat) (w : WorkerContext), allWorkers[i]? = some w ∧ i ≠ myWorkerId ∧
          w.mActiveTxId ≠ 0 ∧ lcbNoLatch t (w.mActiveTxId &&& kCleanBitsMask) = some x) ∧
    (t.mCommitLog.length < t.mCapacity → t'.mCommitLog = t.mCommitLog) := by
  have hkeep : ∀ (i : Nat) (w : WorkerContext) (e : Nat × Nat), allWorkers[i]? = some w →
      i ≠ myWorkerId → w.mActiveTxId ≠ 0 →
      lcbNoLatch t (w.mActiveTxId &&& kCleanBitsMask) = some e → e ∈ t'.mCommitLog := by
    intro i w e hw hi hact hl
    rcases CompactCommitLog_ok t t' myWorkerId allWorkers hok with ⟨_, heq⟩ | ⟨_, latest, _, rfl⟩
    · rw [heq]
      exact lcbNoLatch_mem t _ e hl
    · show e ∈ compactLoop t myWorkerId allWorkers 0 (setInsert latest [])
      rw [mem_compactLoop]
      exact Or.inr ⟨i, w, hw, by omega, hact, hl⟩
  refine ⟨?_, hkeep, ?_, ?_, ?_⟩
  · intro latest hl
    rcases CompactCommitLog_ok t t' myWorkerId allWorkers hok with ⟨_, rfl⟩ | ⟨_, latest', hl', rfl⟩
    · exact List.mem_of_getLast?_eq_some hl
    · rw [hl] at hl'
      cases hl'
      show latest ∈ compactLoop t myWorkerId allWorkers 0 (setInsert latest [])
      rw [mem_compactLoop, mem_setInsert]
      exact Or.inl (Or.inl rfl)
  · intro hinc i w e hw hi hact he hlt
    have hspec := lcbNoLatch_isLcb t (w.mActiveTxId &&& kCleanBitsMask) hinc
    cases hr : lcbNoLatch t (w.mActiveTxId &&& kCleanBitsMask) with
    | none =>
      rw [hr] at hspec
      have := hspec e he
      omega
    | some k =>
      rw [hr] at hspec
      exact ⟨k, hkeep i w k hw hi hact hr, hspec.1, hspec.2.1, hspec.2.2⟩
  · intro hcap x hx
    rcases CompactCommitLog_ok t t' myWorkerId allWorkers hok with ⟨hlt, _⟩ | ⟨_, latest, hl, heq⟩
    · omega
    · rw [heq] at hx
      have hx' : x ∈ compactLoop t myWorkerId allWorkers 0 (setInsert latest []) := hx
      rw [mem_compactLoop, mem_setInsert] at hx'
      rcases hx' with (rfl | hnil) | ⟨j, w, hw, hj, hact, hsel⟩
      · exact Or.inl hl
      · cases hnil
      · exact Or.inr ⟨j, w, hw, by omega, hact, hsel⟩
  · intro hlt
    rcases CompactCommitLog_ok t t' myWorkerId allWorkers hok with ⟨_, heq⟩ | ⟨hcap, _⟩
    · rw [heq]
    · omega

/-- C14, amended, at the fifth scenario, where the log is at its capacity: the latest
entry `(8, 7)` is kept, and the other entry of the returned log, `(4, 3)`, is the
latest entry or the entry selected for a live sibling. -/
theorem CompactCommitLog_keeps_selected_entries_witness :
    (8, 7) ∈ [((4 : Nat), (3 : Nat)), (8, 7)] ∧
    (treeS5.mCommitLog.getLast? = some (4, 3) ∨
      ∃ (i : Nat) (w : WorkerContext), workersS5[i]? = some w ∧ i ≠ 0 ∧
        w.mActiveTxId ≠ 0 ∧
        lcbNoLatch treeS5 (w.mActiveTxId &&& kCleanBitsMask) = some (4, 3)) :=
  ⟨(CompactCommitLog_keeps_selected_entries treeS5 ⟨[(4, 3), (8, 7)], 4⟩ 0 workersS5
      (by decide)).1 (8, 7) (by decide),
   (CompactCommitLog_keeps_selected_entries treeS5 ⟨[(4, 3), (8, 7)], 4⟩ 0 workersS5
      (by decide)).2.2.2.1 (by decide) (4, 3) (by decide)⟩

end CommitTree

/-! ## Theorems: what visibility says about the commit log -/

namespace ConcurrencyControl

/-- A nonzero `Lcb` is the start timestamp of an entry of the log, and on a log with
strictly increasing commitTs that entry has its commitTs below the query. -/
theorem Lcb_ne_zero_entry (t : CommitTree) (q : Nat) (h : t.Lcb q ≠ 0) :
    ∃ e ∈ t.mCommitLog, e.2 = t.Lcb q ∧ (CommitTree.StrictIncCommit t.mCommitLog → e.1 < q) := by
  unfold CommitTree.Lcb at h ⊢
  cases hr : t.lcbNoLatch q with
  | none =>
    rw [hr] at h
    exact absurd rfl h
  | some e =>
    refine ⟨e, CommitTree.lcbNoLatch_mem t q e hr, rfl, ?_⟩
    intro hinc
    have hspec := CommitTree.lcbNoLatch_isLcb t q hinc
    rw [hr] at hspec
    exact hspec.2.1

/-- C15, as the claim states it, fails: in the first scenario the reader, a
snapshot-isolation transaction begun at 12, is told that the version of transaction 5
of worker 0 is visible, and the commit log of worker 0, `[(commitTs 11, startTs 10)]`,
has no entry with `startTs ≤ 5`. It is also told that a version of its own worker is
visible, and its own commit log is empty. -/
theorem VisibleForMe_without_entry_below_counterexample :
    readerS1.mActiveTx.mTxIsolationLevel = .kSnapshotIsolation ∧
    VisibleForMe scenarioS1 1 0 5 =
      .ok (true, withLcbCaches scenarioS1 1 readerS1 [12, 0] [10, 0]) ∧
    (¬ ∃ e ∈ writerS1.mCc.mCommitTree.mCommitLog, e.2 ≤ 5) ∧
    VisibleForMe scenarioS1 1 1 5 = .ok (true, scenarioS1) ∧
    readerS1.mCc.mCommitTree.mCommitLog = [] := by
  decide

/-- C15, amended: for an observer `me` under SnapshotIsolation or Serializable with
start timestamp `s`, another worker `workerId` and a `txId` that is not below the
observer's `mGlobalWmkOfAllTx` and not covered by its cache entry for `workerId` (the
key is not `s` and the value is below `txId`): if `VisibleForMe` returns true, the
commit log of `workerId` holds an entry with `startTs ≥ txId`, and on a log with
strictly increasing commitTs that entry has `commitTs < s`. -/
theorem VisibleForMe_true_has_committed_entry (s s' : LeanStore) (me workerId txId : Nat)
    (my other : WorkerContext)
    (hmy : s.mAllWorkers[me]? = some my) (hother : s.mAllWorkers[workerId]? = some other)
    (hiso : my.mActiveTx.mTxIsolationLevel = .kSnapshotIsolation ∨
      my.mActiveTx.mTxIsolationLevel = .kSerializable)
    (hne : workerId ≠ me) (hwmk : ¬ txId < my.mCc.mGlobalWmkOfAllTx)
    (hkey : my.mCc.mLcbCacheKey[workerId]? ≠ some my.mActiveTx.mStartTs)
    (hval : ∀ v, my.mCc.mLcbCacheVal[workerId]? = some v → v < txId)
    (hvis : VisibleForMe s me workerId txId = .ok (true, s')) :
    ∃ e ∈ other.mCc.mCommitTree.mCommitLog, txId ≤ e.2 ∧
      (CommitTree.StrictIncCommit other.mCc.mCommitTree.mCommitLog →
        e.1 < my.mActiveTx.mStartTs) := by
  have hne' : ¬ me = workerId := fun h => hne h.symm
  have hbranch : VisibleForMe s me workerId txId =
      (match my.mCc.mLcbCacheKey[workerId]?, my.mCc.mLcbCacheVal[workerId]? with
      | some key, some val =>
        if key = my.mActiveTx.mStartTs then Result.ok (decide (val ≥ txId), s)
        else if val ≥ txId then Result.ok (true, s)
        else
          if other.mCc.mCommitTree.Lcb my.mActiveTx.mStartTs ≠ 0 then
            Result.ok (decide (other.mCc.mCommitTree.Lcb my.mActiveTx.mStartTs ≥ txId),
              withLcbCaches s me my
                (my.mCc.mLcbCacheKey.set workerId my.mActiveTx.mStartTs)
                (my.mCc.mLcbCacheVal.set workerId
                  (other.mCc.mCommitTree.Lcb my.mActiveTx.mStartTs)))
          else Result.ok (false, s)
      | _, _ => Result.undef) := by
    unfold VisibleForMe withLcbCaches
    rw [hmy]
    simp only [hne', if_false]
    rcases hiso with hiso | hiso <;>
      simp only [hiso, hwmk, if_false, hother]
  rw [hbranch] at hvis
  cases hk : my.mCc.mLcbCacheKey[workerId]? with
  | none =>
    rw [hk] at hvis
    cases hvis
  | some key =>
    cases hv : my.mCc.mLcbCacheVal[workerId]? with
    | none =>
      rw [hk, hv] at hvis
      cases hvis
    | some val =>
      rw [hk, hv] at hvis
      dsimp only at hvis
      have hk' : ¬ key = my.mActiveTx.mStartTs := by
        intro hc
        apply hkey
        rw [hk, hc]
      have hv' : ¬ val ≥ txId := by
        have := hval val hv
        omega
      rw [if_neg hk', if_neg hv'] at hvis
      by_cases hl : other.mCc.mCommitTree.Lcb my.mActiveTx.mStartTs ≠ 0
      · rw [if_pos hl] at hvis
        simp only [Result.ok.injEq, Prod.mk.injEq, decide_eq_true_eq] at hvis
        obtain ⟨e, he, heq, hlt⟩ := Lcb_ne_zero_entry _ _ hl
        exact ⟨e, he, by omega, hlt⟩
      · rw [if_neg hl] at hvis
        simp at hvis

/-- C15, amended, at the first scenario: the reader begun at 12 finds transaction 10
of worker 0 visible, and the log of worker 0 holds the entry `(11, 10)`. -/
theorem VisibleForMe_true_has_committed_entry_witness :
    ∃ e ∈ writerS1.mCc.mCommitTree.mCommitLog, 10 ≤ e.2 ∧
      (CommitTree.StrictIncCommit writerS1.mCc.mCommitTree.mCommitLog →
        e.1 < readerS1.mActiveTx.mStartTs) :=
  VisibleForMe_true_has_committed_entry scenarioS1
    (withLcbCaches scenarioS1 1 readerS1 [12, 0] [10, 0]) 1 0 10 readerS1 writerS1
    (by decide) (by decide) (by decide) (by decide) (by decide) (by decide)
    (by
      intro v hv
      simp only [readerS1, idleWorker, List.getElem?_cons_zero, Option.some.injEq] at hv
      omega)
    (by decide)

/-- C16: `VisibleForAll(txId)` is true exactly when `txId` is below the global
watermark of all transactions; while that watermark is `0`, no `txId` is visible for
all. -/
theorem VisibleForAll_iff_below_watermark (s : LeanStore) (txId : Nat) :
    (VisibleForAll s txId = true ↔ txId < s.mGlobalWmkInfo.mWmkOfAllTx) ∧
    (s.mGlobalWmkInfo.mWmkOfAllTx = 0 → VisibleForAll s txId = false) := by
  unfold VisibleForAll
  constructor
  · exact decide_eq_true_iff
  · intro h0
    rw [h0]
    exact decide_eq_false (Nat.not_lt_zero txId)

/-- C16, at the initial state of the first scenario, whose global watermark is `0`,
and at the state after the round of the fourth scenario, whose watermark is 48. -/
theorem VisibleForAll_scenarios :
    VisibleForAll scenarioS1 0 = false ∧ VisibleForAll scenarioS4Round 47 = true ∧
      VisibleForAll scenarioS4Round 48 = false := by
  decide

end ConcurrencyControl

/-! ## Theorems: order and monotonicity of the watermarks -/

namespace ConcurrencyControl

/-- Under the log invariants the start timestamp of every entry committed before the
query is at most `Lcb` of the query. -/
theorem le_Lcb_of_mem (t : CommitTree) (q : Nat)
    (h : CommitTree.LogInvariants t.mCommitLog) (a : Nat × Nat) (ha : a ∈ t.mCommitLog)
    (hlt : a.1 < q) : a.2 ≤ t.Lcb q := by
  obtain ⟨hinc, hstart, hcross⟩ := h
  have hspec := CommitTree.lcbNoLatch_isLcb t q hinc
  unfold CommitTree.Lcb
  cases hr : t.lcbNoLatch q with
  | none =>
    rw [hr] at hspec
    have := hspec a ha
    omega
  | some r =>
    rw [hr] at hspec
    have hle := hspec.2.2 a ha hlt
    obtain ⟨i, hi⟩ := List.getElem?_of_mem ha
    obtain ⟨j, hj⟩ := List.getElem?_of_mem hspec.1
    show a.2 ≤ r.2
    rcases Nat.lt_trichotomy i j with hij | hij | hij
    · rw [List.getElem?_eq_some_iff] at hi hj
      obtain ⟨hi', rfl⟩ := hi
      obtain ⟨hj', rfl⟩ := hj
      have h1 := (List.pairwise_iff_getElem.mp hcross) i j hi' hj' hij
      have h3 : (t.mCommitLog[i]).2 < (t.mCommitLog[i]).1 :=
        hstart _ (List.getElem_mem _)
      omega
    · subst hij
      rw [hi] at hj
      cases hj
      exact le_rfl
    · have := CommitTree.strictInc_getElem? hinc hj hi hij
      omega

/-- Under the log invariants `Lcb` is monotone in its query. -/
theorem Lcb_mono (t : CommitTree) (q₁ q₂ : Nat)
    (h : CommitTree.LogInvariants t.mCommitLog) (hq : q₁ ≤ q₂) : t.Lcb q₁ ≤ t.Lcb q₂ := by
  by_cases h0 : t.Lcb q₁ = 0
  · rw [h0]
    exact Nat.zero_le _
  · obtain ⟨e, he, heq, hlt⟩ := Lcb_ne_zero_entry t q₁ h0
    have := le_Lcb_of_mem t q₂ h e he (by have := hlt h.1; omega)
    omega

/-- The scan never ends with an oldest id above the oldest short id. -/
theorem scan_oldest_le_oldestShort (ws : List WorkerContext) :
    (scanActiveTxIds ws ⟨TXID_MAX, TXID_MIN, TXID_MAX⟩).oldestTxId ≤
      (scanActiveTxIds ws ⟨TXID_MAX, TXID_MIN, TXID_MAX⟩).oldestShortTxId := by
  obtain ⟨⟨a1, a2, _⟩, ⟨_, _, b3⟩, _⟩ :=
    scanActiveTxIds_spec ws ⟨TXID_MAX, TXID_MIN, TXID_MAX⟩
  rcases b3 with b3 | b3
  · rw [b3]
    exact a1
  · exact a2 _ (trackedShortIds_subset ws _ b3)

/-- C12: in a round of `updateGlobalTxWatermarks` that passes the gate and returns, a
worker whose commit log satisfies the log invariants and whose watermarks are
recomputed ends with `mWmkOfAllTx ≤ mWmkOfShortTx` when long-running transactions are
enabled, and with the two equal when they are disabled. -/
theorem published_wmkOfAllTx_le_wmkOfShortTx (s s' : LeanStore) (rand : Nat)
    (tryLock : Bool) (i : Nat) (w w' : WorkerContext)
    (hgate : passesGate s rand tryLock = true)
    (hok : updateGlobalTxWatermarks s rand tryLock = .ok s')
    (hw : s.mAllWorkers[i]? = some w) (hw' : s'.mAllWorkers[i]? = some w')
    (hinv : CommitTree.LogInvariants w.mCc.mCommitTree.mCommitLog)
    (hstale : w.mCc.mLatestCommitTs ≠ w.mCc.mUpdatedLatestCommitTs) :
    (s.mStoreOption.mEnableLongRunningTx = true →
      w'.mCc.mWmkOfAllTx ≤ w'.mCc.mWmkOfShortTx) ∧
    (s.mStoreOption.mEnableLongRunningTx = false →
      w'.mCc.mWmkOfAllTx = w'.mCc.mWmkOfShortTx) := by
  obtain ⟨hfatal, hround⟩ := updateGlobalTxWatermarks_round s rand tryLock hgate
  by_cases hf : s.mStoreOption.mEnableLongRunningTx = false ∧
      (scanActiveTxIds s.mAllWorkers ⟨TXID_MAX, TXID_MIN, TXID_MAX⟩).oldestTxId ≠
        (scanActiveTxIds s.mAllWorkers ⟨TXID_MAX, TXID_MIN, TXID_MAX⟩).oldestShortTxId
  · rw [hfatal hf] at hok
    cases hok
  · obtain ⟨s₂, hs₂, _, hall, hshort, _, hworkers⟩ := hround hf
    rw [hs₂] at hok
    cases hok
    rw [hworkers, List.getElem?_map, hw] at hw'
    simp only [Option.map_some', Option.some.injEq] at hw'
    subst hw'
    have hrep : (republished s'.mGlobalWmkInfo w).mCc.mWmkOfAllTx =
          w.mCc.mCommitTree.Lcb s'.mGlobalWmkInfo.mOldestActiveTx ∧
        (republished s'.mGlobalWmkInfo w).mCc.mWmkOfShortTx =
          w.mCc.mCommitTree.Lcb s'.mGlobalWmkInfo.mOldestActiveShortTx := by
      unfold republished
      rw [if_neg (fun h => hstale h.symm)]
      exact ⟨rfl, rfl⟩
    rw [hrep.1, hrep.2, hall, hshort]
    constructor
    · intro _
      exact Lcb_mono _ _ _ hinv (scan_oldest_le_oldestShort s.mAllWorkers)
    · intro hlong
      have heq : (scanActiveTxIds s.mAllWorkers ⟨TXID_MAX, TXID_MIN, TXID_MAX⟩).oldestTxId =
          (scanActiveTxIds s.mAllWorkers ⟨TXID_MAX, TXID_MIN, TXID_MAX⟩).oldestShortTxId := by
        by_contra hne
        exact hf ⟨hlong, hne⟩
      rw [heq]

/-- C12, at the fourth scenario: long-running transactions are enabled and worker 0
ends with the watermarks 48 and 59. -/
theorem published_wmkOfAllTx_le_wmkOfShortTx_witness :
    (scenarioS4.mStoreOption.mEnableLongRunningTx = true → (48 : Nat) ≤ 59) ∧
    (scenarioS4.mStoreOption.mEnableLongRunningTx = false → (48 : Nat) = 59) :=
  published_wmkOfAllTx_le_wmkOfShortTx scenarioS4 scenarioS4Round 0 true 0 writerS4
    { writerS4 with
      mCc := { writerS4.mCc with
        mWmkVersion := 2, mWmkOfAllTx := 48, mWmkOfShortTx := 59,
        mUpdatedLatestCommitTs := 60 } }
    (by decide) (by decide) (by decide) (by decide) (by decide) (by decide)

theorem updateWmkLoop_minima (g : GlobalWmkInfo) :
    ∀ (ws : List WorkerContext) (a b : Nat),
      (updateWmkLoop g ws a b).globalWmkOfAllTx =
          (wmkMinima (ws.map (republished g)) a b).1 ∧
      (updateWmkLoop g ws a b).globalWmkOfShortTx =
          (wmkMinima (ws.map (republished g)) a b).2 := by
  intro ws
  induction ws with
  | nil =>
    intro a b
    exact ⟨rfl, rfl⟩
  | cons w rest ih =>
    intro a b
    unfold updateWmkLoop
    rw [List.map_cons]
    unfold wmkMinima
    by_cases h : w.mCc.mUpdatedLatestCommitTs = w.mCc.mLatestCommitTs
    · have hrep : republished g w = w := by
        unfold republished
        rw [if_pos h]
      rw [hrep]
      simp only [h, if_true]
      split
      · exact ih _ _
      · exact ih _ _
    · have hrep : (republished g w).mCc.mWmkOfAllTx = w.mCc.mCommitTree.Lcb g.mOldestActiveTx ∧
          (republished g w).mCc.mWmkOfShortTx =
            w.mCc.mCommitTree.Lcb g.mOldestActiveShortTx := by
        unfold republished
        rw [if_neg h]
        exact ⟨rfl, rfl⟩
      rw [hrep.1, hrep.2]
      simp only [h, if_false]
      split
      · exact ih _ _
      · exact ih _ _

theorem wmkMinima_spec :
    ∀ (ws : List WorkerContext) (a b : Nat),
      ((wmkMinima ws a b).1 ≤ a ∧
        (∀ w ∈ ws, (w.mCc.mWmkOfAllTx > 0 ∨ w.mCc.mWmkOfShortTx > 0) →
          (wmkMinima ws a b).1 ≤ w.mCc.mWmkOfAllTx) ∧
        ((wmkMinima ws a b).1 = a ∨
          ∃ w ∈ ws, (w.mCc.mWmkOfAllTx > 0 ∨ w.mCc.mWmkOfShortTx > 0) ∧
            (wmkMinima ws a b).1 = w.mCc.mWmkOfAllTx)) ∧
      ((wmkMinima ws a b).2 ≤ b ∧
        (∀ w ∈ ws, (w.mCc.mWmkOfAllTx > 0 ∨ w.mCc.mWmkOfShortTx > 0) →
          (wmkMinima ws a b).2 ≤ w.mCc.mWmkOfShortTx) ∧
        ((wmkMinima ws a b).2 = b ∨
          ∃ w ∈ ws, (w.mCc.mWmkOfAllTx > 0 ∨ w.mCc.mWmkOfShortTx > 0) ∧
            (wmkMinima ws a b).2 = w.mCc.mWmkOfShortTx)) := by
  intro ws
  induction ws with
  | nil =>
    intro a b
    simp [wmkMinima]
  | cons w rest ih =>
    intro a b
    unfold wmkMinima
    by_cases hc : w.mCc.mWmkOfAllTx > 0 ∨ w.mCc.mWmkOfShortTx > 0
    · rw [if_pos hc]
      obtain ⟨⟨a1, a2, a3⟩, ⟨b1, b2, b3⟩⟩ :=
        ih (min w.mCc.mWmkOfAllTx a) (min w.mCc.mWmkOfShortTx b)
      have hA := le_trans a1 (Nat.min_le_right _ _)
      have hA' := le_trans a1 (Nat.min_le_left _ _)
      have hB := le_trans b1 (Nat.min_le_right _ _)
      have hB' := le_trans b1 (Nat.min_le_left _ _)
      refine ⟨⟨hA, ?_, ?_⟩, ⟨hB, ?_, ?_⟩⟩
      · intro x hx hxc
        rcases List.mem_cons.mp hx with heq | hx
        · rw [heq]
          exact hA'
        · exact a2 x hx hxc
      · rcases a3 with a3 | ⟨x, hx, hxc, a3⟩
        · rcases Nat.le_total w.mCc.mWmkOfAllTx a with hle | hle
          · right
            exact ⟨w, List.mem_cons_self _ _, hc, by rw [a3, Nat.min_eq_left hle]⟩
          · left
            rw [a3, Nat.min_eq_right hle]
        · exact Or.inr ⟨x, List.mem_cons_of_mem _ hx, hxc, a3⟩
      · intro x hx hxc
        rcases List.mem_cons.mp hx with heq | hx
        · rw [heq]
          exact hB'
        · exact b2 x hx hxc
      · rcases b3 with b3 | ⟨x, hx, hxc, b3⟩
        · rcases Nat.le_total w.mCc.mWmkOfShortTx b with hle | hle
          · right
            exact ⟨w, List.mem_cons_self _ _, hc, by rw [b3, Nat.min_eq_left hle]⟩
          · left
            rw [b3, Nat.min_eq_right hle]
        · exact Or.inr ⟨x, List.mem_cons_of_mem _ hx, hxc, b3⟩
    · rw [if_neg hc]
      obtain ⟨⟨a1, a2, a3⟩, ⟨b1, b2, b3⟩⟩ := ih a b
      refine ⟨⟨a1, ?_, ?_⟩, ⟨b1, ?_, ?_⟩⟩
      · intro x hx hxc
        rcases List.mem_cons.mp hx with rfl | hx
        · exact absurd hxc hc
        · exact a2 x hx hxc
      · rcases a3 with a3 | ⟨x, hx, hxc, a3⟩
        · exact Or.inl a3
        · exact Or.inr ⟨x, List.mem_cons_of_mem _ hx, hxc, a3⟩
      · intro x hx hxc
        rcases List.mem_cons.mp hx with rfl | hx
        · exact absurd hxc hc
        · exact b2 x hx hxc
      · rcases b3 with b3 | ⟨x, hx, hxc, b3⟩
        · exact Or.inl b3
        · exact Or.inr ⟨x, List.mem_cons_of_mem _ hx, hxc, b3⟩

/-- A round of `updateGlobalTxWatermarks` that passes the gate, written out: the fatal
check, then the three ways the round can end, with the workers republished and the
minima read off their watermarks. -/
theorem updateGlobalTxWatermarks_passed (s : LeanStore) (rand : Nat) (tryLock : Bool)
    (hgate : passesGate s rand tryLock = true) :
    updateGlobalTxWatermarks s rand tryLock =
      (if s.mStoreOption.mEnableLongRunningTx = false ∧
          (roundInfo s).mOldestActiveTx ≠ (roundInfo s).mOldestActiveShortTx
        then Result.fatal
      else if s.mGlobalWmkInfo.mWmkOfAllTx = (roundMinima s).1 ∧
          s.mGlobalWmkInfo.mWmkOfShortTx = (roundMinima s).2
        then Result.ok { s with mGlobalWmkInfo := roundInfo s, mAllWorkers := roundWorkers s }
      else if (roundMinima s).1 = TXID_MAX ∨ (roundMinima s).2 = TXID_MAX
        then Result.ok { s with mGlobalWmkInfo := roundInfo s, mAllWorkers := roundWorkers s }
      else Result.ok
        { s with
          mGlobalWmkInfo := (roundInfo s).UpdateWmks (roundMinima s).1 (roundMinima s).2,
          mAllWorkers := roundWorkers s }) := by
  simp only [passesGate, Bool.and_eq_true] at hgate
  obtain ⟨⟨hgc, hmeet⟩, hlock⟩ := hgate
  unfold updateGlobalTxWatermarks
  simp only [hgc, hmeet, hlock, Bool.not_true, Bool.and_self, Bool.false_eq_true, if_false,
    Bool.not_eq_true', updateWmkLoop_workers, updateWmkLoop_minima]
  rfl

/-- A round that does not pass the gate returns the state it was called on. -/
theorem updateGlobalTxWatermarks_not_passed (s : LeanStore) (rand : Nat) (tryLock : Bool)
    (hgate : ¬ passesGate s rand tryLock = true) :
    updateGlobalTxWatermarks s rand tryLock = .ok s := by
  unfold updateGlobalTxWatermarks
  unfold passesGate at hgate
  by_cases hgc : s.mStoreOption.mEnableGc = true
  · rw [hgc] at hgate
    have hperf : ((s.mStoreOption.mEnableEagerGc || decide (rand = 0)) && tryLock) =
        false := by
      cases hp : ((s.mStoreOption.mEnableEagerGc || decide (rand = 0)) && tryLock)
      · rfl
      · exfalso
        apply hgate
        rw [Bool.and_assoc, hp]
        rfl
    simp only [hgc, Bool.not_true, Bool.false_eq_true, if_false]
    rw [if_pos (by rw [hperf]; rfl)]
  · simp [hgc]

/-- How a round that passes the gate and returns ends: the workers are the
republished ones, and the global info either keeps its watermarks, which then are the
minima unless a minimum is still the sentinel, or takes the minima as its new
watermarks, which then differ from the old ones and are no sentinels. -/
theorem updateGlobalTxWatermarks_ok_cases (s s' : LeanStore) (rand : Nat) (tryLock : Bool)
    (hgate : passesGate s rand tryLock = true)
    (hok : updateGlobalTxWatermarks s rand tryLock = .ok s') :
    ¬ (s.mStoreOption.mEnableLongRunningTx = false ∧
        (roundInfo s).mOldestActiveTx ≠ (roundInfo s).mOldestActiveShortTx) ∧
    s'.mStoreOption = s.mStoreOption ∧
    s'.mAllWorkers = roundWorkers s ∧
    ((s'.mGlobalWmkInfo = roundInfo s ∧
        ((s.mGlobalWmkInfo.mWmkOfAllTx = (roundMinima s).1 ∧
            s.mGlobalWmkInfo.mWmkOfShortTx = (roundMinima s).2) ∨
          (roundMinima s).1 = TXID_MAX ∨ (roundMinima s).2 = TXID_MAX)) ∨
      (s'.mGlobalWmkInfo = (roundInfo s).UpdateWmks (roundMinima s).1 (roundMinima s).2 ∧
        ¬ (s.mGlobalWmkInfo.mWmkOfAllTx = (roundMinima s).1 ∧
            s.mGlobalWmkInfo.mWmkOfShortTx = (roundMinima s).2) ∧
        (roundMinima s).1 ≠ TXID_MAX ∧ (roundMinima s).2 ≠ TXID_MAX)) := by
  rw [updateGlobalTxWatermarks_passed s rand tryLock hgate] at hok
  by_cases hf : s.mStoreOption.mEnableLongRunningTx = false ∧
      (roundInfo s).mOldestActiveTx ≠ (roundInfo s).mOldestActiveShortTx
  · rw [if_pos hf] at hok
    cases hok
  · rw [if_neg hf] at hok
    refine ⟨hf, ?_⟩
    by_cases hsame : s.mGlobalWmkInfo.mWmkOfAllTx = (roundMinima s).1 ∧
        s.mGlobalWmkInfo.mWmkOfShortTx = (roundMinima s).2
    · rw [if_pos hsame] at hok
      cases hok
      exact ⟨rfl, rfl, Or.inl ⟨rfl, Or.inl hsame⟩⟩
    · rw [if_neg hsame] at hok
      by_cases hmax : (roundMinima s).1 = TXID_MAX ∨ (roundMinima s).2 = TXID_MAX
      · rw [if_pos hmax] at hok
        cases hok
        exact ⟨rfl, rfl, Or.inl ⟨rfl, Or.inr hmax⟩⟩
      · rw [if_neg hmax] at hok
        cases hok
        exact ⟨rfl, rfl, Or.inr ⟨rfl, hsame, fun h => hmax (Or.inl h),
          fun h => hmax (Or.inr h)⟩⟩

/-- C13, as the claim states it, fails on the fourth scenario: the round publishes
the global watermarks 48 and 59, and worker 1, which has committed nothing, holds the
watermarks 0 and 0. -/
theorem global_wmks_above_idle_worker_counterexample :
    passesGate scenarioS4 0 true = true ∧
    updateGlobalTxWatermarks scenarioS4 0 true = .ok scenarioS4Round ∧
    scenarioS4.mGlobalWmkInfo.mWmkOfAllTx = 0 ∧
    scenarioS4Round.mGlobalWmkInfo.mWmkOfAllTx = 48 ∧
    scenarioS4Round.mGlobalWmkInfo.mWmkOfShortTx = 59 ∧
    readerS4 ∈ scenarioS4Round.mAllWorkers ∧
    ¬ scenarioS4Round.mGlobalWmkInfo.mWmkOfAllTx ≤ readerS4.mCc.mWmkOfAllTx ∧
    ¬ scenarioS4Round.mGlobalWmkInfo.mWmkOfShortTx ≤ readerS4.mCc.mWmkOfShortTx := by
  decide

/-- C13, amended: when a round of `updateGlobalTxWatermarks` publishes new global
watermarks, each of them is at most the corresponding watermark of every worker
whose two watermarks are not both zero, and each is the watermark of such a worker:
the global watermarks are the element-wise minimum over the workers that have a
nonzero watermark. -/
theorem global_wmks_minimum_of_counted_workers (s s' : LeanStore) (rand : Nat)
    (tryLock : Bool) (hgate : passesGate s rand tryLock = true)
    (hok : updateGlobalTxWatermarks s rand tryLock = .ok s')
    (hnew : s'.mGlobalWmkInfo.mWmkOfAllTx ≠ s.mGlobalWmkInfo.mWmkOfAllTx ∨
      s'.mGlobalWmkInfo.mWmkOfShortTx ≠ s.mGlobalWmkInfo.mWmkOfShortTx) :
    (∀ w' ∈ s'.mAllWorkers, (w'.mCc.mWmkOfAllTx > 0 ∨ w'.mCc.mWmkOfShortTx > 0) →
      s'.mGlobalWmkInfo.mWmkOfAllTx ≤ w'.mCc.mWmkOfAllTx ∧
      s'.mGlobalWmkInfo.mWmkOfShortTx ≤ w'.mCc.mWmkOfShortTx) ∧
    (∃ w' ∈ s'.mAllWorkers, (w'.mCc.mWmkOfAllTx > 0 ∨ w'.mCc.mWmkOfShortTx > 0) ∧
      s'.mGlobalWmkInfo.mWmkOfAllTx = w'.mCc.mWmkOfAllTx) ∧
    (∃ w' ∈ s'.mAllWorkers, (w'.mCc.mWmkOfAllTx > 0 ∨ w'.mCc.mWmkOfShortTx > 0) ∧
      s'.mGlobalWmkInfo.mWmkOfShortTx = w'.mCc.mWmkOfShortTx) := by
  obtain ⟨_, _, hworkers, hcases⟩ := updateGlobalTxWatermarks_ok_cases s s' rand tryLock hgate hok
  rcases hcases with ⟨hg, _⟩ | ⟨hg, _, hmax1, hmax2⟩
  · exfalso
    rw [hg] at hnew
    rcases hnew with h | h <;> exact h rfl
  · obtain ⟨⟨_, a2, a3⟩, ⟨_, b2, b3⟩⟩ := wmkMinima_spec (roundWorkers s) TXID_MAX TXID_MAX
    have hall : s'.mGlobalWmkInfo.mWmkOfAllTx = (roundMinima s).1 := by rw [hg]; rfl
    have hshort : s'.mGlobalWmkInfo.mWmkOfShortTx = (roundMinima s).2 := by rw [hg]; rfl
    rw [hall, hshort, hworkers]
    refine ⟨fun w' hw' hc => ⟨a2 w' hw' hc, b2 w' hw' hc⟩, ?_, ?_⟩
    · rcases a3 with a3 | a3
      · exact absurd a3 hmax1
      · exact a3
    · rcases b3 with b3 | b3
      · exact absurd b3 hmax2
      · exact b3

/-- C13, amended, at the fourth scenario: the global watermarks 48 and 59 are the
watermarks of worker 0, the only worker with a nonzero watermark. -/
theorem global_wmks_minimum_of_counted_workers_witness :
    ∃ w' ∈ scenarioS4Round.mAllWorkers,
      (w'.mCc.mWmkOfAllTx > 0 ∨ w'.mCc.mWmkOfShortTx > 0) ∧
        scenarioS4Round.mGlobalWmkInfo.mWmkOfAllTx = w'.mCc.mWmkOfAllTx :=
  (global_wmks_minimum_of_counted_workers scenarioS4 scenarioS4Round 0 true (by decide)
    (by decide) (by decide)).2.1

theorem republished_upToDate (g : GlobalWmkInfo) (w : WorkerContext) :
    (republished g w).mCc.mUpdatedLatestCommitTs = (republished g w).mCc.mLatestCommitTs ∧
    (republished g w).mActiveTxId = w.mActiveTxId := by
  unfold republished
  split
  · rename_i h
    exact ⟨h, rfl⟩
  · exact ⟨rfl, rfl⟩

theorem map_republished_of_upToDate (g : GlobalWmkInfo) (ws : List WorkerContext)
    (h : ∀ w ∈ ws, w.mCc.mUpdatedLatestCommitTs = w.mCc.mLatestCommitTs) :
    ws.map (republished g) = ws := by
  induction ws with
  | nil => rfl
  | cons w rest ih =>
    rw [List.map_cons, ih (fun x hx => h x (List.mem_cons_of_mem _ hx))]
    unfold republished
    rw [if_pos (h w (List.mem_cons_self _ _))]

theorem scanActiveTxIds_republished (g : GlobalWmkInfo) :
    ∀ (ws : List WorkerContext) (acc : ActiveTxScan),
      scanActiveTxIds (ws.map (republished g)) acc = scanActiveTxIds ws acc := by
  intro ws
  induction ws with
  | nil =>
    intro acc
    rfl
  | cons w rest ih =>
    intro acc
    rw [List.map_cons]
    unfold scanActiveTxIds
    rw [(republished_upToDate g w).2]
    simp only [ih]

theorem wmkMinima_congr :
    ∀ (ws ws' : List WorkerContext) (a b : Nat),
      ws.map (fun w => w.mCc) = ws'.map (fun w => w.mCc) →
      wmkMinima ws a b = wmkMinima ws' a b := by
  intro ws
  induction ws with
  | nil =>
    intro ws' a b h
    cases ws' with
    | nil => rfl
    | cons w' rest' => cases h
  | cons w rest ih =>
    intro ws' a b h
    cases ws' with
    | nil => cases h
    | cons w' rest' =>
      simp only [List.map_cons, List.cons.injEq] at h
      unfold wmkMinima
      rw [h.1]
      split
      · exact ih rest' _ _ h.2
      · exact ih rest' _ _ h.2

theorem updateActiveTxInfo_self (g : GlobalWmkInfo) :
    g.UpdateActiveTxInfo g.mOldestActiveTx g.mOldestActiveShortTx g.mNewestActiveLongTx = g := by
  cases g
  rfl

/-- A round on a state in which every worker is up to date and the global watermarks
are already the minima over the workers (or a minimum is the sentinel) changes no
worker and no global watermark. -/
theorem updateGlobalTxWatermarks_settled (s s' : LeanStore) (rand : Nat) (tryLock : Bool)
    (hup : ∀ w ∈ s.mAllWorkers, w.mCc.mUpdatedLatestCommitTs = w.mCc.mLatestCommitTs)
    (hmin : (s.mGlobalWmkInfo.mWmkOfAllTx = (wmkMinima s.mAllWorkers TXID_MAX TXID_MAX).1 ∧
        s.mGlobalWmkInfo.mWmkOfShortTx = (wmkMinima s.mAllWorkers TXID_MAX TXID_MAX).2) ∨
      (wmkMinima s.mAllWorkers TXID_MAX TXID_MAX).1 = TXID_MAX ∨
      (wmkMinima s.mAllWorkers TXID_MAX TXID_MAX).2 = TXID_MAX)
    (hok : updateGlobalTxWatermarks s rand tryLock = .ok s') :
    s'.mAllWorkers = s.mAllWorkers ∧
    s'.mGlobalWmkInfo.mWmkOfAllTx = s.mGlobalWmkInfo.mWmkOfAllTx ∧
    s'.mGlobalWmkInfo.mWmkOfShortTx = s.mGlobalWmkInfo.mWmkOfShortTx := by
  by_cases hgate : passesGate s rand tryLock = true
  · obtain ⟨_, _, hworkers, hcases⟩ :=
      updateGlobalTxWatermarks_ok_cases s s' rand tryLock hgate hok
    have hrw : roundWorkers s = s.mAllWorkers :=
      map_republished_of_upToDate (roundInfo s) s.mAllWorkers hup
    have hrm : roundMinima s = wmkMinima s.mAllWorkers TXID_MAX TXID_MAX := by
      unfold roundMinima
      rw [hrw]
    refine ⟨by rw [hworkers, hrw], ?_⟩
    rcases hcases with ⟨hg, _⟩ | ⟨hg, hdiff, hmax1, hmax2⟩
    · rw [hg]
      exact ⟨rfl, rfl⟩
    · exfalso
      rw [hrm] at hdiff hmax1 hmax2
      rcases hmin with h | h | h
      · exact hdiff h
      · exact hmax1 h
      · exact hmax2 h
  · rw [updateGlobalTxWatermarks_not_passed s rand tryLock hgate] at hok
    cases hok
    exact ⟨rfl, rfl, rfl⟩

/-- After a round that passes the gate and returns, every worker is up to date and
the global watermarks are the minima over the workers, unless a minimum is the
sentinel. -/
theorem updateGlobalTxWatermarks_settles (s s₁ : LeanStore) (rand : Nat) (tryLock : Bool)
    (hgate : passesGate s rand tryLock = true)
    (hok : updateGlobalTxWatermarks s rand tryLock = .ok s₁) :
    (∀ w ∈ s₁.mAllWorkers, w.mCc.mUpdatedLatestCommitTs = w.mCc.mLatestCommitTs) ∧
    ((s₁.mGlobalWmkInfo.mWmkOfAllTx = (wmkMinima s₁.mAllWorkers TXID_MAX TXID_MAX).1 ∧
        s₁.mGlobalWmkInfo.mWmkOfShortTx = (wmkMinima s₁.mAllWorkers TXID_MAX TXID_MAX).2) ∨
      (wmkMinima s₁.mAllWorkers TXID_MAX TXID_MAX).1 = TXID_MAX ∨
      (wmkMinima s₁.mAllWorkers TXID_MAX TXID_MAX).2 = TXID_MAX) := by
  obtain ⟨_, _, hworkers, hcases⟩ :=
    updateGlobalTxWatermarks_ok_cases s s₁ rand tryLock hgate hok
  constructor
  · intro w hw
    rw [hworkers] at hw
    unfold roundWorkers at hw
    rw [List.mem_map] at hw
    obtain ⟨w₀, _, rfl⟩ := hw
    exact (republished_upToDate (roundInfo s) w₀).1
  · rw [hworkers]
    show (_ = (roundMinima s).1 ∧ _ = (roundMinima s).2) ∨ (roundMinima s).1 = TXID_MAX ∨
      (roundMinima s).2 = TXID_MAX
    rcases hcases with ⟨hg, hmin⟩ | ⟨hg, _, _, _⟩
    · rw [hg]
      exact hmin
    · rw [hg]
      exact Or.inl ⟨rfl, rfl⟩

/-- C19: a round of `updateGlobalTxWatermarks` that directly follows a round that
passed the gate and returned is a no-op: whatever its draw and its `try_lock`, it
returns the state it was called on. The same holds for the watermarks when, between
the two rounds, transactions began or ended without a commit: from any state with the
same per-worker `ConcurrencyControl` states and the same global watermarks, the second
round leaves every worker, hence every `mWmkOfAllTx`, `mWmkOfShortTx` and
`mWmkVersion`, and both global watermarks as they were. -/
theorem updateGlobalTxWatermarks_idempotent (s s₁ : LeanStore) (rand : Nat)
    (tryLock : Bool) (hgate : passesGate s rand tryLock = true)
    (hok : updateGlobalTxWatermarks s rand tryLock = .ok s₁) :
    (∀ (rand' : Nat) (tryLock' : Bool),
      updateGlobalTxWatermarks s₁ rand' tryLock' = .ok s₁) ∧
    (∀ (s₁' s₂ : LeanStore) (rand' : Nat) (tryLock' : Bool),
      s₁'.mAllWorkers.map (fun w => w.mCc) = s₁.mAllWorkers.map (fun w => w.mCc) →
      s₁'.mGlobalWmkInfo.mWmkOfAllTx = s₁.mGlobalWmkInfo.mWmkOfAllTx →
      s₁'.mGlobalWmkInfo.mWmkOfShortTx = s₁.mGlobalWmkInfo.mWmkOfShortTx →
      updateGlobalTxWatermarks s₁' rand' tryLock' = .ok s₂ →
      s₂.mAllWorkers = s₁'.mAllWorkers ∧
      s₂.mGlobalWmkInfo.mWmkOfAllTx = s₁'.mGlobalWmkInfo.mWmkOfAllTx ∧
      s₂.mGlobalWmkInfo.mWmkOfShortTx = s₁'.mGlobalWmkInfo.mWmkOfShortTx) := by
  obtain ⟨hup, hmin⟩ := updateGlobalTxWatermarks_settles s s₁ rand tryLock hgate hok
  obtain ⟨hnf, hopt, hworkers, hcases⟩ :=
    updateGlobalTxWatermarks_ok_cases s s₁ rand tryLock hgate hok
  constructor
  · intro rand' tryLock'
    by_cases hgate' : passesGate s₁ rand' tryLock' = true
    · have hrw : roundWorkers s₁ = s₁.mAllWorkers :=
        map_republished_of_upToDate (roundInfo s₁) s₁.mAllWorkers hup
      have hscan : scanActiveTxIds s₁.mAllWorkers ⟨TXID_MAX, TXID_MIN, TXID_MAX⟩ =
          scanActiveTxIds s.mAllWorkers ⟨TXID_MAX, TXID_MIN, TXID_MAX⟩ := by
        rw [hworkers]
        exact scanActiveTxIds_republished (roundInfo s) s.mAllWorkers _
      have hids : s₁.mGlobalWmkInfo.mOldestActiveTx = (roundInfo s).mOldestActiveTx ∧
          s₁.mGlobalWmkInfo.mOldestActiveShortTx = (roundInfo s).mOldestActiveShortTx ∧
          s₁.mGlobalWmkInfo.mNewestActiveLongTx = (roundInfo s).mNewestActiveLongTx := by
        rcases hcases with ⟨hg, _⟩ | ⟨hg, _, _, _⟩ <;> rw [hg] <;> exact ⟨rfl, rfl, rfl⟩
      have hinfo : roundInfo s₁ = s₁.mGlobalWmkInfo := by
        have h := updateActiveTxInfo_self s₁.mGlobalWmkInfo
        rw [hids.1, hids.2.1, hids.2.2] at h
        unfold roundInfo
        rw [hscan]
        exact h
      have hrm : roundMinima s₁ = wmkMinima s₁.mAllWorkers TXID_MAX TXID_MAX := by
        unfold roundMinima
        rw [hrw]
      rw [updateGlobalTxWatermarks_passed s₁ rand' tryLock' hgate', hinfo, hrw, hrm]
      have hnf' : ¬ (s₁.mStoreOption.mEnableLongRunningTx = false ∧
          s₁.mGlobalWmkInfo.mOldestActiveTx ≠ s₁.mGlobalWmkInfo.mOldestActiveShortTx) := by
        rw [hopt, hids.1, hids.2.1]
        exact hnf
      rw [if_neg hnf']
      rcases hmin with h | h
      · rw [if_pos h]
      · by_cases hsame : s₁.mGlobalWmkInfo.mWmkOfAllTx =
            (wmkMinima s₁.mAllWorkers TXID_MAX TXID_MAX).1 ∧
            s₁.mGlobalWmkInfo.mWmkOfShortTx = (wmkMinima s₁.mAllWorkers TXID_MAX TXID_MAX).2
        · rw [if_pos hsame]
        · rw [if_neg hsame, if_pos h]
    · exact updateGlobalTxWatermarks_not_passed s₁ rand' tryLock' hgate'
  · intro s₁' s₂ rand' tryLock' hcc hall hshort hok'
    have hup' : ∀ w ∈ s₁'.mAllWorkers,
        w.mCc.mUpdatedLatestCommitTs = w.mCc.mLatestCommitTs := by
      intro w hw
      have hmem : w.mCc ∈ s₁'.mAllWorkers.map (fun w => w.mCc) :=
        List.mem_map.mpr ⟨w, hw, rfl⟩
      rw [hcc, List.mem_map] at hmem
      obtain ⟨w₀, hw₀, heq⟩ := hmem
      rw [← heq]
      exact hup w₀ hw₀
    have hmm := wmkMinima_congr s₁'.mAllWorkers s₁.mAllWorkers TXID_MAX TXID_MAX hcc
    apply updateGlobalTxWatermarks_settled s₁' s₂ rand' tryLock' hup' _ hok'
    rw [hmm, hall, hshort]
    exact hmin

/-- C19, at the fourth scenario: the state after the first round is returned
unchanged by a second round. -/
theorem updateGlobalTxWatermarks_idempotent_witness :
    updateGlobalTxWatermarks scenarioS4Round 0 true = .ok scenarioS4Round :=
  (updateGlobalTxWatermarks_idempotent scenarioS4 scenarioS4Round 0 true (by decide)
    (by decide)).1 0 true

/-- A round taken alone: in a round of `updateGlobalTxWatermarks` that passes the
gate and returns, a worker whose commit log satisfies the log invariants does not end
with a smaller `mWmkOfAllTx` or `mWmkOfShortTx`, provided each of the two was `0` or
the start timestamp of an entry of its log committed before the oldest active id (for
`mWmkOfShortTx`, the oldest active short id) that the round publishes. -/
theorem round_keeps_committed_wmks (s s' : LeanStore) (rand : Nat) (tryLock : Bool)
    (i : Nat) (w w' : WorkerContext)
    (hgate : passesGate s rand tryLock = true)
    (hok : updateGlobalTxWatermarks s rand tryLock = .ok s')
    (hw : s.mAllWorkers[i]? = some w) (hw' : s'.mAllWorkers[i]? = some w')
    (hinv : CommitTree.LogInvariants w.mCc.mCommitTree.mCommitLog)
    (hall : w.mCc.mWmkOfAllTx = 0 ∨ ∃ e ∈ w.mCc.mCommitTree.mCommitLog,
      e.2 = w.mCc.mWmkOfAllTx ∧ e.1 < s'.mGlobalWmkInfo.mOldestActiveTx)
    (hshort : w.mCc.mWmkOfShortTx = 0 ∨ ∃ e ∈ w.mCc.mCommitTree.mCommitLog,
      e.2 = w.mCc.mWmkOfShortTx ∧ e.1 < s'.mGlobalWmkInfo.mOldestActiveShortTx) :
    w.mCc.mWmkOfAllTx ≤ w'.mCc.mWmkOfAllTx ∧ w.mCc.mWmkOfShortTx ≤ w'.mCc.mWmkOfShortTx := by
  obtain ⟨hfatal, hround⟩ := updateGlobalTxWatermarks_round s rand tryLock hgate
  by_cases hf : s.mStoreOption.mEnableLongRunningTx = false ∧
      (scanActiveTxIds s.mAllWorkers ⟨TXID_MAX, TXID_MIN, TXID_MAX⟩).oldestTxId ≠
        (scanActiveTxIds s.mAllWorkers ⟨TXID_MAX, TXID_MIN, TXID_MAX⟩).oldestShortTxId
  · rw [hfatal hf] at hok
    cases hok
  · obtain ⟨s₂, hs₂, _, _, _, _, hworkers⟩ := hround hf
    rw [hs₂] at hok
    cases hok
    rw [hworkers, List.getElem?_map, hw] at hw'
    simp only [Option.map_some', Option.some.injEq] at hw'
    subst hw'
    unfold republished
    by_cases hup : w.mCc.mUpdatedLatestCommitTs = w.mCc.mLatestCommitTs
    · rw [if_pos hup]
      exact ⟨le_rfl, le_rfl⟩
    · rw [if_neg hup]
      constructor
      · show w.mCc.mWmkOfAllTx ≤ w.mCc.mCommitTree.Lcb s'.mGlobalWmkInfo.mOldestActiveTx
        rcases hall with h0 | ⟨e, he, heq, hlt⟩
        · rw [h0]
          exact Nat.zero_le _
        · rw [← heq]
          exact le_Lcb_of_mem _ _ hinv e he hlt
      · show w.mCc.mWmkOfShortTx ≤
          w.mCc.mCommitTree.Lcb s'.mGlobalWmkInfo.mOldestActiveShortTx
        rcases hshort with h0 | ⟨e, he, heq, hlt⟩
        · rw [h0]
          exact Nat.zero_le _
        · rw [← heq]
          exact le_Lcb_of_mem _ _ hinv e he hlt

/-- The fourth scenario continued is such a round: worker 0 holds the watermarks 48
and 59, the start timestamps of its entries committed at 49 and 60, has committed
once more, and the long-running transaction begun at 50 is still active. The round
publishes 48 and 70. -/
theorem round_keeps_committed_wmks_witness :
    writerS4Later.mCc.mWmkOfAllTx ≤ writerS4LaterRound.mCc.mWmkOfAllTx ∧
    writerS4Later.mCc.mWmkOfShortTx ≤ writerS4LaterRound.mCc.mWmkOfShortTx :=
  round_keeps_committed_wmks scenarioS4Later scenarioS4LaterRound 0 true 0 writerS4Later
    writerS4LaterRound (by decide) (by decide) (by decide) (by decide) (by decide)
    (Or.inr ⟨(49, 48), by decide, by decide, by decide⟩)
    (Or.inr ⟨(60, 59), by decide, by decide, by decide⟩)

end ConcurrencyControl

/-! ## Theorems: switches, fatal ends and assertions -/

namespace ConcurrencyControl

/-- C21: with `mEnableGc` false, `GarbageCollection` returns the state it was called
on, for every state, caller, fuel, draw and `try_lock`: no call reaches the history
storage and no watermark, be it per worker, global or local, and no
`mCleanedWmkOfShortTx` changes. The same holds for `updateGlobalTxWatermarks`. -/
theorem GarbageCollection_disabled (fuel : Nat) (s : LeanStore) (me rand : Nat)
    (tryLock : Bool) (hoff : s.mStoreOption.mEnableGc = false) :
    GarbageCollection fuel s me rand tryLock = .ok s ∧
    updateGlobalTxWatermarks s rand tryLock = .ok s := by
  constructor
  · unfold GarbageCollection
    simp [hoff]
  · unfold updateGlobalTxWatermarks
    simp [hoff]

/-- C21, at the store of the garbage-collection example with GC switched off: the
watermarks 49 and 60 are published, and nothing is purged or visited. -/
theorem GarbageCollection_disabled_witness :
    GarbageCollection 1 scenarioGcOff 0 0 true = .ok scenarioGcOff ∧
    updateGlobalTxWatermarks scenarioGcOff 0 true = .ok scenarioGcOff :=
  GarbageCollection_disabled 1 scenarioGcOff 0 0 true (by decide)

/-- C22: for an observer `me`, `VisibleForMe(workerId, txId)` ends fatally exactly
when `workerId` is not the observer's own worker and its isolation level is neither
SnapshotIsolation nor Serializable. For its own worker it returns true under every
isolation level, and in every case that is not fatal it returns a boolean, `workerId`
being an index of the worker vector and of the two caches. -/
theorem VisibleForMe_fatal_iff (s : LeanStore) (me workerId txId : Nat) (my : WorkerContext)
    (hmy : s.mAllWorkers[me]? = some my) :
    (VisibleForMe s me workerId txId = .fatal ↔
      workerId ≠ me ∧ my.mActiveTx.mTxIsolationLevel ≠ .kSnapshotIsolation ∧
        my.mActiveTx.mTxIsolationLevel ≠ .kSerializable) ∧
    (workerId = me → VisibleForMe s me workerId txId = .ok (true, s)) ∧
    (¬ (workerId ≠ me ∧ my.mActiveTx.mTxIsolationLevel ≠ .kSnapshotIsolation ∧
        my.mActiveTx.mTxIsolationLevel ≠ .kSerializable) →
      workerId < s.mAllWorkers.length → workerId < my.mCc.mLcbCacheKey.length →
      workerId < my.mCc.mLcbCacheVal.length →
      ∃ (b : Bool) (s' : LeanStore), VisibleForMe s me workerId txId = .ok (b, s')) := by
  have hown : workerId = me → VisibleForMe s me workerId txId = .ok (true, s) := by
    intro h
    unfold VisibleForMe
    rw [hmy]
    simp only [h, if_true]
  have hsnap : me ≠ workerId →
      (my.mActiveTx.mTxIsolationLevel = .kSnapshotIsolation ∨
        my.mActiveTx.mTxIsolationLevel = .kSerializable) →
      VisibleForMe s me workerId txId =
        (if txId < my.mCc.mGlobalWmkOfAllTx then Result.ok (true, s)
        else
          match my.mCc.mLcbCacheKey[workerId]?, my.mCc.mLcbCacheVal[workerId]? with
          | some key, some val =>
            if key = my.mActiveTx.mStartTs then Result.ok (decide (val ≥ txId), s)
            else if val ≥ txId then Result.ok (true, s)
            else
              match s.mAllWorkers[workerId]? with
              | none => Result.undef
              | some other =>
                if other.mCc.mCommitTree.Lcb my.mActiveTx.mStartTs ≠ 0 then
                  Result.ok (decide (other.mCc.mCommitTree.Lcb my.mActiveTx.mStartTs ≥ txId),
                    withLcbCaches s me my
                      (my.mCc.mLcbCacheKey.set workerId my.mActiveTx.mStartTs)
                      (my.mCc.mLcbCacheVal.set workerId
                        (other.mCc.mCommitTree.Lcb my.mActiveTx.mStartTs)))
                else Result.ok (false, s)
          | _, _ => Result.undef) := by
    intro hne hiso
    unfold VisibleForMe withLcbCaches
    rw [hmy]
    simp only [hne, if_false]
    rcases hiso with hiso | hiso <;> simp only [hiso]
  have hnotfatal : me ≠ workerId →
      (my.mActiveTx.mTxIsolationLevel = .kSnapshotIsolation ∨
        my.mActiveTx.mTxIsolationLevel = .kSerializable) →
      VisibleForMe s me workerId txId ≠ .fatal := by
    intro hne hiso
    rw [hsnap hne hiso]
    split
    · intro h
      cases h
    · split
      · split
        · intro h
          cases h
        · split
          · intro h
            cases h
          · split
            · intro h
              cases h
            · split
              · intro h
                cases h
              · intro h
                cases h
      · intro h
        cases h
  have hrc : me ≠ workerId → my.mActiveTx.mTxIsolationLevel = .kReadCommitted →
      VisibleForMe s me workerId txId = .fatal := by
    intro hne hiso
    unfold VisibleForMe
    rw [hmy]
    simp only [hne, if_false, hiso]
  refine ⟨⟨?_, ?_⟩, hown, ?_⟩
  · intro hfatal
    by_cases hw : workerId = me
    · rw [hown hw] at hfatal
      cases hfatal
    · refine ⟨hw, ?_, ?_⟩
      · intro hiso
        exact hnotfatal (fun h => hw h.symm) (Or.inl hiso) hfatal
      · intro hiso
        exact hnotfatal (fun h => hw h.symm) (Or.inr hiso) hfatal
  · rintro ⟨hw, h1, h2⟩
    apply hrc (fun h => hw h.symm)
    cases hiso : my.mActiveTx.mTxIsolationLevel with
    | kSnapshotIsolation => exact absurd hiso h1
    | kSerializable => exact absurd hiso h2
    | kReadCommitted => rfl
  · intro hnf hidx hk hv
    by_cases hw : workerId = me
    · exact ⟨true, s, hown hw⟩
    · have hne : me ≠ workerId := fun h => hw h.symm
      have hiso : my.mActiveTx.mTxIsolationLevel = .kSnapshotIsolation ∨
          my.mActiveTx.mTxIsolationLevel = .kSerializable := by
        cases hiso : my.mActiveTx.mTxIsolationLevel with
        | kSnapshotIsolation => exact Or.inl rfl
        | kSerializable => exact Or.inr rfl
        | kReadCommitted =>
          exfalso
          apply hnf
          rw [hiso]
          exact ⟨hw, by decide, by decide⟩
      rw [hsnap hne hiso, List.getElem?_eq_getElem hk, List.getElem?_eq_getElem hv,
        List.getElem?_eq_getElem hidx]
      dsimp only
      split
      · exact ⟨_, _, rfl⟩
      · split
        · exact ⟨_, _, rfl⟩
        · split
          · exact ⟨_, _, rfl⟩
          · split
            · exact ⟨_, _, rfl⟩
            · exact ⟨_, _, rfl⟩

/-- C22, at the first scenario with the reader under read committed: asking about a
version of worker 0 ends fatally. -/
theorem VisibleForMe_fatal_iff_witness : VisibleForMe scenarioRc 1 0 10 = .fatal :=
  (VisibleForMe_fatal_iff scenarioRc 1 0 10 { readerS1 with mActiveTx := ⟨12, .kReadCommitted⟩ }
    (by decide)).1.mpr ⟨by decide, by decide, by decide⟩

theorem or_removeMark (topBit c : Nat) (h : c < 2 ^ topBit) :
    c ||| kRemoveCommandMark topBit = 2 ^ topBit + c := by
  unfold kRemoveCommandMark
  have := Nat.mul_add_lt_is_or h 1
  rw [Nat.mul_one] at this
  rw [Nat.or_comm, ← this]

/-- What `PutVersion` returns and leaves behind for a command id below the remove
mark. -/
theorem PutVersion_ok (topBit : Nat) (s : LeanStore) (me treeId : Nat)
    (isRemoveCommand : Bool) (versionSize : Nat) (my : WorkerContext)
    (hmy : s.mAllWorkers[me]? = some my)
    (hbelow : my.mCommandId < kRemoveCommandMark topBit) :
    PutVersion topBit s me treeId isRemoveCommand versionSize =
      .ok (my.mCommandId + (if isRemoveCommand then 2 ^ topBit else 0),
        { s with
          mAllWorkers := s.mAllWorkers.set me
            { my with
              mCommandId := my.mCommandId + 1,
              mCc := { my.mCc with
                mHistoryStorage := my.mCc.mHistoryStorage ++
                  [HistoryCall.PutVersion my.mActiveTx.mStartTs
                    (my.mCommandId + (if isRemoveCommand then 2 ^ topBit else 0))
                    treeId isRemoveCommand versionSize] } } }) := by
  have hb : my.mCommandId < 2 ^ topBit := hbelow
  have hmod : (my.mCommandId + 1) % 2 ^ (topBit + 1) = my.mCommandId + 1 := by
    apply Nat.mod_eq_of_lt
    rw [Nat.pow_succ]
    omega
  unfold PutVersion
  rw [hmy]
  dsimp only
  rw [hmod]
  cases isRemoveCommand with
  | false => simp
  | true =>
    simp only [if_true]
    rw [or_removeMark topBit my.mCommandId hb, Nat.add_comm (2 ^ topBit)]

/-- C23: for a worker whose `mCommandId` is below the remove mark, `PutVersion`
returns the current `mCommandId` with the top bit set exactly when `isRemoveCommand`
is true, leaves `mCommandId` incremented by one, and records the version under the key
(start timestamp of the active transaction, returned command id), nothing else of the
worker being touched. With the remove mark cleared the returned id is the old
`mCommandId`, so the next call, whatever its arguments, returns an id that is greater
once the marks are cleared. -/
theorem PutVersion_commandId (topBit : Nat) (s : LeanStore) (me treeId : Nat)
    (isRemoveCommand : Bool) (versionSize : Nat) (my : WorkerContext)
    (hmy : s.mAllWorkers[me]? = some my)
    (hbelow : my.mCommandId < kRemoveCommandMark topBit) :
    ∃ (commandId : Nat) (s' : LeanStore),
      PutVersion topBit s me treeId isRemoveCommand versionSize = .ok (commandId, s') ∧
      commandId.testBit topBit = isRemoveCommand ∧
      commandId % kRemoveCommandMark topBit = my.mCommandId ∧
      s'.mAllWorkers[me]? = some
        { my with
          mCommandId := my.mCommandId + 1,
          mCc := { my.mCc with
            mHistoryStorage := my.mCc.mHistoryStorage ++
              [HistoryCall.PutVersion my.mActiveTx.mStartTs commandId treeId isRemoveCommand
                versionSize] } } ∧
      (my.mCommandId + 1 < kRemoveCommandMark topBit →
        ∀ (treeId₂ : Nat) (isRemoveCommand₂ : Bool) (versionSize₂ : Nat),
          ∃ (commandId₂ : Nat) (s'' : LeanStore),
            PutVersion topBit s' me treeId₂ isRemoveCommand₂ versionSize₂ =
              .ok (commandId₂, s'') ∧
            commandId % kRemoveCommandMark topBit <
              commandId₂ % kRemoveCommandMark topBit) := by
  have hb : my.mCommandId < 2 ^ topBit := hbelow
  have hme : me < s.mAllWorkers.length := (List.getElem?_eq_some_iff.mp hmy).1
  have hclear : ∀ (c : Nat) (r : Bool), c < 2 ^ topBit →
      (c + (if r then 2 ^ topBit else 0)) % kRemoveCommandMark topBit = c := by
    intro c r hc
    unfold kRemoveCommandMark
    cases r with
    | false => simpa using Nat.mod_eq_of_lt hc
    | true =>
      simp only [if_true]
      rw [Nat.add_mod_right]
      exact Nat.mod_eq_of_lt hc
  refine ⟨_, _, PutVersion_ok topBit s me treeId isRemoveCommand versionSize my hmy hbelow,
    ?_, hclear _ _ hb, ?_, ?_⟩
  · cases isRemoveCommand with
    | false => simpa using Nat.testBit_lt_two_pow hb
    | true =>
      simp only [if_true]
      rw [Nat.add_comm, Nat.testBit_two_pow_add_eq, Nat.testBit_lt_two_pow hb]
      rfl
  · exact List.getElem?_set_self hme
  · intro hnext treeId₂ isRemoveCommand₂ versionSize₂
    have hnext' : my.mCommandId + 1 < 2 ^ topBit := hnext
    refine ⟨_, _, PutVersion_ok topBit _ me treeId₂ isRemoveCommand₂ versionSize₂ _
      (List.getElem?_set_self hme) hnext, ?_⟩
    rw [hclear _ _ hb]
    dsimp only
    rw [hclear _ _ hnext']
    exact Nat.lt_succ_self _

/-- C23, at the reader of the first scenario with a 32-bit command id: the first
command, a remove, gets the id `2^31`, and the counter moves to 1. -/
theorem PutVersion_commandId_witness :
    ∃ (commandId : Nat) (s' : LeanStore),
      PutVersion 31 scenarioS1 1 7 true 16 = .ok (commandId, s') ∧
      commandId.testBit 31 = true ∧
      commandId % kRemoveCommandMark 31 = 0 :=
  let ⟨commandId, s', h₁, h₂, h₃, _⟩ :=
    PutVersion_commandId 31 scenarioS1 1 7 true 16 readerS1 (by decide) (by decide)
  ⟨commandId, s', h₁, h₂, h₃⟩

/-- C24: on a state with an even `mWmkVersion`, `updateLocalWatermarks` returns after
a single pass, for every positive number of passes granted: the state it was called
on with `mLocalWmkOfAllTx` and `mLocalWmkOfShortTx` set to the published watermarks.
The store options, which only the assertion behind the loop reads, play no part. -/
theorem updateLocalWatermarks_even (cc : ConcurrencyControl)
    (heven : cc.mWmkVersion &&& 1 = 0) :
    ∀ fuel : Nat, updateLocalWatermarks (fuel + 1) cc =
      .ok { cc with mLocalWmkOfAllTx := cc.mWmkOfAllTx,
                    mLocalWmkOfShortTx := cc.mWmkOfShortTx } := by
  intro fuel
  unfold updateLocalWatermarks
  dsimp only
  rw [if_neg (by rw [heven]; exact fun h => h rfl), if_pos rfl]

/-- C24, at a state with long-running transactions enabled and the published
watermark of all transactions above the one of short transactions: one pass returns
the crossed watermarks as the local ones, although the condition of the assertion
behind the loop is false. -/
theorem updateLocalWatermarks_even_witness :
    updateLocalWatermarks 1 crossedCc =
      .ok { crossedCc with mLocalWmkOfAllTx := 60, mLocalWmkOfShortTx := 49 } ∧
    updateLocalWatermarksDcheck ⟨true, true, true⟩
      { crossedCc with mLocalWmkOfAllTx := 60, mLocalWmkOfShortTx := 49 } = false :=
  ⟨updateLocalWatermarks_even crossedCc (by decide) 0, by decide⟩

end ConcurrencyControl

namespace CommitTree

/-- C25: on a commit log with strictly increasing commitTs in which every entry has
`startTs < commitTs`, the entry `lcbNoLatch` steps back to has `startTs < q`, for every
query `q`: the condition of `LS_DCHECK(it->second < startTs)` always holds. -/
theorem lcbNoLatch_dcheck_holds (t : CommitTree) (q : Nat)
    (hinc : StrictIncCommit t.mCommitLog) (hstart : ∀ e ∈ t.mCommitLog, e.2 < e.1) :
    lcbNoLatchDcheck t q = true ∧ ∀ r, lcbNoLatch t q = some r → r.2 < q := by
  have hspec := lcbNoLatch_isLcb t q hinc
  have hres : ∀ r, lcbNoLatch t q = some r → r.2 < q := by
    intro r hr
    rw [hr] at hspec
    have := hstart r hspec.1
    have := hspec.2.1
    omega
  refine ⟨?_, hres⟩
  unfold lcbNoLatchDcheck
  cases hr : lcbNoLatch t q with
  | none => rfl
  | some r => exact decide_eq_true (hres r hr)

/-- C25, at the log of the fifth scenario and the query 5. -/
theorem lcbNoLatch_dcheck_holds_witness :
    lcbNoLatchDcheck treeS5 5 = true ∧ ∀ r, lcbNoLatch treeS5 5 = some r → r.2 < 5 :=
  lcbNoLatch_dcheck_holds treeS5 5 (by decide) (by decide)

/-- C26: `Lcb` is monotone in its query on every commit log in which the commit
timestamps and the start timestamps are both strictly increasing. -/
theorem Lcb_monotone (t : CommitTree) (q₁ q₂ : Nat)
    (hinc : StrictIncCommit t.mCommitLog)
    (hstart : t.mCommitLog.Pairwise (fun a b => a.2 < b.2)) (hq : q₁ ≤ q₂) :
    Lcb t q₁ ≤ Lcb t q₂ := by
  have h₁ := lcbNoLatch_isLcb t q₁ hinc
  have h₂ := lcbNoLatch_isLcb t q₂ hinc
  unfold Lcb
  cases hr₁ : lcbNoLatch t q₁ with
  | none => exact Nat.zero_le _
  | some a =>
    rw [hr₁] at h₁
    cases hr₂ : lcbNoLatch t q₂ with
    | none =>
      rw [hr₂] at h₂
      have := h₂ a h₁.1
      have := h₁.2.1
      omega
    | some b =>
      rw [hr₂] at h₂
      have hab : a.1 ≤ b.1 := h₂.2.2 a h₁.1 (by have := h₁.2.1; omega)
      obtain ⟨i, hi⟩ := List.getElem?_of_mem h₁.1
      obtain ⟨j, hj⟩ := List.getElem?_of_mem h₂.1
      show a.2 ≤ b.2
      rcases Nat.lt_trichotomy i j with hij | hij | hij
      · rw [List.getElem?_eq_some_iff] at hi hj
        obtain ⟨hi', rfl⟩ := hi
        obtain ⟨hj', rfl⟩ := hj
        exact le_of_lt ((List.pairwise_iff_getElem.mp hstart) i j hi' hj' hij)
      · subst hij
        rw [hi] at hj
        cases hj
        exact le_rfl
      · have := strictInc_getElem? hinc hj hi hij
        omega

/-- C26, at the log of the fifth scenario: `Lcb(5) = 3` and `Lcb(9) = 7`. -/
theorem Lcb_monotone_witness : Lcb treeS5 5 ≤ Lcb treeS5 9 :=
  Lcb_monotone treeS5 5 9 (by decide) (by decide) (by decide)

end CommitTree

/-! ## Theorems: executions -/

namespace ConcurrencyControl

theorem mem_trackedIds (ws : List WorkerContext) (q : Nat) :
    q ∈ trackedIds ws ↔ ∃ w ∈ ws, w.mActiveTxId ≠ 0 ∧ w.mActiveTxId &&& kRcBit = 0 ∧
      w.mActiveTxId &&& kCleanBitsMask = q := by
  unfold trackedIds trackedWords
  simp only [List.mem_map, List.mem_filter, decide_eq_true_eq]
  constructor
  · rintro ⟨a, ⟨⟨w, hw, rfl⟩, h1, h2⟩, rfl⟩
    exact ⟨w, hw, h1, h2, rfl⟩
  · rintro ⟨w, hw, h1, h2, rfl⟩
    exact ⟨_, ⟨⟨w, hw, rfl⟩, h1, h2⟩, rfl⟩

theorem mem_trackedShortIds (ws : List WorkerContext) (q : Nat) :
    q ∈ trackedShortIds ws ↔ ∃ w ∈ ws, w.mActiveTxId ≠ 0 ∧ w.mActiveTxId &&& kRcBit = 0 ∧
      w.mActiveTxId &&& kLongRunningBit = 0 ∧ w.mActiveTxId &&& kCleanBitsMask = q := by
  unfold trackedShortIds trackedWords
  simp only [List.mem_map, List.mem_filter, decide_eq_true_eq]
  constructor
  · rintro ⟨a, ⟨⟨⟨w, hw, rfl⟩, h1, h2⟩, h3⟩, rfl⟩
    exact ⟨w, hw, h1, h2, h3, rfl⟩
  · rintro ⟨w, hw, h1, h2, h3, rfl⟩
    exact ⟨_, ⟨⟨⟨w, hw, rfl⟩, h1, h2⟩, h3⟩, rfl⟩

/-- Replacing one worker adds at most the id that worker publishes to the tracked
ids. -/
theorem trackedIds_set (ws : List WorkerContext) (me : Nat) (my' : WorkerContext) (q : Nat)
    (h : q ∈ trackedIds (ws.set me my')) :
    q ∈ trackedIds ws ∨
      (my'.mActiveTxId ≠ 0 ∧ my'.mActiveTxId &&& kRcBit = 0 ∧
        my'.mActiveTxId &&& kCleanBitsMask = q) := by
  rw [mem_trackedIds] at h
  obtain ⟨w, hw, h1, h2, h3⟩ := h
  rcases List.mem_or_eq_of_mem_set hw with hw | rfl
  · left
    rw [mem_trackedIds]
    exact ⟨w, hw, h1, h2, h3⟩
  · exact Or.inr ⟨h1, h2, h3⟩

theorem trackedShortIds_set (ws : List WorkerContext) (me : Nat) (my' : WorkerContext)
    (q : Nat) (h : q ∈ trackedShortIds (ws.set me my')) :
    q ∈ trackedShortIds ws ∨
      (my'.mActiveTxId ≠ 0 ∧ my'.mActiveTxId &&& kRcBit = 0 ∧
        my'.mActiveTxId &&& kLongRunningBit = 0 ∧
        my'.mActiveTxId &&& kCleanBitsMask = q) := by
  rw [mem_trackedShortIds] at h
  obtain ⟨w, hw, h1, h2, h3, h4⟩ := h
  rcases List.mem_or_eq_of_mem_set hw with hw | rfl
  · left
    rw [mem_trackedShortIds]
    exact ⟨w, hw, h1, h2, h3, h4⟩
  · exact Or.inr ⟨h1, h2, h3, h4⟩

/-- `Lcb` does not get smaller when every entry below the query is kept and stays
below the new query. -/
theorem Lcb_le_Lcb_of_entries (t₁ t₂ : CommitTree) (q₁ q₂ : Nat)
    (h₁ : CommitTree.StrictIncCommit t₁.mCommitLog)
    (h₂ : CommitTree.LogInvariants t₂.mCommitLog)
    (hsub : ∀ e ∈ t₁.mCommitLog, e.1 < q₁ → e ∈ t₂.mCommitLog ∧ e.1 < q₂) :
    t₁.Lcb q₁ ≤ t₂.Lcb q₂ := by
  by_cases h0 : t₁.Lcb q₁ = 0
  · rw [h0]
    exact Nat.zero_le _
  · obtain ⟨e, he, heq, hlt⟩ := Lcb_ne_zero_entry t₁ q₁ h0
    obtain ⟨he₂, hlt₂⟩ := hsub e he (hlt h₁)
    rw [← heq]
    exact le_Lcb_of_mem t₂ q₂ h₂ e he₂ hlt₂

/-- The log invariants survive `AppendCommitLog` of a transaction that began after
every commit in the log and commits after it began. -/
theorem logInvariants_append (log : List (Nat × Nat)) (startTs commitTs : Nat)
    (h : CommitTree.LogInvariants log) (hbelow : ∀ e ∈ log, e.1 < startTs)
    (hlt : startTs < commitTs) :
    CommitTree.LogInvariants (log ++ [(commitTs, startTs)]) := by
  obtain ⟨h1, h2, h3⟩ := h
  refine ⟨?_, ?_, ?_⟩
  · show (log ++ [(commitTs, startTs)]).Pairwise (fun a b => a.1 < b.1)
    rw [List.pairwise_append]
    refine ⟨h1, List.pairwise_singleton _ _, ?_⟩
    intro a ha b hb
    rw [List.mem_singleton] at hb
    subst hb
    have := hbelow a ha
    show a.1 < commitTs
    omega
  · intro e he
    rw [List.mem_append, List.mem_singleton] at he
    rcases he with he | rfl
    · exact h2 e he
    · exact hlt
  · rw [List.pairwise_append]
    refine ⟨h3, List.pairwise_singleton _ _, ?_⟩
    intro a ha b hb
    rw [List.mem_singleton] at hb
    subst hb
    exact hbelow a ha

/-- Two entries of a log with the log invariants that are in the order of the set are
in the order of the log. -/
theorem cross_of_pairLess {log : List (Nat × Nat)} (h : CommitTree.LogInvariants log)
    {a b : Nat × Nat} (ha : a ∈ log) (hb : b ∈ log)
    (hab : CommitTree.pairLess a b = true) : a.1 < b.2 := by
  obtain ⟨h1, _, h3⟩ := h
  rw [CommitTree.pairLess_iff] at hab
  obtain ⟨i, hi⟩ := List.getElem?_of_mem ha
  obtain ⟨j, hj⟩ := List.getElem?_of_mem hb
  rcases Nat.lt_trichotomy i j with hij | hij | hij
  · rw [List.getElem?_eq_some_iff] at hi hj
    obtain ⟨hi', rfl⟩ := hi
    obtain ⟨hj', rfl⟩ := hj
    exact (List.pairwise_iff_getElem.mp h3) i j hi' hj' hij
  · subst hij
    rw [hi] at hj
    cases hj
    omega
  · have := CommitTree.strictInc_getElem? h1 hj hi hij
    omega

/-- The log invariants survive `CompactCommitLog`, which only removes entries. -/
theorem logInvariants_compact (t t' : CommitTree) (myWorkerId : Nat)
    (allWorkers : List WorkerContext) (h : CommitTree.LogInvariants t.mCommitLog)
    (hok : CommitTree.CompactCommitLog t myWorkerId allWorkers = .ok t') :
    CommitTree.LogInvariants t'.mCommitLog ∧ ∀ e ∈ t'.mCommitLog, e ∈ t.mCommitLog := by
  rcases CommitTree.CompactCommitLog_ok t t' myWorkerId allWorkers hok with
    ⟨_, heq⟩ | ⟨_, latest, hl, heq⟩
  · rw [heq]
    exact ⟨h, fun _ he => he⟩
  · rw [heq]
    have hmem : latest ∈ t.mCommitLog := List.mem_of_getLast?_eq_some hl
    have hsub := CommitTree.compactLoop_subset t myWorkerId allWorkers latest hmem
    have hsorted := CommitTree.sorted_compactLoop t myWorkerId allWorkers 0
      (CommitTree.setInsert latest [])
      (CommitTree.sorted_setInsert latest [] List.Pairwise.nil)
    refine ⟨⟨CommitTree.strictInc_of_sorted_subset h.1 hsub hsorted, ?_, ?_⟩, hsub⟩
    · intro e he
      exact h.2.1 e (hsub e he)
    · refine List.Pairwise.imp_of_mem ?_ hsorted
      intro a b ha hb hab
      exact cross_of_pairLess h (hsub a ha) (hsub b hb) hab

/-- `CompactCommitLog` does not lower `Lcb` at the id of a live sibling, nor at a
query above every commit of the log. -/
theorem Lcb_le_compact (t t' : CommitTree) (myWorkerId : Nat)
    (allWorkers : List WorkerContext) (h : CommitTree.LogInvariants t.mCommitLog)
    (hok : CommitTree.CompactCommitLog t myWorkerId allWorkers = .ok t') (q : Nat)
    (hq : (∃ (i : Nat) (w : WorkerContext), allWorkers[i]? = some w ∧ i ≠ myWorkerId ∧
        w.mActiveTxId ≠ 0 ∧ w.mActiveTxId &&& kCleanBitsMask = q) ∨
      ∀ e ∈ t.mCommitLog, e.1 < q) :
    t.Lcb q ≤ t'.Lcb q := by
  obtain ⟨hinv', _⟩ := logInvariants_compact t t' myWorkerId allWorkers h hok
  rcases CommitTree.CompactCommitLog_ok t t' myWorkerId allWorkers hok with
    ⟨_, heq⟩ | ⟨_, latest, hl, heq⟩
  · rw [heq]
  · have hspec := CommitTree.lcbNoLatch_isLcb t q h.1
    cases hr : CommitTree.lcbNoLatch t q with
    | none =>
      have h0 : t.Lcb q = 0 := by
        unfold CommitTree.Lcb
        rw [hr]
      rw [h0]
      exact Nat.zero_le _
    | some r =>
      have hval : t.Lcb q = r.2 := by
        unfold CommitTree.Lcb
        rw [hr]
      rw [hr] at hspec
      rw [hval]
      apply le_Lcb_of_mem t' q hinv' r ?_ hspec.2.1
      rw [heq]
      show r ∈ CommitTree.compactLoop t myWorkerId allWorkers 0 (CommitTree.setInsert latest [])
      rw [CommitTree.mem_compactLoop]
      rcases hq with ⟨i, w, hw, hi, hact, rfl⟩ | hall
      · exact Or.inr ⟨i, w, hw, by omega, hact, hr⟩
      · left
        rw [CommitTree.mem_setInsert]
        left
        have hmem : latest ∈ t.mCommitLog := List.mem_of_getLast?_eq_some hl
        have hle := CommitTree.strictInc_le_getLast h.1 hl
        have hold : CommitTree.IsLcb t.mCommitLog q (some latest) :=
          ⟨hmem, hall latest hmem, fun e he _ => hle e he⟩
        have := CommitTree.lcbNoLatch_eq_of_isLcb t q h.1 hold
        rw [hr] at this
        exact Option.some.inj this

/-- The id `StartTx` publishes, with the flag bits cleared, is the start timestamp. -/
theorem startTx_cleanBits (startTs : Nat) (isolation : IsolationLevel) (longRunning : Bool)
    (h : startTs < 2 ^ 62) :
    (startTs ||| txFlags isolation longRunning) &&& kCleanBitsMask = startTs := by
  have hflags : ∃ a, txFlags isolation longRunning = 2 ^ 62 * a := by
    cases isolation <;> cases longRunning
    · exact ⟨0, by decide⟩
    · exact ⟨2, by decide⟩
    · exact ⟨0, by decide⟩
    · exact ⟨2, by decide⟩
    · exact ⟨1, by decide⟩
    · exact ⟨3, by decide⟩
  obtain ⟨a, ha⟩ := hflags
  rw [ha, Nat.lor_comm, ← Nat.mul_add_lt_is_or h]
  unfold kCleanBitsMask
  rw [Nat.and_pow_two_sub_one_eq_mod, Nat.mul_add_mod]
  exact Nat.mod_eq_of_lt h

theorem workerInv_mono {ts ts' : Nat} {w : WorkerContext} (h : WorkerInv ts w)
    (hts : ts ≤ ts') : WorkerInv ts' w := by
  obtain ⟨h1, h2, h3⟩ := h
  refine ⟨h1, fun e he => ⟨by have := (h2 e he).1; omega, (h2 e he).2⟩, ?_⟩
  intro hact
  obtain ⟨a, b, c⟩ := h3 hact
  exact ⟨a, by omega, c⟩

/-- The watermarks of a worker stay below `Lcb` when the worker keeps the watermarks,
`Lcb` on its log does not get smaller at the ids a round could find, and every id
that becomes tracked is at least `b`, a bound above every commit of the log. -/
theorem wmkBelowLcb_transfer {b : Nat} {ws ws' : List WorkerContext} {w w' : WorkerContext}
    (hlog : CommitTree.LogInvariants w'.mCc.mCommitTree.mCommitLog)
    (hbelow : ∀ e ∈ w'.mCc.mCommitTree.mCommitLog, e.1 < b)
    (hold : WmkBelowLcb ws w)
    (hall : w'.mCc.mWmkOfAllTx = w.mCc.mWmkOfAllTx)
    (hshort : w'.mCc.mWmkOfShortTx = w.mCc.mWmkOfShortTx)
    (hlcb : ∀ q, q = TXID_MAX ∨ q ∈ trackedIds ws →
      w.mCc.mCommitTree.Lcb q ≤ w'.mCc.mCommitTree.Lcb q)
    (hcandAll : ∀ q ∈ trackedIds ws', q ∈ trackedIds ws ∨ b ≤ q)
    (hcandShort : ∀ q ∈ trackedShortIds ws', q ∈ trackedShortIds ws ∨ b ≤ q) :
    WmkBelowLcb ws' w' := by
  have key : ∀ q, b ≤ q → w'.mCc.mCommitTree.Lcb TXID_MAX ≤ w'.mCc.mCommitTree.Lcb q := by
    intro q hq
    apply Lcb_le_Lcb_of_entries _ _ _ _ hlog.1 hlog
    intro e he _
    exact ⟨he, lt_of_lt_of_le (hbelow e he) hq⟩
  constructor
  · intro q hq
    rw [hall]
    rcases hq with rfl | hq
    · exact le_trans (hold.1 _ (Or.inl rfl)) (hlcb _ (Or.inl rfl))
    · rcases hcandAll q hq with h | h
      · exact le_trans (hold.1 q (Or.inr h)) (hlcb q (Or.inr h))
      · exact le_trans (le_trans (hold.1 _ (Or.inl rfl)) (hlcb _ (Or.inl rfl))) (key q h)
  · intro q hq
    rw [hshort]
    rcases hq with rfl | hq
    · exact le_trans (hold.2 _ (Or.inl rfl)) (hlcb _ (Or.inl rfl))
    · rcases hcandShort q hq with h | h
      · exact le_trans (hold.2 q (Or.inr h))
          (hlcb q (Or.inr (trackedShortIds_subset ws q h)))
      · exact le_trans (le_trans (hold.2 _ (Or.inl rfl)) (hlcb _ (Or.inl rfl))) (key q h)

/-- The invariant survives the replacement of one worker when the replaced worker
satisfies it and every id that becomes tracked is at least the next timestamp. -/
theorem execInv_set {ts ts' : Nat} {ws : List WorkerContext} (me : Nat)
    (my' : WorkerContext) (hinv : ExecInv ts ws) (hts : ts ≤ ts')
    (hcandAll : ∀ q ∈ trackedIds (ws.set me my'), q ∈ trackedIds ws ∨ ts ≤ q)
    (hcandShort : ∀ q ∈ trackedShortIds (ws.set me my'), q ∈ trackedShortIds ws ∨ ts ≤ q)
    (h1 : WorkerInv ts' my') (h2 : WmkBelowLcb (ws.set me my') my') :
    ExecInv ts' (ws.set me my') := by
  intro w hw
  rcases List.mem_or_eq_of_mem_set hw with hw | rfl
  · obtain ⟨hwi, hwm⟩ := hinv w hw
    exact ⟨workerInv_mono hwi hts,
      wmkBelowLcb_transfer hwi.1 (fun e he => (hwi.2.1 e he).1) hwm rfl rfl
        (fun _ _ => le_rfl) hcandAll hcandShort⟩
  · exact ⟨h1, h2⟩

/-- The invariant survives `StartTx` by an idle worker at the next timestamp. -/
theorem execInv_startTx {ts : Nat} {s s' : LeanStore} {me : Nat} {my : WorkerContext}
    {isolation : IsolationLevel} {longRunning : Bool}
    (hinv : ExecInv ts s.mAllWorkers) (hts : ts < 2 ^ 62)
    (hmy : s.mAllWorkers[me]? = some my)
    (hok : StartTx s me ts isolation longRunning = .ok s') :
    ExecInv (ts + 1) s'.mAllWorkers := by
  unfold StartTx at hok
  rw [hmy] at hok
  simp only [Result.ok.injEq] at hok
  subst hok
  obtain ⟨hwi, hwm⟩ := hinv my (List.getElem?_mem hmy)
  have hclean := startTx_cleanBits ts isolation longRunning hts
  have hcandAll : ∀ q ∈ trackedIds (s.mAllWorkers.set me
      { my with
        mActiveTxId := ts ||| txFlags isolation longRunning,
        mActiveTx := ⟨ts, isolation⟩,
        mCommandId := 0,
        mCc := { my.mCc with
          mGlobalWmkOfAllTx := s.mGlobalWmkInfo.mWmkOfAllTx,
          mLcbCacheKey := my.mCc.mLcbCacheKey.map (fun _ => 0),
          mLcbCacheVal := my.mCc.mLcbCacheVal.map (fun _ => 0) } }),
      q ∈ trackedIds s.mAllWorkers ∨ ts ≤ q := by
    intro q hq
    rcases trackedIds_set _ _ _ _ hq with h | ⟨_, _, h⟩
    · exact Or.inl h
    · right
      have h' : (ts ||| txFlags isolation longRunning) &&& kCleanBitsMask = q := h
      omega
  have hcandShort : ∀ q ∈ trackedShortIds (s.mAllWorkers.set me
      { my with
        mActiveTxId := ts ||| txFlags isolation longRunning,
        mActiveTx := ⟨ts, isolation⟩,
        mCommandId := 0,
        mCc := { my.mCc with
          mGlobalWmkOfAllTx := s.mGlobalWmkInfo.mWmkOfAllTx,
          mLcbCacheKey := my.mCc.mLcbCacheKey.map (fun _ => 0),
          mLcbCacheVal := my.mCc.mLcbCacheVal.map (fun _ => 0) } }),
      q ∈ trackedShortIds s.mAllWorkers ∨ ts ≤ q := by
    intro q hq
    rcases trackedShortIds_set _ _ _ _ hq with h | ⟨_, _, _, h⟩
    · exact Or.inl h
    · right
      have h' : (ts ||| txFlags isolation longRunning) &&& kCleanBitsMask = q := h
      omega
  refine execInv_set me _ hinv (Nat.le_succ ts) hcandAll hcandShort ?_ ?_
  · refine ⟨hwi.1, fun e he => ⟨?_, (hwi.2.1 e he).2⟩, ?_⟩
    · have := (hwi.2.1 e he).1
      omega
    · intro _
      refine ⟨hclean, Nat.lt_succ_self ts, fun e he => (hwi.2.1 e he).1⟩
  · exact wmkBelowLcb_transfer hwi.1 (fun e he => (hwi.2.1 e he).1) hwm rfl rfl
      (fun _ _ => le_rfl) hcandAll hcandShort

/-- The invariant survives `CommitTx` by an active worker at the next timestamp. -/
theorem execInv_commitTx {ts : Nat} {s s' : LeanStore} {me : Nat} {my : WorkerContext}
    (hinv : ExecInv ts s.mAllWorkers) (hts : ts < 2 ^ 62)
    (hmy : s.mAllWorkers[me]? = some my) (hactive : my.mActiveTxId ≠ 0)
    (hok : CommitTx s me ts = .ok s') :
    ExecInv (ts + 1) s'.mAllWorkers := by
  unfold CommitTx at hok
  rw [hmy] at hok
  simp only [Result.ok.injEq] at hok
  subst hok
  obtain ⟨hwi, hwm⟩ := hinv my (List.getElem?_mem hmy)
  obtain ⟨_, hstart, habove⟩ := hwi.2.2 hactive
  have hcandAll : ∀ q ∈ trackedIds (s.mAllWorkers.set me
      { my with
        mActiveTxId := 0,
        mCc := { my.mCc with
          mCommitTree := my.mCc.mCommitTree.AppendCommitLog my.mActiveTx.mStartTs ts,
          mLatestCommitTs := ts } }),
      q ∈ trackedIds s.mAllWorkers := by
    intro q hq
    rcases trackedIds_set _ _ _ _ hq with h | ⟨h, _, _⟩
    · exact h
    · exact absurd rfl h
  have hcandShort : ∀ q ∈ trackedShortIds (s.mAllWorkers.set me
      { my with
        mActiveTxId := 0,
        mCc := { my.mCc with
          mCommitTree := my.mCc.mCommitTree.AppendCommitLog my.mActiveTx.mStartTs ts,
          mLatestCommitTs := ts } }),
      q ∈ trackedShortIds s.mAllWorkers := by
    intro q hq
    rcases trackedShortIds_set _ _ _ _ hq with h | ⟨h, _, _, _⟩
    · exact h
    · exact absurd rfl h
  have hlog : CommitTree.LogInvariants
      (my.mCc.mCommitTree.mCommitLog ++ [(ts, my.mActiveTx.mStartTs)]) :=
    logInvariants_append _ _ _ hwi.1 habove hstart
  have hbelow : ∀ e ∈ my.mCc.mCommitTree.mCommitLog ++ [(ts, my.mActiveTx.mStartTs)],
      e.1 < ts + 1 ∧ e.1 < 2 ^ 62 := by
    intro e he
    rw [List.mem_append, List.mem_singleton] at he
    rcases he with he | rfl
    · have := hwi.2.1 e he
      exact ⟨by omega, this.2⟩
    · exact ⟨Nat.lt_succ_self ts, hts⟩
  refine execInv_set me _ hinv (Nat.le_succ ts) (fun q hq => Or.inl (hcandAll q hq))
    (fun q hq => Or.inl (hcandShort q hq)) ?_ ?_
  · refine ⟨hlog, hbelow, ?_⟩
    intro h
    exact absurd rfl h
  · refine wmkBelowLcb_transfer hlog (fun e he => (hbelow e he).1) hwm rfl rfl ?_
      (fun q hq => Or.inl (hcandAll q hq)) (fun q hq => Or.inl (hcandShort q hq))
    intro q _
    apply Lcb_le_Lcb_of_entries _ _ _ _ hwi.1.1 hlog
    intro e he hlt
    exact ⟨List.mem_append_left _ he, hlt⟩

/-- The invariant survives a step of worker `me` that keeps the id it publishes, its
active transaction, its commit log and its published watermarks. -/
theorem execInv_frame {ts : Nat} {ws : List WorkerContext} {me : Nat}
    {my my' : WorkerContext} (hinv : ExecInv ts ws) (hmy : ws[me]? = some my)
    (hword : my'.mActiveTxId = my.mActiveTxId) (htx : my'.mActiveTx = my.mActiveTx)
    (htree : my'.mCc.mCommitTree = my.mCc.mCommitTree)
    (hall : my'.mCc.mWmkOfAllTx = my.mCc.mWmkOfAllTx)
    (hshort : my'.mCc.mWmkOfShortTx = my.mCc.mWmkOfShortTx) :
    ExecInv ts (ws.set me my') := by
  have hmem : my ∈ ws := List.getElem?_mem hmy
  obtain ⟨hwi, hwm⟩ := hinv my hmem
  have hcandAll : ∀ q ∈ trackedIds (ws.set me my'), q ∈ trackedIds ws := by
    intro q hq
    rcases trackedIds_set _ _ _ _ hq with h | ⟨h1, h2, h3⟩
    · exact h
    · rw [mem_trackedIds]
      rw [hword] at h1 h2 h3
      exact ⟨my, hmem, h1, h2, h3⟩
  have hcandShort : ∀ q ∈ trackedShortIds (ws.set me my'), q ∈ trackedShortIds ws := by
    intro q hq
    rcases trackedShortIds_set _ _ _ _ hq with h | ⟨h1, h2, h3, h4⟩
    · exact h
    · rw [mem_trackedShortIds]
      rw [hword] at h1 h2 h3 h4
      exact ⟨my, hmem, h1, h2, h3, h4⟩
  have hwi' : WorkerInv ts my' := by
    unfold WorkerInv
    rw [hword, htx, htree]
    exact hwi
  refine execInv_set me _ hinv le_rfl (fun q hq => Or.inl (hcandAll q hq))
    (fun q hq => Or.inl (hcandShort q hq)) hwi' ?_
  refine wmkBelowLcb_transfer hwi'.1 (fun e he => (hwi'.2.1 e he).1) hwm hall hshort ?_
    (fun q hq => Or.inl (hcandAll q hq)) (fun q hq => Or.inl (hcandShort q hq))
  intro q _
  rw [htree]

/-- The invariant survives `AbortTx`. -/
theorem execInv_abortTx {ts : Nat} {s s' : LeanStore} {me : Nat}
    (hinv : ExecInv ts s.mAllWorkers) (hok : AbortTx s me = .ok s') :
    ExecInv ts s'.mAllWorkers := by
  unfold AbortTx at hok
  cases hmy : s.mAllWorkers[me]? with
  | none =>
    rw [hmy] at hok
    cases hok
  | some my =>
    rw [hmy] at hok
    simp only [Result.ok.injEq] at hok
    subst hok
    obtain ⟨hwi, hwm⟩ := hinv my (List.getElem?_mem hmy)
    have hcandAll : ∀ q ∈ trackedIds (s.mAllWorkers.set me { my with mActiveTxId := 0 }),
        q ∈ trackedIds s.mAllWorkers := by
      intro q hq
      rcases trackedIds_set _ _ _ _ hq with h | ⟨h, _, _⟩
      · exact h
      · exact absurd rfl h
    have hcandShort : ∀ q ∈ trackedShortIds
        (s.mAllWorkers.set me { my with mActiveTxId := 0 }),
        q ∈ trackedShortIds s.mAllWorkers := by
      intro q hq
      rcases trackedShortIds_set _ _ _ _ hq with h | ⟨h, _, _, _⟩
      · exact h
      · exact absurd rfl h
    refine execInv_set me _ hinv le_rfl (fun q hq => Or.inl (hcandAll q hq))
      (fun q hq => Or.inl (hcandShort q hq)) ?_ ?_
    · exact ⟨hwi.1, hwi.2.1, fun h => absurd rfl h⟩
    · exact wmkBelowLcb_transfer hwi.1 (fun e he => (hwi.2.1 e he).1) hwm rfl rfl
        (fun _ _ => le_rfl) (fun q hq => Or.inl (hcandAll q hq))
        (fun q hq => Or.inl (hcandShort q hq))

/-- The invariant survives a compaction of the own commit log. -/
theorem execInv_compact {ts : Nat} {s s' : LeanStore} {me : Nat}
    (hinv : ExecInv ts s.mAllWorkers) (hok : compactOwnLog s me = .ok s') :
    ExecInv ts s'.mAllWorkers := by
  unfold compactOwnLog at hok
  cases hmy : s.mAllWorkers[me]? with
  | none =>
    rw [hmy] at hok
    cases hok
  | some my =>
    rw [hmy] at hok
    dsimp only at hok
    cases hc : my.mCc.mCommitTree.CompactCommitLog me s.mAllWorkers with
    | fatal => rw [hc] at hok; cases hok
    | undef => rw [hc] at hok; cases hok
    | spin => rw [hc] at hok; cases hok
    | ok tree =>
      rw [hc] at hok
      simp only [Result.ok.injEq] at hok
      subst hok
      have hmem : my ∈ s.mAllWorkers := List.getElem?_mem hmy
      obtain ⟨hwi, hwm⟩ := hinv my hmem
      obtain ⟨hlog', hsub⟩ := logInvariants_compact _ _ _ _ hwi.1 hc
      have hcandAll : ∀ q ∈ trackedIds (s.mAllWorkers.set me
          { my with mCc := { my.mCc with mCommitTree := tree } }),
          q ∈ trackedIds s.mAllWorkers := by
        intro q hq
        rcases trackedIds_set _ _ _ _ hq with h | ⟨h1, h2, h3⟩
        · exact h
        · rw [mem_trackedIds]
          exact ⟨my, hmem, h1, h2, h3⟩
      have hcandShort : ∀ q ∈ trackedShortIds (s.mAllWorkers.set me
          { my with mCc := { my.mCc with mCommitTree := tree } }),
          q ∈ trackedShortIds s.mAllWorkers := by
        intro q hq
        rcases trackedShortIds_set _ _ _ _ hq with h | ⟨h1, h2, h3, h4⟩
        · exact h
        · rw [mem_trackedShortIds]
          exact ⟨my, hmem, h1, h2, h3, h4⟩
      have hwi' : WorkerInv ts { my with mCc := { my.mCc with mCommitTree := tree } } := by
        refine ⟨hlog', fun e he => hwi.2.1 e (hsub e he), ?_⟩
        intro hact
        obtain ⟨a, b, c⟩ := hwi.2.2 hact
        exact ⟨a, b, fun e he => c e (hsub e he)⟩
      refine execInv_set me _ hinv le_rfl (fun q hq => Or.inl (hcandAll q hq))
        (fun q hq => Or.inl (hcandShort q hq)) hwi' ?_
      refine wmkBelowLcb_transfer hlog' (fun e he => (hwi'.2.1 e he).1) hwm rfl rfl ?_
        (fun q hq => Or.inl (hcandAll q hq)) (fun q hq => Or.inl (hcandShort q hq))
      intro q hq
      apply Lcb_le_compact _ _ _ _ hwi.1 hc q
      rcases hq with rfl | hq
      · right
        intro e he
        have := (hwi.2.1 e he).2
        unfold TXID_MAX
        omega
      · rw [mem_trackedIds] at hq
        obtain ⟨w, hw, h1, _, h3⟩ := hq
        obtain ⟨i, hi⟩ := List.getElem?_of_mem hw
        by_cases him : i = me
        · right
          subst him
          rw [hmy] at hi
          cases hi
          obtain ⟨a, _, c⟩ := hwi.2.2 h1
          intro e he
          have := c e he
          omega
        · exact Or.inl ⟨i, w, hi, him, h1, h3⟩

theorem trackedIds_republished (g : GlobalWmkInfo) (ws : List WorkerContext) :
    trackedIds (ws.map (republished g)) = trackedIds ws ∧
    trackedShortIds (ws.map (republished g)) = trackedShortIds ws := by
  have h : (ws.map (republished g)).map (fun w => w.mActiveTxId) =
      ws.map (fun w => w.mActiveTxId) := by
    rw [List.map_map]
    apply List.map_congr_left
    intro w _
    exact (republished_upToDate g w).2
  unfold trackedIds trackedShortIds trackedWords
  rw [h]
  exact ⟨rfl, rfl⟩

/-- The invariant survives the second loop of `updateGlobalTxWatermarks`, run with
the ids the scan of the workers finds. -/
theorem execInv_roundWorkers {ts : Nat} (s : LeanStore) (hinv : ExecInv ts s.mAllWorkers) :
    ExecInv ts (roundWorkers s) := by
  unfold roundWorkers
  intro w' hw'
  rw [List.mem_map] at hw'
  obtain ⟨w, hw, rfl⟩ := hw'
  obtain ⟨hwi, hwm⟩ := hinv w hw
  obtain ⟨hscanAll, hscanShort, _⟩ :=
    scanActiveTxIds_spec s.mAllWorkers ⟨TXID_MAX, TXID_MIN, TXID_MAX⟩
  obtain ⟨hidAll, hidShort⟩ := trackedIds_republished (roundInfo s) s.mAllWorkers
  unfold WmkBelowLcb
  rw [hidAll, hidShort]
  unfold republished
  by_cases hup : w.mCc.mUpdatedLatestCommitTs = w.mCc.mLatestCommitTs
  · rw [if_pos hup]
    exact ⟨hwi, hwm⟩
  · rw [if_neg hup]
    refine ⟨hwi, ?_, ?_⟩
    · intro q hq
      show w.mCc.mCommitTree.Lcb (roundInfo s).mOldestActiveTx ≤ w.mCc.mCommitTree.Lcb q
      apply Lcb_mono _ _ _ hwi.1
      show (scanActiveTxIds s.mAllWorkers ⟨TXID_MAX, TXID_MIN, TXID_MAX⟩).oldestTxId ≤ q
      rcases hq with rfl | hq
      · exact hscanAll.1
      · exact hscanAll.2.1 q hq
    · intro q hq
      show w.mCc.mCommitTree.Lcb (roundInfo s).mOldestActiveShortTx ≤
        w.mCc.mCommitTree.Lcb q
      apply Lcb_mono _ _ _ hwi.1
      show (scanActiveTxIds s.mAllWorkers ⟨TXID_MAX, TXID_MIN, TXID_MAX⟩).oldestShortTxId ≤ q
      rcases hq with rfl | hq
      · exact hscanShort.1
      · exact hscanShort.2.1 q hq

/-- The workers a call of `updateGlobalTxWatermarks` leaves behind: the ones it found
when the gate is closed, the ones of the round otherwise. -/
theorem updateGlobalTxWatermarks_workers (s s' : LeanStore) (rand : Nat) (tryLock : Bool)
    (hok : updateGlobalTxWatermarks s rand tryLock = .ok s') :
    s'.mAllWorkers = s.mAllWorkers ∨ s'.mAllWorkers = roundWorkers s := by
  by_cases hgate : passesGate s rand tryLock = true
  · exact Or.inr (updateGlobalTxWatermarks_ok_cases s s' rand tryLock hgate hok).2.2.1
  · rw [updateGlobalTxWatermarks_not_passed s rand tryLock hgate] at hok
    cases hok
    exact Or.inl rfl

/-- The invariant survives a call of `updateGlobalTxWatermarks`. -/
theorem execInv_round {ts : Nat} {s s' : LeanStore} {rand : Nat} {tryLock : Bool}
    (hinv : ExecInv ts s.mAllWorkers)
    (hok : updateGlobalTxWatermarks s rand tryLock = .ok s') :
    ExecInv ts s'.mAllWorkers := by
  rcases updateGlobalTxWatermarks_workers s s' rand tryLock hok with h | h
  · rw [h]
    exact hinv
  · rw [h]
    exact execInv_roundWorkers s hinv

theorem purgeStep_frame (cc : ConcurrencyControl) :
    (purgeStep cc).mCommitTree = cc.mCommitTree ∧
    (purgeStep cc).mWmkOfAllTx = cc.mWmkOfAllTx ∧
    (purgeStep cc).mWmkOfShortTx = cc.mWmkOfShortTx := by
  unfold purgeStep
  split
  · exact ⟨rfl, rfl, rfl⟩
  · exact ⟨rfl, rfl, rfl⟩

theorem graveyardStep_frame (opt : StoreOption) (cc : ConcurrencyControl) :
    (graveyardStep opt cc).mCommitTree = cc.mCommitTree ∧
    (graveyardStep opt cc).mWmkOfAllTx = cc.mWmkOfAllTx ∧
    (graveyardStep opt cc).mWmkOfShortTx = cc.mWmkOfShortTx := by
  unfold graveyardStep
  split
  · exact ⟨rfl, rfl, rfl⟩
  · exact ⟨rfl, rfl, rfl⟩

/-- The invariant survives `GarbageCollection`. -/
theorem execInv_gc {ts : Nat} {s s' : LeanStore} {fuel me rand : Nat} {tryLock : Bool}
    (hinv : ExecInv ts s.mAllWorkers)
    (hok : GarbageCollection fuel s me rand tryLock = .ok s') :
    ExecInv ts s'.mAllWorkers := by
  unfold GarbageCollection at hok
  by_cases hgc : s.mStoreOption.mEnableGc = true
  · simp only [hgc, Bool.not_true, Bool.false_eq_true, if_false] at hok
    cases hglobal : updateGlobalTxWatermarks s rand tryLock with
    | fatal => rw [hglobal] at hok; cases hok
    | undef => rw [hglobal] at hok; cases hok
    | spin => rw [hglobal] at hok; cases hok
    | ok s₁ =>
      rw [hglobal] at hok
      dsimp only at hok
      have hinv₁ := execInv_round hinv hglobal
      cases hmy : s₁.mAllWorkers[me]? with
      | none => rw [hmy] at hok; cases hok
      | some my =>
        rw [hmy] at hok
        dsimp only at hok
        cases hlocal : updateLocalWatermarks fuel my.mCc with
        | fatal => rw [hlocal] at hok; cases hok
        | undef => rw [hlocal] at hok; cases hok
        | spin => rw [hlocal] at hok; cases hok
        | ok cc =>
          rw [hlocal] at hok
          simp only [Result.ok.injEq] at hok
          subst hok
          have hcc := updateLocalWatermarks_ok fuel my.mCc cc hlocal
          obtain ⟨g1, g2, g3⟩ := graveyardStep_frame s₁.mStoreOption (purgeStep cc)
          obtain ⟨p1, p2, p3⟩ := purgeStep_frame cc
          refine execInv_frame hinv₁ hmy rfl rfl ?_ ?_ ?_
          · show (graveyardStep s₁.mStoreOption (purgeStep cc)).mCommitTree = my.mCc.mCommitTree
            rw [g1, p1, hcc]
          · show (graveyardStep s₁.mStoreOption (purgeStep cc)).mWmkOfAllTx = my.mCc.mWmkOfAllTx
            rw [g2, p2, hcc]
          · show (graveyardStep s₁.mStoreOption (purgeStep cc)).mWmkOfShortTx =
              my.mCc.mWmkOfShortTx
            rw [g3, p3, hcc]
  · have hgc' : s.mStoreOption.mEnableGc = false := by
      cases h : s.mStoreOption.mEnableGc
      · rfl
      · exact absurd h hgc
    simp only [hgc', Bool.not_false, if_true, Result.ok.injEq] at hok
    subst hok
    exact hinv

/-- The invariant survives `PutVersion`. -/
theorem execInv_putVersion {ts : Nat} {s s' : LeanStore} {topBit me treeId : Nat}
    {isRemoveCommand : Bool} {versionSize commandId : Nat}
    (hinv : ExecInv ts s.mAllWorkers)
    (hok : PutVersion topBit s me treeId isRemoveCommand versionSize = .ok (commandId, s')) :
    ExecInv ts s'.mAllWorkers := by
  unfold PutVersion at hok
  cases hmy : s.mAllWorkers[me]? with
  | none =>
    rw [hmy] at hok
    cases hok
  | some my =>
    rw [hmy] at hok
    simp only [Result.ok.injEq, Prod.mk.injEq] at hok
    obtain ⟨_, hs⟩ := hok
    subst hs
    exact execInv_frame hinv hmy rfl rfl rfl rfl rfl

/-- The invariant survives `VisibleForMe`. -/
theorem execInv_visible {ts : Nat} {s s' : LeanStore} {me workerId txId : Nat} {b : Bool}
    (hinv : ExecInv ts s.mAllWorkers)
    (hok : VisibleForMe s me workerId txId = .ok (b, s')) :
    ExecInv ts s'.mAllWorkers := by
  have key : s' = s ∨ ∃ (my : WorkerContext) (cc : ConcurrencyControl),
      s.mAllWorkers[me]? = some my ∧
      s' = { s with mAllWorkers := s.mAllWorkers.set me { my with mCc := cc } } ∧
      cc.mCommitTree = my.mCc.mCommitTree ∧ cc.mWmkOfAllTx = my.mCc.mWmkOfAllTx ∧
      cc.mWmkOfShortTx = my.mCc.mWmkOfShortTx := by
    unfold VisibleForMe at hok
    cases hmy : s.mAllWorkers[me]? with
    | none =>
      rw [hmy] at hok
      cases hok
    | some my =>
      rw [hmy] at hok
      dsimp only at hok
      repeat' split at hok
      all_goals first
        | (cases hok; exact Or.inl rfl)
        | (cases hok; exact Or.inr ⟨my, _, rfl, rfl, rfl, rfl, rfl⟩)
        | cases hok
  rcases key with rfl | ⟨my, cc, hmy, rfl, h1, h2, h3⟩
  · exact hinv
  · exact execInv_frame hinv hmy rfl rfl h1 h2 h3

/-- Every state an execution reaches satisfies the invariant. -/
theorem execInv_of_reachable {ts : Nat} {s : LeanStore} (h : Reachable ts s) :
    ExecInv ts s.mAllWorkers := by
  induction h with
  | init ts s _ hidle =>
    intro w hw
    obtain ⟨h1, h2, h3, h4⟩ := hidle w hw
    refine ⟨⟨?_, ?_, ?_⟩, ?_, ?_⟩
    · rw [h2]
      exact ⟨List.Pairwise.nil, fun e he => absurd he (List.not_mem_nil e),
        List.Pairwise.nil⟩
    · rw [h2]
      intro e he
      exact absurd he (List.not_mem_nil e)
    · intro hact
      exact absurd h1 hact
    · intro q _
      rw [h3]
      exact Nat.zero_le _
    · intro q _
      rw [h4]
      exact Nat.zero_le _
  | advance ts ts' s _ hle ih =>
    intro w hw
    exact ⟨workerInv_mono (ih w hw).1 hle, (ih w hw).2⟩
  | startTx ts s s' me my isolation longRunning _ hts hmy _ hok ih =>
    exact execInv_startTx ih hts hmy hok
  | commitTx ts s s' me my _ hts hmy hactive hok ih =>
    exact execInv_commitTx ih hts hmy hactive hok
  | abortTx ts s s' me _ hok ih => exact execInv_abortTx ih hok
  | compact ts s s' me _ hok ih => exact execInv_compact ih hok
  | round ts s s' rand tryLock _ hok ih => exact execInv_round ih hok
  | gc ts s s' fuel me rand tryLock _ hok ih => exact execInv_gc ih hok
  | visible ts s s' me workerId txId b _ hok ih => exact execInv_visible ih hok
  | putVersion ts s s' topBit me treeId isRemoveCommand versionSize commandId _ hok ih =>
    exact execInv_putVersion ih hok

/-- The full log that compaction does not shrink is reached by an execution: with
commit logs of capacity 2, worker 0 begins at 1 and commits at 2, worker 1 begins at
3, worker 0 begins at 4 and commits at 5. A compaction of worker 0's log then leaves
the store as it is. -/
theorem fullStore_reachable :
    Reachable 6 fullStore ∧ compactOwnLog fullStore 0 = .ok fullStore := by
  have h0 : Reachable 1 fullStart := Reachable.init 1 fullStart (by decide) (by decide)
  have h1 := Reachable.startTx 1 fullStart _ 0 _ .kSnapshotIsolation false h0 (by decide)
    rfl rfl rfl
  have h2 := Reachable.commitTx 2 _ _ 0 _ h1 (by decide) rfl (by decide) rfl
  have h3 := Reachable.startTx 3 _ _ 1 _ .kSnapshotIsolation false h2 (by decide) rfl rfl rfl
  have h4 := Reachable.startTx 4 _ _ 0 _ .kSnapshotIsolation false h3 (by decide) rfl rfl rfl
  have h5 : Reachable 6 fullStore := Reachable.commitTx 5 _ fullStore 0 _ h4 (by decide) rfl
    (by decide) rfl
  exact ⟨h5, by decide⟩

/-- An execution written out state by state: worker 0 begins at 1 and commits at 2, a
round publishes the watermarks 1 and 1, worker 1 begins a long-running transaction at
3, worker 0 begins at 4 and commits at 5. The round on the state reached publishes
`Lcb(3) = 1` and `Lcb(2^64 - 1) = 4` for worker 0. -/
theorem execS6_reachable :
    Reachable 6 execS6 ∧ updateGlobalTxWatermarks execS6 0 true = .ok execS7 :=
  ⟨Reachable.commitTx 5 execS5 execS6 0 execWriter5
      (Reachable.startTx 4 execS4 execS5 0 execWriter3 .kSnapshotIsolation false
        (Reachable.startTx 3 execS3 execS4 1 idleWorker .kSnapshotIsolation true
          (Reachable.round 3 execS2 execS3 0 true
            (Reachable.commitTx 2 execS1 execS2 0
              { idleWorker with mActiveTxId := 1, mActiveTx := ⟨1, .kSnapshotIsolation⟩ }
              (Reachable.startTx 1 execS0 execS1 0 idleWorker .kSnapshotIsolation false
                (Reachable.init 1 execS0 (by decide) (by decide))
                (by decide) (by decide) (by decide) (by decide))
              (by decide) (by decide) (by decide) (by decide))
            (by decide))
          (by decide) (by decide) (by decide) (by decide))
        (by decide) (by decide) (by decide) (by decide))
      (by decide) (by decide) (by decide) (by decide),
    by decide⟩

/-- Outside the executions a round can lower the watermarks. In `scenarioAhead` worker
0 holds the published watermarks 59 and 59 while worker 1 runs a transaction begun at
50, and worker 0 has committed since the last round: the round recomputes both
watermarks as `Lcb(50) = 48`. No execution reaches that state, whatever the next
timestamp is. -/
theorem round_lowers_wmks_outside_executions :
    (∀ ts : Nat, ¬ Reachable ts scenarioAhead) ∧
    updateGlobalTxWatermarks scenarioAhead 0 true = .ok scenarioAheadRound ∧
    scenarioAhead.mAllWorkers[0]?.map (fun w => w.mCc.mWmkOfAllTx) = some 59 ∧
    scenarioAheadRound.mAllWorkers[0]?.map (fun w => w.mCc.mWmkOfAllTx) = some 48 ∧
    scenarioAhead.mAllWorkers[0]?.map (fun w => w.mCc.mWmkOfShortTx) = some 59 ∧
    scenarioAheadRound.mAllWorkers[0]?.map (fun w => w.mCc.mWmkOfShortTx) = some 48 := by
  refine ⟨?_, by decide, by decide, by decide, by decide, by decide⟩
  intro ts h
  have hinv := execInv_of_reachable h
  have hw : writerAhead ∈ scenarioAhead.mAllWorkers := by decide
  have h50 : 50 ∈ trackedIds scenarioAhead.mAllWorkers := by decide
  have hle := (hinv writerAhead hw).2.1 50 (Or.inr h50)
  exact absurd hle (by decide)

/-- Along an execution every published watermark is a start timestamp of 62 bits or
0, so it is below `2^64 - 1`. -/
theorem published_wmks_lt_of_execInv {ts : Nat} {ws : List WorkerContext}
    (hinv : ExecInv ts ws) (w : WorkerContext) (hw : w ∈ ws) :
    w.mCc.mWmkOfAllTx < TXID_MAX ∧ w.mCc.mWmkOfShortTx < TXID_MAX := by
  obtain ⟨hwi, hwm⟩ := hinv w hw
  have hlcb : w.mCc.mCommitTree.Lcb TXID_MAX < 2 ^ 62 := by
    by_cases h0 : w.mCc.mCommitTree.Lcb TXID_MAX = 0
    · rw [h0]
      exact Nat.two_pow_pos 62
    · obtain ⟨e, he, heq, _⟩ := Lcb_ne_zero_entry _ _ h0
      have h1 := hwi.1.2.1 e he
      have h2 := (hwi.2.1 e he).2
      omega
  have ha := hwm.1 TXID_MAX (Or.inl rfl)
  have hs := hwm.2 TXID_MAX (Or.inl rfl)
  unfold TXID_MAX at *
  omega

/-- Along an execution `GarbageCollection` never lowers a cleaned mark: in every state
an execution reaches, whatever the local watermarks are, a call of
`GarbageCollection` that returns leaves every worker in place with an
`mCleanedWmkOfShortTx` that is at least what it was. The local watermarks the call
works with are copies of published watermarks, which are below `2^64 - 1`. -/
theorem GarbageCollection_cleaned_le_of_reachable (ts fuel : Nat) (s s' : LeanStore)
    (me rand : Nat) (tryLock : Bool) (hreach : Reachable ts s)
    (hok : GarbageCollection fuel s me rand tryLock = .ok s') :
    ∀ (i : Nat) (w : WorkerContext), s.mAllWorkers[i]? = some w →
      ∃ w' : WorkerContext, s'.mAllWorkers[i]? = some w' ∧
        w.mCc.mCleanedWmkOfShortTx ≤ w'.mCc.mCleanedWmkOfShortTx := by
  intro i w hw
  have hinv := execInv_of_reachable hreach
  unfold GarbageCollection at hok
  by_cases hgc : s.mStoreOption.mEnableGc = true
  · simp only [hgc, Bool.not_true, Bool.false_eq_true, if_false] at hok
    cases hglobal : updateGlobalTxWatermarks s rand tryLock with
    | fatal => rw [hglobal] at hok; cases hok
    | undef => rw [hglobal] at hok; cases hok
    | spin => rw [hglobal] at hok; cases hok
    | ok s₁ =>
      rw [hglobal] at hok
      dsimp only at hok
      have hinv₁ := execInv_round hinv hglobal
      obtain ⟨_, hframe⟩ := updateGlobalTxWatermarks_frame s s₁ rand tryLock hglobal
      obtain ⟨w₁, hw₁, hcl, _, _, _⟩ := hframe i w hw
      cases hmy : s₁.mAllWorkers[me]? with
      | none => rw [hmy] at hok; cases hok
      | some my =>
        rw [hmy] at hok
        dsimp only at hok
        cases hlocal : updateLocalWatermarks fuel my.mCc with
        | fatal => rw [hlocal] at hok; cases hok
        | undef => rw [hlocal] at hok; cases hok
        | spin => rw [hlocal] at hok; cases hok
        | ok cc =>
          rw [hlocal] at hok
          simp only [Result.ok.injEq] at hok
          subst hok
          have hme : me < s₁.mAllWorkers.length := (List.getElem?_eq_some_iff.mp hmy).1
          by_cases him : me = i
          · subst him
            have hmw : my = w₁ := by
              rw [hmy] at hw₁
              exact Option.some.inj hw₁
            obtain ⟨hpa, hps⟩ := published_wmks_lt_of_execInv hinv₁ my (List.getElem?_mem hmy)
            have hcc := updateLocalWatermarks_ok fuel my.mCc cc hlocal
            have hla : cc.mLocalWmkOfAllTx = my.mCc.mWmkOfAllTx := by rw [hcc]
            have hls : cc.mLocalWmkOfShortTx = my.mCc.mWmkOfShortTx := by rw [hcc]
            obtain ⟨p1, _, p3⟩ := purgeStep_cleaned_le cc (by rw [hla]; exact hpa)
            obtain ⟨g1, _, _⟩ := graveyardStep_cleaned_le s₁.mStoreOption (purgeStep cc)
              (by rw [p3, hls]; exact hps)
            refine ⟨_, List.getElem?_set_self hme, ?_⟩
            show w.mCc.mCleanedWmkOfShortTx ≤
              (graveyardStep s₁.mStoreOption (purgeStep cc)).mCleanedWmkOfShortTx
            have hc0 : cc.mCleanedWmkOfShortTx = my.mCc.mCleanedWmkOfShortTx := by
              rw [hcc]
            rw [hmw] at hc0
            omega
          · refine ⟨w₁, ?_, by omega⟩
            show (s₁.mAllWorkers.set me _)[i]? = some w₁
            rw [List.getElem?_set_ne him]
            exact hw₁
  · have hgc' : s.mStoreOption.mEnableGc = false := by
      cases h : s.mStoreOption.mEnableGc
      · rfl
      · exact absurd h hgc
    simp only [hgc', Bool.not_false, if_true, Result.ok.injEq] at hok
    subst hok
    exact ⟨w, hw, le_rfl⟩

end ConcurrencyControl

end leanstore.cr
